import Mathlib

/-!
# DumpSource2 schema dumper: `src/main/dumpers/schemas/schemas.cpp`

A shallow embedding of the schema dumper and the properties of it that are
checked against the specification.

Conventions of the embedding.

* A C `char` is a `Char` with the same code, a C string or `std::string` is a
  `String`; the terminator byte is `NUL`.
* A pointer-plus-count pair of the schema system (`m_pFields` with
  `m_nFieldCount`, `m_pStaticMetadata` with `m_nStaticMetadataCount`, ...) is a
  list; a hash table walked through `GetElements` is the list of its records in
  enumeration order.
* What is streamed into a `std::ofstream` is accumulated in a `String`; the
  text reaches the file when the stream was opened successfully.
* The output tree is a tree of named nodes with POSIX path semantics. Project
  names and file names are looked up as single path segments, so the tree
  operations stand for the source on project names that are single path
  segments and type names without a path separator (`segmentNames`); the
  properties of whole runs are stated for such names.
* A name longer than `NAME_MAX` bytes cannot be looked up, created or opened.
* A `filesystem_error` raised by `is_directory`, `create_directory`,
  `directory_iterator` or `remove` ends the run; a call ends in `Run.ok` or
  `Run.threw`.
* `printf` logging is not part of the state.
-/

namespace Dumpers.Schemas

/-! ## Text primitives -/

/-- The terminator byte of a C string. -/
def NUL : Char := Char.ofNat 0

/-- The format `"\"{}\""` of `fmt::format`: the argument between double quotes. -/
def quoted (s : String) : String := "\"" ++ s ++ "\""

/-- Value of `std::memcpy(&result, p, sizeof(int))` for a 32-bit `int` on a
little-endian target: the first four bytes at `p`, least significant first, read
as a two's-complement number. -/
def int32OfBytes (p : List Char) : Int :=
  let u : Nat := ((p.getD 0 NUL).toNat % 256)
    + ((p.getD 1 NUL).toNat % 256) * 2 ^ 8
    + ((p.getD 2 NUL).toNat % 256) * 2 ^ 16
    + ((p.getD 3 NUL).toNat % 256) * 2 ^ 24
  if u < 2 ^ 31 then (u : Int) else (u : Int) - 2 ^ 32

/-- Decimal text of a signed integer, as `std::to_string(int)` and
`operator<<` print it. -/
def to_string (i : Int) : String := toString i

/-! ## Metadata entries -/

/-- The memory behind `m_pData`, as far as the dumper looks at it: the raw bytes
at the address, and the C string found by reading those bytes as a
`const char*` and following it. -/
structure MetadataPayload where
  /-- The bytes stored at `m_pData`. -/
  bytes : List Char
  /-- The string `*static_cast<const char**>(m_pData)`. -/
  pointee : String

/-- A metadata entry: `SchemaMetadataEntryData_t`. -/
structure SchemaMetadataEntryData_t where
  m_pszName : String
  m_pData : MetadataPayload

/-- Modelled from the spec: `hash_32_fnv1a_const` is declared outside the
sources at hand; it is the 32-bit FNV-1a hash of the bytes of the name (offset
basis `0x811c9dc5`, prime `0x01000193`, arithmetic modulo `2 ^ 32`). -/
def hash_32_fnv1a_const (name : String) : Nat :=
  name.data.foldl (fun value c => (Nat.xor value (c.toNat % 256)) * 0x01000193 % 2 ^ 32) 0x811c9dc5

/-- The classification tables of `metadatalist.h` (not among the sources at
hand, so a parameter), together with the platform's rendering of a `float`:
`to_string_float p` is `std::to_string` of the `float` whose object
representation is the first four bytes of `p`. -/
structure MetadataList where
  string_metadata_entries : List Nat
  integer_metadata_entries : List Nat
  float_metadata_entries : List Nat
  inline_string_metadata_entries : List Nat
  to_string_float : List Char → String

/-- The loop of lines 56 to 61: `i` is the loop counter, `n` the number of
iterations left. -/
def inlineStringLoop (result : List Char) : Nat → Nat → String
  | _, 0 => quoted (String.mk (result.take 8))
  | i, n + 1 =>
    if result.getD i NUL = NUL then quoted (String.mk (result.take i))
    else inlineStringLoop result (i + 1) n

/-- Embedding of `GetMetadataValue` (lines 37 to 64). -/
def GetMetadataValue (M : MetadataList) (entry : SchemaMetadataEntryData_t) : Option String :=
  let hashedName := hash_32_fnv1a_const entry.m_pszName
  if hashedName ∈ M.string_metadata_entries then
    some (quoted entry.m_pData.pointee)
  else if hashedName ∈ M.integer_metadata_entries then
    some (to_string (int32OfBytes entry.m_pData.bytes))
  else if hashedName ∈ M.float_metadata_entries then
    some (M.to_string_float (entry.m_pData.bytes.take 4))
  else if hashedName ∈ M.inline_string_metadata_entries then
    some (inlineStringLoop entry.m_pData.bytes 0 8)
  else
    none

/-- Embedding of `OutputMetadataEntry` (lines 66 to 74): the stream contents
after the call, given the contents before. -/
def OutputMetadataEntry (M : MetadataList) (entry : SchemaMetadataEntryData_t)
    (output : String) (tabulate : Bool) : String :=
  let output := output ++ (if tabulate then "\t" else "") ++ "// " ++ entry.m_pszName
  let output :=
    match GetMetadataValue M entry with
    | some metadataValue => output ++ " = " ++ metadataValue
    | none => output
  output ++ "\n"

/-! ## Schema records -/

/-- A field of a class: `SchemaClassFieldData_t`. `m_pType` holds the type name
`m_pType->m_sTypeName.String()`, the only part of the type the dumper reads. -/
structure SchemaClassFieldData_t where
  m_pszName : String
  m_pType : String
  m_pStaticMetadata : List SchemaMetadataEntryData_t

/-- A class record: `CSchemaClassInfo`. `m_pBaseClasses` holds the names
`m_pBaseClasses[i].m_pClass->m_pszName`, and `m_nBaseClassCount` is its
length. -/
structure CSchemaClassInfo where
  m_pszName : String
  m_pszProjectName : String
  m_pStaticMetadata : List SchemaMetadataEntryData_t
  m_pBaseClasses : List String
  m_pFields : List SchemaClassFieldData_t

/-- An enumerator: `SchemaEnumeratorInfoData_t`. -/
structure SchemaEnumeratorInfoData_t where
  m_pszName : String
  m_nValue : Int
  m_pStaticMetadata : List SchemaMetadataEntryData_t

/-- An enum record: `CSchemaEnumInfo`. -/
structure CSchemaEnumInfo where
  m_pszName : String
  m_pszProjectName : String
  m_nAlignment : Nat
  m_pStaticMetadata : List SchemaMetadataEntryData_t
  m_pEnumerators : List SchemaEnumeratorInfoData_t

/-- A type scope: `CSchemaSystemTypeScope`, its two binding tables in
enumeration order. -/
structure CSchemaSystemTypeScope where
  m_ClassBindings : List CSchemaClassInfo
  m_EnumBindings : List CSchemaEnumInfo

/-- The schema system: the registered scopes in enumeration order, and the
global scope. -/
structure CSchemaSystem where
  m_TypeScopes : List CSchemaSystemTypeScope
  GlobalTypeScope : CSchemaSystemTypeScope

/-! ## Text of one artifact -/

/-- The metadata loops (lines 100 to 104, 118 to 122, 155 to 159, 188 to 192):
every entry in order through `OutputMetadataEntry`. -/
def outputMetadata (M : MetadataList) (tabulate : Bool) :
    List SchemaMetadataEntryData_t → String → String
  | [], output => output
  | metadataEntry :: rest, output =>
    outputMetadata M tabulate rest (OutputMetadataEntry M metadataEntry output tabulate)

/-- The field loop of `DumpClasses` (lines 114 to 126), on the artifact
stream. -/
def outputFields (M : MetadataList) : List SchemaClassFieldData_t → String → String
  | [], output => output
  | field :: rest, output =>
    let output := outputMetadata M true field.m_pStaticMetadata output
    outputFields M rest (output ++ "\t" ++ field.m_pType ++ " " ++ field.m_pszName ++ ";\n")

/-- What `DumpClasses` streams into the artifact of one class (lines 99 to
128). -/
def classText (M : MetadataList) (classInfo : CSchemaClassInfo) : String :=
  let output := outputMetadata M false classInfo.m_pStaticMetadata ""
  let output := output ++ "class " ++ classInfo.m_pszName
  let output :=
    match classInfo.m_pBaseClasses with
    | [] => output
    | base :: _ => output ++ " : public " ++ base
  let output := output ++ "\n\x7b\n"
  let output := outputFields M classInfo.m_pFields output
  output ++ "\x7d;\n"

/-- The `switch` on the alignment (lines 164 to 180). -/
def alignmentTypeName (m_nAlignment : Nat) : String :=
  match m_nAlignment with
  | 1 => "uint8_t"
  | 2 => "uint16_t"
  | 4 => "uint32_t"
  | 8 => "uint64_t"
  | _ => "unknown alignment type"

/-- The enumerator loop of `DumpEnums` (lines 184 to 196), on the artifact
stream. -/
def outputEnumerators (M : MetadataList) : List SchemaEnumeratorInfoData_t → String → String
  | [], output => output
  | field :: rest, output =>
    let output := outputMetadata M true field.m_pStaticMetadata output
    outputEnumerators M rest
      (output ++ "\t" ++ field.m_pszName ++ " = " ++ to_string field.m_nValue ++ ",\n")

/-- What `DumpEnums` streams into the artifact of one enum (lines 155 to
198). -/
def enumText (M : MetadataList) (enumInfo : CSchemaEnumInfo) : String :=
  let output := outputMetadata M false enumInfo.m_pStaticMetadata ""
  let output := output ++ "enum " ++ enumInfo.m_pszName ++ " : "
  let output := output ++ alignmentTypeName enumInfo.m_nAlignment
  let output := output ++ "\n\x7b\n"
  let output := outputEnumerators M enumInfo.m_pEnumerators output
  output ++ "\x7d;\n"

/-- What the class loop appends to `Globals::stringsIgnoreStream` for one
class (lines 107 and 125). -/
def classStrings (classInfo : CSchemaClassInfo) : String :=
  classInfo.m_pFields.foldl (fun s field => s ++ field.m_pszName ++ "\n")
    (classInfo.m_pszName ++ "\n")

/-- What the enum loop appends to `Globals::stringsIgnoreStream` for one enum
(lines 162 and 195). -/
def enumStrings (enumInfo : CSchemaEnumInfo) : String :=
  enumInfo.m_pEnumerators.foldl (fun s field => s ++ field.m_pszName ++ "\n")
    (enumInfo.m_pszName ++ "\n")

/-! ## Names and paths -/

/-- The algorithm `std::replace(first, last, old_value, new_value)`. -/
def replace (old_value new_value : Char) : List Char → List Char
  | [] => []
  | c :: cs => (if c = old_value then new_value else c) :: replace old_value new_value cs

/-- The sanitized file name of lines 91, 92 and 147, 148: a copy of the type
name in which `std::replace` has put `_` for every `:`. -/
def sanitizedFileName (m_pszName : String) : String :=
  String.mk (replace ':' '_' m_pszName.data)

/-- The function `path::stem()` on a file name: the name itself when it is `.`
or `..` or has no period after its first character, and otherwise the part
before its last period. -/
def stemChars (f : List Char) : List Char :=
  if f = ['.'] ∨ f = ['.', '.'] then f
  else if '.' ∈ f.drop 1 then ((f.reverse.dropWhile (fun c => c ≠ '.')).drop 1).reverse
  else f

/-- The stem of a file name, `path(filename).stem().string()`. -/
def stem (filename : String) : String := String.mk (stemChars filename.data)

/-- The file name left by `path::replace_extension(replacement)` on a path whose
last segment is `filename`: the extension is removed, a period is added when the
replacement is not empty and does not start with one, and the replacement is
appended. -/
def replace_extension (filename replacement : String) : String :=
  match replacement.data with
  | [] => stem filename
  | c :: _ => if c = '.' then stem filename ++ replacement else stem filename ++ "." ++ replacement

/-- The file name of the artifact of a type: the last segment of
`(schemaPath / project / sanitizedFileName).replace_extension(".h")`. -/
def artifactFileName (m_pszName : String) : String :=
  replace_extension (sanitizedFileName m_pszName) ".h"

/-! ## The output tree -/

/-- A node of the output tree: a regular file with its contents, or a directory
with its entries. -/
inductive Node where
  | file (content : String) : Node
  | dir (entries : List (String × Node)) : Node

/-- The entries of a directory, by name. -/
abbrev Directory := List (String × Node)

/-- The entry of a directory with a given name. -/
def lookupEntry (name : String) : Directory → Option Node
  | [] => none
  | (n, node) :: rest => if n = name then some node else lookupEntry name rest

/-- Put `node` under `name`, in place of the entry of that name when there is
one. -/
def setEntry (name : String) (node : Node) : Directory → Directory
  | [] => [(name, node)]
  | (n, old) :: rest =>
    if n = name then (n, node) :: rest else (n, old) :: setEntry name node rest

/-- The longest name of a directory entry, in bytes: `NAME_MAX` of the file
systems the tool writes to. A longer name makes `stat`, `mkdir` and `open` fail
with `ENAMETOOLONG`. With one `Char` for each byte of a name, the number of bytes
is the length of the string. -/
def NAME_MAX : Nat := 255

/-- The environment of one run: what is found at `Globals::outputPath /
"schemas"`; the directories, as paths below the output path, whose creation the
system declines, so that `create_directory` raises a `filesystem_error` for them
(for lack of permission or of space); and the text appended to
`Globals::stringsIgnoreStream`. -/
structure World where
  schemas : Option Node
  declined : List (List String)
  stringsIgnoreStream : String

/-- The entries of the directory `schemaPath / project`, when that is a
directory. -/
def projectDirectory (w : World) (project : String) : Option Directory :=
  match w.schemas with
  | some (Node.dir root) =>
    match lookupEntry project root with
    | some (Node.dir entries) => some entries
    | _ => none
  | _ => none

/-- The outcome of `is_directory(p)` followed, when it is false, by
`create_directory(p)`: the directory is there (it was, or it has been created),
or the creation returned `false`, or a `filesystem_error` was raised.
`create_directory` returns `false` only for a directory that exists already and
raises the error whenever it cannot create one; after `is_directory` has found
no directory, in a run that is the only writer of the tree, it does not return
`false`, so the guards below never end in `notCreated`. The dumpers still have
the branch, for the `return` statements of lines 88, 144 and 218. -/
inductive Ensured where
  | ready (w : World) : Ensured
  | notCreated : Ensured
  | raised : Ensured

/-- The guard of line 216 and 217 on `schemaPath`. Creation raises an error
when something that is not a directory is in the way or when the system
declines it. -/
def ensureSchemaPath (w : World) : Ensured :=
  match w.schemas with
  | some (Node.dir _) => Ensured.ready w
  | some (Node.file _) => Ensured.raised
  | none =>
    if ["schemas"] ∈ w.declined then Ensured.raised
    else Ensured.ready { w with schemas := some (Node.dir []) }

/-- The guard of lines 86, 87 and 142, 143 on `schemaPath / project`, for a
project name that is a single path segment: the name is looked up as an entry
of the root. A name longer than `NAME_MAX` makes `is_directory` raise an error;
creation raises one when a regular file is in the way, when `schemaPath` is not
a directory, or when the system declines it. -/
def ensureProjectDirectory (w : World) (project : String) : Ensured :=
  if NAME_MAX < project.length then Ensured.raised
  else
    match w.schemas with
    | some (Node.dir root) =>
      match lookupEntry project root with
      | some (Node.dir _) => Ensured.ready w
      | some (Node.file _) => Ensured.raised
      | none =>
        if ["schemas", project] ∈ w.declined then Ensured.raised
        else Ensured.ready { w with schemas := some (Node.dir (root ++ [(project, Node.dir [])])) }
    | _ => Ensured.raised

/-- Opening `std::ofstream` on `schemaPath / project / fileName`, streaming
`text` and closing, for a project name and a file name that are single path
segments: the file is created or truncated and holds `text`. The open fails,
and nothing is written, when the name is longer than `NAME_MAX`, when it is
that of a directory, or when the project directory is missing. The stream is
not checked (lines 97 and 153), so a failed open goes unnoticed. -/
def writeArtifact (w : World) (project fileName text : String) : World :=
  if NAME_MAX < fileName.length then w
  else
    match w.schemas with
    | some (Node.dir root) =>
      match lookupEntry project root with
      | some (Node.dir entries) =>
        match lookupEntry fileName entries with
        | some (Node.dir _) => w
        | _ =>
          let entries := setEntry fileName (Node.file text) entries
          { w with schemas := some (Node.dir (setEntry project (Node.dir entries) root)) }
      | _ => w
    | _ => w

/-! ## The discovered-artifact set -/

/-- The map `foundFiles`: project name to the set of sanitized type names. -/
abbrev FoundFiles := List (String × List String)

/-- The set under a key, `foundFiles.find(project)`. -/
def findFound (project : String) : FoundFiles → Option (List String)
  | [] => none
  | (k, filesSet) :: rest => if k = project then some filesSet else findFound project rest

/-- The statement `foundFiles[project].insert(name)`. -/
def insertFound (project name : String) : FoundFiles → FoundFiles
  | [] => [(project, [name])]
  | (k, filesSet) :: rest =>
    if k = project then (k, if name ∈ filesSet then filesSet else name :: filesSet) :: rest
    else (k, filesSet) :: insertFound project name rest

/-! ## The dumpers -/

/-- How a call ends: control returns to the caller, or a `filesystem_error`
propagates. Both carry the state reached. -/
inductive Run (σ : Type) where
  | ok (s : σ) : Run σ
  | threw (s : σ) : Run σ

/-- The state threaded through the dumpers. -/
structure DumpState where
  world : World
  foundFiles : FoundFiles

/-- Embedding of `DumpClasses` (lines 76 to 130) on the classes of a scope in
enumeration order. -/
def DumpClasses (M : MetadataList) : List CSchemaClassInfo → DumpState → Run DumpState
  | [], s => Run.ok s
  | classInfo :: rest, s =>
    match ensureProjectDirectory s.world classInfo.m_pszProjectName with
    | Ensured.raised => Run.threw s
    | Ensured.notCreated => Run.ok s
    | Ensured.ready w =>
      let foundFiles :=
        insertFound classInfo.m_pszProjectName (sanitizedFileName classInfo.m_pszName) s.foundFiles
      let w := writeArtifact w classInfo.m_pszProjectName (artifactFileName classInfo.m_pszName)
        (classText M classInfo)
      let w := { w with stringsIgnoreStream := w.stringsIgnoreStream ++ classStrings classInfo }
      DumpClasses M rest { world := w, foundFiles := foundFiles }

/-- Embedding of `DumpEnums` (lines 132 to 200) on the enums of a scope in
enumeration order. -/
def DumpEnums (M : MetadataList) : List CSchemaEnumInfo → DumpState → Run DumpState
  | [], s => Run.ok s
  | enumInfo :: rest, s =>
    match ensureProjectDirectory s.world enumInfo.m_pszProjectName with
    | Ensured.raised => Run.threw s
    | Ensured.notCreated => Run.ok s
    | Ensured.ready w =>
      let foundFiles :=
        insertFound enumInfo.m_pszProjectName (sanitizedFileName enumInfo.m_pszName) s.foundFiles
      let w := writeArtifact w enumInfo.m_pszProjectName (artifactFileName enumInfo.m_pszName)
        (enumText M enumInfo)
      let w := { w with stringsIgnoreStream := w.stringsIgnoreStream ++ enumStrings enumInfo }
      DumpEnums M rest { world := w, foundFiles := foundFiles }

/-- Embedding of `DumpTypeScope` (lines 203 to 207). -/
def DumpTypeScope (M : MetadataList) (typeScope : CSchemaSystemTypeScope) (s : DumpState) :
    Run DumpState :=
  match DumpClasses M typeScope.m_ClassBindings s with
  | Run.threw s => Run.threw s
  | Run.ok s => DumpEnums M typeScope.m_EnumBindings s

/-- The loop of lines 222 and 223 over the registered scopes. -/
def dumpTypeScopes (M : MetadataList) : List CSchemaSystemTypeScope → DumpState → Run DumpState
  | [], s => Run.ok s
  | typeScope :: rest, s =>
    match DumpTypeScope M typeScope s with
    | Run.threw s => Run.threw s
    | Run.ok s => dumpTypeScopes M rest s

/-- Lines 220 to 225: the scope walk from an empty `foundFiles`, the registered
scopes and then the global scope. -/
def dumpAllScopes (M : MetadataList) (schemaSystem : CSchemaSystem) (w : World) : Run DumpState :=
  match dumpTypeScopes M schemaSystem.m_TypeScopes { world := w, foundFiles := [] } with
  | Run.threw s => Run.threw s
  | Run.ok s => DumpTypeScope M schemaSystem.GlobalTypeScope s

/-! ## The synchronizer -/

/-- The inner loop of lines 240 to 249 over the entries of a project directory.
`std::filesystem::remove` deletes a file or an empty directory and raises an
error on a directory that is not empty; the entries not yet visited are then left
as they are. -/
def removeOutdated (filesSet : List String) : Directory → Run Directory
  | [] => Run.ok []
  | (name, node) :: rest =>
    if stem name ∈ filesSet then
      match removeOutdated filesSet rest with
      | Run.ok kept => Run.ok ((name, node) :: kept)
      | Run.threw kept => Run.threw ((name, node) :: kept)
    else
      match node with
      | Node.dir (_ :: _) => Run.threw ((name, node) :: rest)
      | _ => removeOutdated filesSet rest

/-- The loop of lines 227 to 251 over the entries of `schemaPath`. A directory
that is not a key is removed with all it holds; the entries of a key are
filtered by `removeOutdated`, and iterating them raises an error when the entry
is not a directory; a file that is not a key is left alone. -/
def synchronize (foundFiles : FoundFiles) : Directory → Run Directory
  | [] => Run.ok []
  | (projectName, node) :: rest =>
    match findFound projectName foundFiles, node with
    | none, Node.dir _ => synchronize foundFiles rest
    | none, Node.file content =>
      match synchronize foundFiles rest with
      | Run.ok kept => Run.ok ((projectName, Node.file content) :: kept)
      | Run.threw kept => Run.threw ((projectName, Node.file content) :: kept)
    | some _, Node.file content => Run.threw ((projectName, Node.file content) :: rest)
    | some filesSet, Node.dir entries =>
      match removeOutdated filesSet entries with
      | Run.threw kept => Run.threw ((projectName, Node.dir kept) :: rest)
      | Run.ok kept =>
        match synchronize foundFiles rest with
        | Run.ok others => Run.ok ((projectName, Node.dir kept) :: others)
        | Run.threw others => Run.threw ((projectName, Node.dir kept) :: others)

/-- Embedding of `Dump` (lines 209 to 252): how the run ends and the
environment it leaves. -/
def Dump (M : MetadataList) (schemaSystem : CSchemaSystem) (w : World) : Run World :=
  match ensureSchemaPath w with
  | Ensured.raised => Run.threw w
  | Ensured.notCreated => Run.ok w
  | Ensured.ready w =>
    match dumpAllScopes M schemaSystem w with
    | Run.threw s => Run.threw s.world
    | Run.ok s =>
      match s.world.schemas with
      | some (Node.dir root) =>
        match synchronize s.foundFiles root with
        | Run.ok root => Run.ok { s.world with schemas := some (Node.dir root) }
        | Run.threw root => Run.threw { s.world with schemas := some (Node.dir root) }
      | _ => Run.threw s.world

/-- The discovered-artifact set of a run: `foundFiles` as the synchronizer
receives it. -/
def discovered (M : MetadataList) (schemaSystem : CSchemaSystem) (w : World) : FoundFiles :=
  match ensureSchemaPath w with
  | Ensured.ready w =>
    match dumpAllScopes M schemaSystem w with
    | Run.ok s => s.foundFiles
    | Run.threw s => s.foundFiles
  | _ => []

/-! ## The specification's description of the output

The definitions of this section follow the wording of the specification; the
theorems compare them with the embedding above. -/

/-- The four kinds of metadata value. -/
inductive MetadataKind where
  | string
  | integer
  | float
  | inlineString
  deriving DecidableEq, Repr

/-- The four tables in the order in which they are consulted: string, integer,
float, inline string. -/
def tablesInOrder (M : MetadataList) : List (MetadataKind × List Nat) :=
  [(MetadataKind.string, M.string_metadata_entries),
   (MetadataKind.integer, M.integer_metadata_entries),
   (MetadataKind.float, M.float_metadata_entries),
   (MetadataKind.inlineString, M.inline_string_metadata_entries)]

/-- The kind of the first table, in that order, that contains the hash. -/
def classify (M : MetadataList) (hashedName : Nat) : Option MetadataKind :=
  ((tablesInOrder M).find? (fun t => decide (hashedName ∈ t.2))).map Prod.fst

/-- Lines joined into a text, every line ended by a newline. -/
def unlines : List String → String
  | [] => ""
  | line :: rest => line ++ "\n" ++ unlines rest

/-- The comment line of a metadata entry, without its newline. -/
def commentLine (M : MetadataList) (tabulate : Bool) (entry : SchemaMetadataEntryData_t) : String :=
  (if tabulate then "\t" else "") ++ "// " ++ entry.m_pszName
    ++ (match GetMetadataValue M entry with
        | some value => " = " ++ value
        | none => "")

/-- The header line of a class: `class <Name>`, followed by ` : public <B>` for
the first base class `<B>` when there is one. -/
def classHeader (classInfo : CSchemaClassInfo) : String :=
  match classInfo.m_pBaseClasses.head? with
  | none => "class " ++ classInfo.m_pszName
  | some base => "class " ++ classInfo.m_pszName ++ " : public " ++ base

/-- The lines of a field: its comment lines, indented, and the field line. -/
def fieldLines (M : MetadataList) (field : SchemaClassFieldData_t) : List String :=
  field.m_pStaticMetadata.map (commentLine M true)
    ++ ["\t" ++ field.m_pType ++ " " ++ field.m_pszName ++ ";"]

/-- The lines of the artifact of a class. -/
def classLines (M : MetadataList) (classInfo : CSchemaClassInfo) : List String :=
  classInfo.m_pStaticMetadata.map (commentLine M false)
    ++ [classHeader classInfo, "\x7b"]
    ++ (classInfo.m_pFields.map (fieldLines M)).flatten
    ++ ["\x7d;"]

/-- The underlying type named in the header of an enum, by alignment. -/
def underlyingType (alignment : Nat) : String :=
  if alignment = 1 then "uint8_t"
  else if alignment = 2 then "uint16_t"
  else if alignment = 4 then "uint32_t"
  else if alignment = 8 then "uint64_t"
  else "unknown alignment type"

/-- The header line of an enum: `enum <Name> : <UnderlyingType>`. -/
def enumHeader (enumInfo : CSchemaEnumInfo) : String :=
  "enum " ++ enumInfo.m_pszName ++ " : " ++ underlyingType enumInfo.m_nAlignment

/-! ## Sample inputs -/

/-- An environment with nothing at the schemas path and no declined creation. -/
def freshWorld : World := { schemas := none, declined := [], stringsIgnoreStream := "" }

/-- A registry whose only type is one class, in a registered scope. -/
def oneClassRegistry (classInfo : CSchemaClassInfo) : CSchemaSystem :=
  { m_TypeScopes := [{ m_ClassBindings := [classInfo], m_EnumBindings := [] }],
    GlobalTypeScope := { m_ClassBindings := [], m_EnumBindings := [] } }

/-- The class `Widget` of project `UI`: no base, one field `int32 count`, no
metadata. -/
def widget : CSchemaClassInfo :=
  { m_pszName := "Widget", m_pszProjectName := "UI", m_pStaticMetadata := [],
    m_pBaseClasses := [],
    m_pFields := [{ m_pszName := "count", m_pType := "int32", m_pStaticMetadata := [] }] }

/-- A class named `Foo::Bar` in a project `P`, with nothing in it. -/
def fooBar : CSchemaClassInfo :=
  { m_pszName := "Foo::Bar", m_pszProjectName := "P", m_pStaticMetadata := [],
    m_pBaseClasses := [], m_pFields := [] }

/-- Tables in which the name `tag` is an inline string and nothing else is
classified. -/
def inlineTagTables : MetadataList :=
  { string_metadata_entries := [], integer_metadata_entries := [],
    float_metadata_entries := [],
    inline_string_metadata_entries := [hash_32_fnv1a_const "tag"],
    to_string_float := fun _ => "" }

/-- The entry `tag` whose eight payload bytes are `AB`, a terminator, and
`garba`. -/
def tagAB : SchemaMetadataEntryData_t :=
  { m_pszName := "tag",
    m_pData := { bytes := ['A', 'B', NUL, 'g', 'a', 'r', 'b', 'a'], pointee := "" } }

/-- A class named `a.b` in a project `P`, with nothing in it. -/
def dotted : CSchemaClassInfo :=
  { m_pszName := "a.b", m_pszProjectName := "P", m_pStaticMetadata := [],
    m_pBaseClasses := [], m_pFields := [] }

/-- A class with nothing in it. -/
def plainClass (name project : String) : CSchemaClassInfo :=
  { m_pszName := name, m_pszProjectName := project, m_pStaticMetadata := [],
    m_pBaseClasses := [], m_pFields := [] }

/-! ## Names and trees the run-level properties are stated for -/

/-- A type name that is not empty and has no period and no path separator. -/
def plainTypeName (name : String) : Bool :=
  decide (name.data ≠ [] ∧ '.' ∉ name.data ∧ '/' ∉ name.data)

/-- A project name that is a single path segment naming a directory entry: not
empty, not `.` or `..`, no path separator. -/
def isSegment (name : String) : Bool :=
  decide (name ≠ "" ∧ name ≠ "." ∧ name ≠ ".." ∧ '/' ∉ name.data)

/-- Every class and enum of the scope has a project name that is a segment and a
plain type name. -/
def scopeWellNamed (typeScope : CSchemaSystemTypeScope) : Bool :=
  typeScope.m_ClassBindings.all
      (fun classInfo => isSegment classInfo.m_pszProjectName && plainTypeName classInfo.m_pszName)
    && typeScope.m_EnumBindings.all
      (fun enumInfo => isSegment enumInfo.m_pszProjectName && plainTypeName enumInfo.m_pszName)

/-- Every scope of the registry is well named. -/
def wellNamed (schemaSystem : CSchemaSystem) : Bool :=
  schemaSystem.m_TypeScopes.all scopeWellNamed && scopeWellNamed schemaSystem.GlobalTypeScope

/-- A type name without a path separator. -/
def separatorFree (name : String) : Bool := decide ('/' ∉ name.data)

/-- Every class and enum of the scope has a project name that is a single path
segment and a type name without a path separator, so that the directory of the
project is an entry of the output root and the artifact is an entry of that
directory. -/
def scopeSegmentNames (typeScope : CSchemaSystemTypeScope) : Bool :=
  typeScope.m_ClassBindings.all
      (fun classInfo => isSegment classInfo.m_pszProjectName && separatorFree classInfo.m_pszName)
    && typeScope.m_EnumBindings.all
      (fun enumInfo => isSegment enumInfo.m_pszProjectName && separatorFree enumInfo.m_pszName)

/-- The names of the registry are segment names in every scope. -/
def segmentNames (schemaSystem : CSchemaSystem) : Bool :=
  schemaSystem.m_TypeScopes.all scopeSegmentNames
    && scopeSegmentNames schemaSystem.GlobalTypeScope

/-- Whether a node is a regular file. -/
def Node.isFile : Node → Bool
  | Node.file _ => true
  | Node.dir _ => false

/-- The entries of the output root before the run; none when the root is
absent. -/
def priorRoot (w : World) : Directory :=
  match w.schemas with
  | some (Node.dir root) => root
  | _ => []

/-- The state reached when lines 91 to 128 (or 147 to 198) have run for a type,
from the environment `w` left by the guard. -/
def dumped (w : World) (project name text strings : String) (foundFiles : FoundFiles) :
    DumpState :=
  let w := writeArtifact w project (artifactFileName name) text
  { world := { w with stringsIgnoreStream := w.stringsIgnoreStream ++ strings },
    foundFiles := insertFound project (sanitizedFileName name) foundFiles }

/-- What the synchronizer leaves of an output root when it completes: the
regular files of the root, and the directories that are keys of `foundFiles`,
each with the entries whose stem is in the set of the key. -/
def synchronized (foundFiles : FoundFiles) (root : Directory) : Directory :=
  root.filterMap (fun p =>
    match p.2 with
    | Node.file content => some (p.1, Node.file content)
    | Node.dir entries =>
      match findFound p.1 foundFiles with
      | none => none
      | some filesSet =>
        some (p.1, Node.dir (entries.filter (fun q => decide (stem q.1 ∈ filesSet)))))

/-- Tables that classify no name. -/
def noTables : MetadataList :=
  { string_metadata_entries := [], integer_metadata_entries := [],
    float_metadata_entries := [], inline_string_metadata_entries := [],
    to_string_float := fun _ => "" }

/-- The contract of the synchronizer as the specification words it: the root
holds one directory for each key of the discovered-artifact set and nothing
else, and the directory of a key holds the file `<name>.h` of each name recorded
for the key and nothing else. -/
def mirrors (foundFiles : FoundFiles) (root : Directory) : Bool :=
  decide (root.map Prod.fst).Nodup
    && foundFiles.all (fun k => root.any (fun p => decide (p.1 = k.1) && !p.2.isFile))
    && root.all (fun p =>
        match p.2 with
        | Node.file _ => false
        | Node.dir entries =>
          match findFound p.1 foundFiles with
          | none => false
          | some filesSet =>
            decide (entries.map Prod.fst).Nodup
              && filesSet.all (fun n => entries.any (fun q => decide (q.1 = n ++ ".h") && q.2.isFile))
              && entries.all (fun q => q.2.isFile && filesSet.any (fun n => decide (q.1 = n ++ ".h"))))

/-- A registry whose only type is the class `A` of project `P`. -/
def registryA : CSchemaSystem := oneClassRegistry (plainClass "A" "P")

/-- An output tree with the artifacts `P/A.h` and `P/B.h` of an earlier run, a
file `P/A.txt` next to them and a regular file `README` at the root. -/
def usedWorld : World :=
  { schemas := some (Node.dir
      [("P", Node.dir [("A.h", Node.file "old"), ("B.h", Node.file "old"),
                       ("A.txt", Node.file "notes")]),
       ("README", Node.file "readme")]),
    declined := [],
    stringsIgnoreStream := "" }

/-- The tree that `Dump` leaves of `usedWorld` for `registryA`. -/
def usedRootAfter : Directory :=
  [("P", Node.dir [("A.h", Node.file "class A\n\x7b\n\x7d;\n"), ("A.txt", Node.file "notes")]),
   ("README", Node.file "readme")]

/-- An output tree with the artifacts `P/A.h` and `P/B.h` of an earlier run, a
file `P/A.txt`, a directory `P/A` that holds a file, an empty directory `P/tmp`,
and a regular file `README` at the root. -/
def nestedWorld : World :=
  { schemas := some (Node.dir
      [("P", Node.dir [("A.h", Node.file "old"), ("B.h", Node.file "old"),
                       ("A.txt", Node.file "notes"),
                       ("A", Node.dir [("deep.h", Node.file "deep")]),
                       ("tmp", Node.dir [])]),
       ("README", Node.file "readme")]),
    declined := [],
    stringsIgnoreStream := "" }

/-! ## Further descriptions from the specification -/

/-- The state a call ends in, whichever way it ends. -/
def Run.state {σ : Type} : Run σ → σ
  | Run.ok s => s
  | Run.threw s => s

/-- Sanitization as the specification words it: every `:` becomes `_`, every
other character stays. -/
def colonsToUnderscores (name : String) : String :=
  String.mk (name.data.map (fun c => if c = ':' then '_' else c))

/-- The unsigned number whose little-endian bytes are given, least significant
first. -/
def littleEndian : List Char → Nat
  | [] => 0
  | b :: rest => b.toNat % 256 + 256 * littleEndian rest

/-- The 32-bit two's-complement reading of an unsigned 32-bit number. -/
def twosComplement32 (u : Nat) : Int :=
  if u < 2 ^ 31 then (u : Int) else (u : Int) - 2 ^ 32

/-- The double quote character. -/
def doubleQuote : Char := Char.ofNat 34

/-- A text wrapped in double quotes. -/
def inDoubleQuotes (s : String) : String := String.mk (doubleQuote :: (s.data ++ [doubleQuote]))

/-- The first `n` bytes of a payload, all of it when it is shorter. -/
def firstBytes : Nat → List Char → List Char
  | 0, _ => []
  | _ + 1, [] => []
  | n + 1, b :: rest => b :: firstBytes n rest

/-- The bytes before the first terminator byte, all of them when there is
none. -/
def beforeTerminator : List Char → List Char
  | [] => []
  | b :: rest => if b = NUL then [] else b :: beforeTerminator rest

/-- The formatting rule of each kind, as the specification words it. String:
the pointed-to text in double quotes. Integer: the first four bytes read as a
little-endian two's-complement 32-bit number, in decimal. Float: the first four
bytes read as a `float`, through the platform's default conversion. Inline
string: of the first eight bytes, those before the first terminator, in double
quotes. -/
def formatAs (M : MetadataList) (payload : MetadataPayload) : MetadataKind → String
  | MetadataKind.string => inDoubleQuotes payload.pointee
  | MetadataKind.integer =>
    toString (twosComplement32 (littleEndian (firstBytes 4 payload.bytes)))
  | MetadataKind.float => M.to_string_float (firstBytes 4 payload.bytes)
  | MetadataKind.inlineString =>
    inDoubleQuotes (String.mk (beforeTerminator (firstBytes 8 payload.bytes)))

/-- Tables in which `title` is a string, `count` an integer, `scale` a float
and `tag` an inline string, and `both` is in the string table and in the integer
table. The float rendering knows the four bytes `00 00 C0 3F` of the number
`1.5` and answers `?` for any other bytes. -/
def sampleTables : MetadataList :=
  { string_metadata_entries := [hash_32_fnv1a_const "title", hash_32_fnv1a_const "both"],
    integer_metadata_entries := [hash_32_fnv1a_const "count", hash_32_fnv1a_const "both"],
    float_metadata_entries := [hash_32_fnv1a_const "scale"],
    inline_string_metadata_entries := [hash_32_fnv1a_const "tag"],
    to_string_float := fun p =>
      if p = [Char.ofNat 0, Char.ofNat 0, Char.ofNat 192, Char.ofNat 63] then "1.500000" else "?" }

/-- A metadata entry with the given name, payload bytes and pointed-to text. -/
def sampleEntry (name : String) (bytes : List Char) (pointee : String) :
    SchemaMetadataEntryData_t :=
  { m_pszName := name, m_pData := { bytes := bytes, pointee := pointee } }

/-- The lines of an enumerator: its comment lines, indented, and the line
`<tab><Name> = <Value>,` with the value in decimal. -/
def enumeratorLines (M : MetadataList) (field : SchemaEnumeratorInfoData_t) : List String :=
  field.m_pStaticMetadata.map (commentLine M true)
    ++ ["\t" ++ field.m_pszName ++ " = " ++ to_string field.m_nValue ++ ","]

/-- The lines of the artifact of an enum. -/
def enumLines (M : MetadataList) (enumInfo : CSchemaEnumInfo) : List String :=
  enumInfo.m_pStaticMetadata.map (commentLine M false)
    ++ [enumHeader enumInfo, "\x7b"]
    ++ (enumInfo.m_pEnumerators.map (enumeratorLines M)).flatten
    ++ ["\x7d;"]

/-- Tables in which the name `count` is an integer and nothing else is
classified. -/
def integerCountTables : MetadataList :=
  { string_metadata_entries := [], integer_metadata_entries := [hash_32_fnv1a_const "count"],
    float_metadata_entries := [], inline_string_metadata_entries := [],
    to_string_float := fun _ => "" }

/-- The entry `count` whose payload starts with the bytes `FF FF FF FF`,
followed by two more bytes. -/
def countMinusOne : SchemaMetadataEntryData_t :=
  { m_pszName := "count",
    m_pData :=
      { bytes := [Char.ofNat 255, Char.ofNat 255, Char.ofNat 255, Char.ofNat 255, 'x', 'y'],
        pointee := "" } }

/-- The names of a discovered-artifact set have no `:`. -/
def colonFree (foundFiles : FoundFiles) : Prop :=
  ∀ k ∈ foundFiles, ∀ n ∈ k.2, ':' ∉ n.data

/-- The tree of `usedWorld` when the scopes of `registryA` have been walked:
the synchronizer starts from it. -/
def usedRootDumped : Directory :=
  [("P", Node.dir [("A.h", Node.file "class A\n\x7b\n\x7d;\n"), ("B.h", Node.file "old"),
                   ("A.txt", Node.file "notes")]),
   ("Q", Node.dir [("C.h", Node.file "old")]),
   ("README", Node.file "readme")]

/-- An output root in which the directory of `P` holds the file `A.h`, a
directory `old` that is not empty, and the file `B.h`, in that order. -/
def rootWithFullDirectory : Directory :=
  [("P", Node.dir [("A.h", Node.file "a"), ("old", Node.dir [("x.h", Node.file "x")]),
                   ("B.h", Node.file "b")])]

/-- An output root in which the directory of `P` holds the file `A.h` and a
directory `old` that is not empty, followed by a directory `Q` with one file. -/
def rootWithStaleProject : Directory :=
  [("P", Node.dir [("A.h", Node.file "a"), ("old", Node.dir [("x.h", Node.file "x")])]),
   ("Q", Node.dir [("C.h", Node.file "c")])]

/-! ## The run as a sequence of writes

The scope walk handles one type after the other; what it does with a type
depends on the project name, the type name and the text of the artifact only.
These definitions describe a run in which no guard fails, as operations on the
entries of the output root. -/

/-- What the dumpers use of one class or enum: its project, its name, the text
of its artifact and what it appends to `Globals::stringsIgnoreStream`. -/
structure Item where
  project : String
  name : String
  text : String
  strings : String

/-- The item of a class. -/
def classItem (M : MetadataList) (classInfo : CSchemaClassInfo) : Item :=
  { project := classInfo.m_pszProjectName, name := classInfo.m_pszName,
    text := classText M classInfo, strings := classStrings classInfo }

/-- The item of an enum. -/
def enumItem (M : MetadataList) (enumInfo : CSchemaEnumInfo) : Item :=
  { project := enumInfo.m_pszProjectName, name := enumInfo.m_pszName,
    text := enumText M enumInfo, strings := enumStrings enumInfo }

/-- The items of a scope in the order in which `DumpTypeScope` handles them:
the classes, then the enums. -/
def scopeItems (M : MetadataList) (typeScope : CSchemaSystemTypeScope) : List Item :=
  typeScope.m_ClassBindings.map (classItem M) ++ typeScope.m_EnumBindings.map (enumItem M)

/-- The items of the registry in the order in which `Dump` handles them: the
registered scopes in enumeration order, then the global scope. -/
def registryItems (M : MetadataList) (schemaSystem : CSchemaSystem) : List Item :=
  (schemaSystem.m_TypeScopes.map (scopeItems M)).flatten
    ++ scopeItems M schemaSystem.GlobalTypeScope

/-- The loop body shared by `DumpClasses` and `DumpEnums`, on items. -/
def runItems : List Item → DumpState → Run DumpState
  | [], s => Run.ok s
  | item :: rest, s =>
    match ensureProjectDirectory s.world item.project with
    | Ensured.raised => Run.threw s
    | Ensured.notCreated => Run.ok s
    | Ensured.ready w =>
      runItems rest (dumped w item.project item.name item.text item.strings s.foundFiles)

/-- The entries of a project directory after `std::ofstream` has been opened on
`fileName` and `text` streamed: unchanged when the name is longer than
`NAME_MAX` or is that of a directory, and otherwise with the file `fileName`
holding `text`. -/
def writeEntry (fileName text : String) (entries : Directory) : Directory :=
  if NAME_MAX < fileName.length then entries
  else
    match lookupEntry fileName entries with
    | some (Node.dir _) => entries
    | _ => setEntry fileName (Node.file text) entries

/-- Whether the guard on `schemaPath / project` lets the dumper go on, in a root
with the given entries: the name is not longer than `NAME_MAX`, and the entry is
a directory, or is absent and its creation is not declined. -/
def canEnter (declined : List (List String)) (root : Directory) (project : String) : Bool :=
  decide (project.length ≤ NAME_MAX)
    && match lookupEntry project root with
       | some (Node.dir _) => true
       | some (Node.file _) => false
       | none => decide (["schemas", project] ∉ declined)

/-- Apply `g` to the entries of the directory `project` of a root, creating the
directory when the root has no entry of that name and leaving the root as it is
when the entry is a regular file. -/
def modifyDir (project : String) (g : Directory → Directory) : Directory → Directory
  | [] => [(project, Node.dir (g []))]
  | (n, node) :: rest =>
    if n = project then
      match node with
      | Node.dir entries => (n, Node.dir (g entries)) :: rest
      | Node.file content => (n, Node.file content) :: rest
    else (n, node) :: modifyDir project g rest

/-- The root after the guard and the write of one item. -/
def writeStep (item : Item) (root : Directory) : Directory :=
  modifyDir item.project (writeEntry (artifactFileName item.name) item.text) root

/-- The root after the writes of all items, in order. -/
def writeAll : List Item → Directory → Directory
  | [], root => root
  | item :: rest, root => writeAll rest (writeStep item root)

/-- The discovered-artifact set after all items have been recorded, in order. -/
def recordAll : List Item → FoundFiles → FoundFiles
  | [], foundFiles => foundFiles
  | item :: rest, foundFiles =>
    recordAll rest (insertFound item.project (sanitizedFileName item.name) foundFiles)

/-- Whether `std::filesystem::remove` succeeds on a node: a regular file or an
empty directory. -/
def Node.removable : Node → Bool
  | Node.dir (_ :: _) => false
  | _ => true

/-- Whether the synchronizer completes on a root: no regular file bears the name
of a key, and in the directory of a key every entry whose stem is not recorded
can be removed. -/
def syncable (foundFiles : FoundFiles) (root : Directory) : Prop :=
  (∀ name content, (name, Node.file content) ∈ root → findFound name foundFiles = none)
    ∧ (∀ name entries filesSet, (name, Node.dir entries) ∈ root →
        findFound name foundFiles = some filesSet →
        ∀ p ∈ entries, stem p.1 ∉ filesSet → p.2.removable = true)

/-- Whether two items are written to the same path. -/
def sameTarget (a b : Item) : Bool :=
  decide (a.project = b.project ∧ artifactFileName a.name = artifactFileName b.name)

/-- The write of an item changes no list of entries in a root any more: its
project is a directory with an entry of the artifact's name, or the name of the
artifact is too long to be opened, or its project is a regular file. -/
def present (root : Directory) (item : Item) : Prop :=
  match lookupEntry item.project root with
  | some (Node.dir entries) =>
    NAME_MAX < (artifactFileName item.name).length
      ∨ lookupEntry (artifactFileName item.name) entries ≠ none
  | some (Node.file _) => True
  | none => False

/-- In the directory of a key, every entry whose stem is not recorded is a
regular file. -/
def strayFilesOnly (foundFiles : FoundFiles) (root : Directory) : Prop :=
  ∀ name entries filesSet, (name, Node.dir entries) ∈ root →
    findFound name foundFiles = some filesSet →
    ∀ p ∈ entries, stem p.1 ∉ filesSet → p.2.isFile = true

/-- What is found at `project / fileName` below a root. -/
def lookupPath (root : Directory) (project fileName : String) : Option Node :=
  match lookupEntry project root with
  | some (Node.dir entries) => lookupEntry fileName entries
  | _ => none

/-- Whether the open of the artifact of an item succeeds, judged on a root: the
file name is not longer than `NAME_MAX`, and what it names in the directory of
the project is not a directory. -/
def opens (root : Directory) (item : Item) : Bool :=
  decide ((artifactFileName item.name).length ≤ NAME_MAX)
    && match lookupPath root item.project (artifactFileName item.name) with
       | some (Node.dir _) => false
       | _ => true

/-- Whether the deletions of the synchronizer succeed, judged on a root: in the
directory of a key, every entry whose stem is not recorded is a regular file or
an empty directory, which `std::filesystem::remove` deletes. -/
def deletionsSucceed (foundFiles : FoundFiles) (root : Directory) : Bool :=
  root.all (fun p =>
    match p.2 with
    | Node.file _ => true
    | Node.dir entries =>
      match findFound p.1 foundFiles with
      | none => true
      | some filesSet =>
        entries.all (fun q => decide (stem q.1 ∈ filesSet) || q.2.removable))

/-- A root as a file system holds it: the names of its entries are distinct, and
so are the names in each of its directories. -/
def distinctNames (root : Directory) : Bool :=
  decide (root.map Prod.fst).Nodup
    && root.all (fun p =>
        match p.2 with
        | Node.file _ => true
        | Node.dir entries => decide (entries.map Prod.fst).Nodup)

/-- Every directory creation, file open and deletion of a run succeeds, judged
on the environment before the run: the guard on the schemas path does not fail;
for every type of the registry the guard on the directory of its project does
not fail and the open of its artifact succeeds; and the synchronizer can delete
what it has to, given the names that the run records. -/
def operationsSucceed (M : MetadataList) (schemaSystem : CSchemaSystem) (w : World) : Bool :=
  (match ensureSchemaPath w with
   | Ensured.raised => false
   | _ => true)
    && (registryItems M schemaSystem).all
        (fun item => canEnter w.declined (priorRoot w) item.project && opens (priorRoot w) item)
    && deletionsSucceed (recordAll (registryItems M schemaSystem) []) (priorRoot w)

/-- A registry with one registered scope, holding the classes `A::B` and `A__B`
of project `P`, and a global scope holding the enum `A__B` of project `P`. -/
def collidingRegistry : CSchemaSystem :=
  { m_TypeScopes :=
      [{ m_ClassBindings := [plainClass "A::B" "P", plainClass "A__B" "P"],
         m_EnumBindings := [] }],
    GlobalTypeScope :=
      { m_ClassBindings := [],
        m_EnumBindings :=
          [{ m_pszName := "A__B", m_pszProjectName := "P", m_nAlignment := 2,
             m_pStaticMetadata := [], m_pEnumerators := [] }] } }

/-- An enum with nothing in it. -/
def plainEnum (name project : String) (alignment : Nat) : CSchemaEnumInfo :=
  { m_pszName := name, m_pszProjectName := project, m_nAlignment := alignment,
    m_pStaticMetadata := [], m_pEnumerators := [] }

/-- A registry with one registered scope, holding the class `A` and the enum
`A` of project `P`, and a global scope holding the class `A.x` of project
`P`. -/
def shadowedRegistry : CSchemaSystem :=
  { m_TypeScopes :=
      [{ m_ClassBindings := [plainClass "A" "P"], m_EnumBindings := [plainEnum "A" "P" 4] }],
    GlobalTypeScope := { m_ClassBindings := [plainClass "A.x" "P"], m_EnumBindings := [] } }

/-- A registry with one registered scope, holding the class `a.b` and the enum
`a.b` of project `P`, and an empty global scope. -/
def dottedPairRegistry : CSchemaSystem :=
  { m_TypeScopes :=
      [{ m_ClassBindings := [plainClass "a.b" "P"], m_EnumBindings := [plainEnum "a.b" "P" 4] }],
    GlobalTypeScope := { m_ClassBindings := [], m_EnumBindings := [] } }

theorem OutputMetadataEntry_append (M : MetadataList) (entry : SchemaMetadataEntryData_t)
    (output : String) (tabulate : Bool) :
    OutputMetadataEntry M entry output tabulate
      = output ++ OutputMetadataEntry M entry "" tabulate := by
  unfold OutputMetadataEntry
  cases GetMetadataValue M entry <;> simp [String.append_assoc]

theorem outputMetadata_append (M : MetadataList) (tabulate : Bool)
    (l : List SchemaMetadataEntryData_t) (output : String) :
    outputMetadata M tabulate l output = output ++ outputMetadata M tabulate l "" := by
  induction l generalizing output with
  | nil => simp [outputMetadata]
  | cons e rest ih =>
    simp only [outputMetadata]
    rw [ih, ih (OutputMetadataEntry M e "" tabulate), OutputMetadataEntry_append,
      String.append_assoc]

theorem outputFields_append (M : MetadataList) (l : List SchemaClassFieldData_t)
    (output : String) :
    outputFields M l output = output ++ outputFields M l "" := by
  induction l generalizing output with
  | nil => simp [outputFields]
  | cons f rest ih =>
    simp only [outputFields]
    rw [ih, ih (_ ++ ";\n"), outputMetadata_append]
    simp [String.append_assoc]

theorem outputEnumerators_append (M : MetadataList) (l : List SchemaEnumeratorInfoData_t)
    (output : String) :
    outputEnumerators M l output = output ++ outputEnumerators M l "" := by
  induction l generalizing output with
  | nil => simp [outputEnumerators]
  | cons f rest ih =>
    simp only [outputEnumerators]
    rw [ih, ih (_ ++ ",\n"), outputMetadata_append]
    simp [String.append_assoc]

/-! ## Reading the payload -/

theorem getD_of_drop_nil (l : List Char) (i : Nat) (h : l.drop i = []) : l.getD i NUL = NUL := by
  rw [List.drop_eq_nil_iff] at h
  rw [List.getD_eq_getElem?_getD, List.getElem?_eq_none h]
  rfl

theorem parts_of_drop_cons (l : List Char) (i : Nat) (c : Char) (rest : List Char)
    (h : l.drop i = c :: rest) :
    l.getD i NUL = c ∧ l.take (i + 1) = l.take i ++ [c] ∧ l.drop (i + 1) = rest := by
  have hget : l[i]? = some c := by
    have := List.getElem?_drop (L := l) (i := i) (j := 0)
    rw [h] at this
    simpa using this.symm
  refine ⟨?_, ?_, ?_⟩
  · rw [List.getD_eq_getElem?_getD, hget]; rfl
  · rw [List.take_succ, hget]; rfl
  · have : l.drop (i + 1) = (l.drop i).drop 1 := by rw [List.drop_drop, Nat.add_comm]
    rw [this, h]; rfl

theorem inlineStringLoop_eq (result : List Char) :
    ∀ (n i : Nat), i + n = 8 →
      inlineStringLoop result i n
        = quoted (String.mk (result.take i
            ++ ((result.drop i).take n).takeWhile (fun c => c ≠ NUL))) := by
  intro n
  induction n with
  | zero =>
    intro i hi
    have : i = 8 := by omega
    subst this
    simp [inlineStringLoop]
  | succ n ih =>
    intro i hi
    rw [inlineStringLoop]
    cases hd : result.drop i with
    | nil =>
      rw [if_pos (getD_of_drop_nil result i hd)]
      simp
    | cons c rest =>
      obtain ⟨hc, htake, hdrop⟩ := parts_of_drop_cons result i c rest hd
      rw [hc]
      by_cases hnul : c = NUL
      · rw [if_pos hnul]
        simp [List.takeWhile, hnul]
      · rw [if_neg hnul, ih (i + 1) (by omega), htake, hdrop]
        simp [List.takeWhile, hnul]

theorem inlineStringLoop_spec (result : List Char) :
    inlineStringLoop result 0 8
      = quoted (String.mk ((result.take 8).takeWhile (fun c => c ≠ NUL))) := by
  rw [inlineStringLoop_eq result 8 0 (by omega)]
  simp

/-- C7: for an inline-string entry with an 8-byte payload, `GetMetadataValue`
returns, between double quotes, the bytes before the first zero byte; all eight
bytes when none is zero; the bytes after the first terminator do not appear;
and the quoted content is at most 8 bytes long. -/
theorem GetMetadataValue_inline_string (M : MetadataList) (entry : SchemaMetadataEntryData_t)
    (hs : hash_32_fnv1a_const entry.m_pszName ∉ M.string_metadata_entries)
    (hi : hash_32_fnv1a_const entry.m_pszName ∉ M.integer_metadata_entries)
    (hf : hash_32_fnv1a_const entry.m_pszName ∉ M.float_metadata_entries)
    (hn : hash_32_fnv1a_const entry.m_pszName ∈ M.inline_string_metadata_entries)
    (hlen : entry.m_pData.bytes.length = 8) :
    GetMetadataValue M entry
        = some (quoted (String.mk (entry.m_pData.bytes.takeWhile (fun c => c ≠ NUL))))
      ∧ (NUL ∉ entry.m_pData.bytes →
          GetMetadataValue M entry = some (quoted (String.mk entry.m_pData.bytes)))
      ∧ (∀ before after : List Char, entry.m_pData.bytes = before ++ NUL :: after →
          NUL ∉ before → GetMetadataValue M entry = some (quoted (String.mk before)))
      ∧ (entry.m_pData.bytes.takeWhile (fun c => c ≠ NUL)).length ≤ 8 := by
  have htake : entry.m_pData.bytes.take 8 = entry.m_pData.bytes := by
    rw [← hlen]; exact List.take_length _
  have hval : GetMetadataValue M entry
      = some (quoted (String.mk (entry.m_pData.bytes.takeWhile (fun c => c ≠ NUL)))) := by
    unfold GetMetadataValue
    simp only [if_neg hs, if_neg hi, if_neg hf, if_pos hn]
    rw [inlineStringLoop_spec, htake]
  refine ⟨hval, ?_, ?_, ?_⟩
  · intro hno
    rw [hval]
    have : entry.m_pData.bytes.takeWhile (fun c => c ≠ NUL) = entry.m_pData.bytes := by
      rw [List.takeWhile_eq_self_iff]
      intro c hc
      have : c ≠ NUL := fun h => hno (h ▸ hc)
      simpa using this
    rw [this]
  · intro before after hsplit hno
    rw [hval, hsplit]
    have : (before ++ NUL :: after).takeWhile (fun c => c ≠ NUL) = before := by
      rw [List.takeWhile_append_of_pos]
      · simp [List.takeWhile]
      · intro c hc
        have : c ≠ NUL := fun h => hno (h ▸ hc)
        simpa using this
    rw [this]
  · calc (entry.m_pData.bytes.takeWhile (fun c => c ≠ NUL)).length
        ≤ entry.m_pData.bytes.length := (List.takeWhile_sublist _).length_le
      _ = 8 := hlen

/-- C7, at the payload `AB`, terminator, `garba`: the value is `"AB"`. -/
theorem GetMetadataValue_inline_string_witness :
    tagAB.m_pData.bytes.length = 8
      ∧ GetMetadataValue inlineTagTables tagAB = some "\"AB\"" :=
  ⟨by decide,
   (GetMetadataValue_inline_string inlineTagTables tagAB (by decide) (by decide) (by decide)
      (by decide) (by decide)).1.trans (by decide)⟩

/-- C8: the header of an enum names `uint8_t`, `uint16_t`, `uint32_t`,
`uint64_t` for the alignments 1, 2, 4, 8 and the text `unknown alignment type`
for every other alignment, and the artifact goes on with the opening brace, the
enumerators and the closing line whatever the alignment is. -/
theorem enum_underlying_type (M : MetadataList) (enumInfo : CSchemaEnumInfo) :
    enumText M enumInfo
        = outputMetadata M false enumInfo.m_pStaticMetadata ""
          ++ enumHeader enumInfo ++ "\n\x7b\n"
          ++ outputEnumerators M enumInfo.m_pEnumerators "" ++ "\x7d;\n"
      ∧ alignmentTypeName enumInfo.m_nAlignment = underlyingType enumInfo.m_nAlignment
      ∧ underlyingType 1 = "uint8_t" ∧ underlyingType 2 = "uint16_t"
      ∧ underlyingType 4 = "uint32_t" ∧ underlyingType 8 = "uint64_t"
      ∧ underlyingType 0 = "unknown alignment type"
      ∧ underlyingType 3 = "unknown alignment type"
      ∧ underlyingType 16 = "unknown alignment type" := by
  have halign : ∀ a, alignmentTypeName a = underlyingType a := by
    intro a
    unfold alignmentTypeName underlyingType
    split <;> simp_all
  refine ⟨?_, halign _, by decide, by decide, by decide, by decide, by decide, by decide,
    by decide⟩
  unfold enumText enumHeader
  simp only []
  rw [outputEnumerators_append, halign]
  simp [String.append_assoc]

theorem classText_parts (M : MetadataList) (classInfo : CSchemaClassInfo) :
    classText M classInfo
      = outputMetadata M false classInfo.m_pStaticMetadata ""
        ++ classHeader classInfo ++ "\n\x7b\n"
        ++ outputFields M classInfo.m_pFields "" ++ "\x7d;\n" := by
  unfold classText classHeader
  simp only []
  rw [outputFields_append]
  cases classInfo.m_pBaseClasses <;> simp [String.append_assoc]

/-- C9: the header line of a class is `class <Name>` when the base-class list
is empty and `class <Name> : public <B>` with the first entry `<B>` of the list
otherwise; the base classes after the first do not reach the artifact. -/
theorem class_header_first_base (M : MetadataList) (classInfo : CSchemaClassInfo) :
    classText M classInfo
        = outputMetadata M false classInfo.m_pStaticMetadata ""
          ++ classHeader classInfo ++ "\n\x7b\n"
          ++ outputFields M classInfo.m_pFields "" ++ "\x7d;\n"
      ∧ classHeader { classInfo with m_pBaseClasses := [] } = "class " ++ classInfo.m_pszName
      ∧ (∀ (base : String) (others : List String),
          classHeader { classInfo with m_pBaseClasses := base :: others }
              = "class " ++ classInfo.m_pszName ++ " : public " ++ base
            ∧ classText M { classInfo with m_pBaseClasses := base :: others }
              = classText M { classInfo with m_pBaseClasses := [base] }) := by
  exact ⟨classText_parts M classInfo, rfl, fun base others => ⟨rfl, rfl⟩⟩

/-! ## The artifact as lines -/

theorem unlines_append (a b : List String) : unlines (a ++ b) = unlines a ++ unlines b := by
  induction a with
  | nil => simp [unlines]
  | cons line rest ih => simp [unlines, ih, String.append_assoc]

theorem OutputMetadataEntry_line (M : MetadataList) (entry : SchemaMetadataEntryData_t)
    (tabulate : Bool) :
    OutputMetadataEntry M entry "" tabulate = commentLine M tabulate entry ++ "\n" := by
  unfold OutputMetadataEntry commentLine
  cases GetMetadataValue M entry <;> simp [String.append_assoc]

theorem outputMetadata_lines (M : MetadataList) (tabulate : Bool)
    (l : List SchemaMetadataEntryData_t) :
    outputMetadata M tabulate l "" = unlines (l.map (commentLine M tabulate)) := by
  induction l with
  | nil => rfl
  | cons e rest ih =>
    simp only [outputMetadata, List.map_cons, unlines]
    rw [outputMetadata_append, ih, OutputMetadataEntry_line]

theorem outputFields_lines (M : MetadataList) (l : List SchemaClassFieldData_t) :
    outputFields M l "" = unlines (l.map (fieldLines M)).flatten := by
  induction l with
  | nil => rfl
  | cons f rest ih =>
    simp only [outputFields, List.map_cons, List.flatten_cons]
    rw [outputFields_append, ih, unlines_append, outputMetadata_lines]
    simp [fieldLines, unlines_append, unlines, String.append_assoc]

/-- C10: the artifact text of a class is, line by line and every line ended by
a newline: the comment line of each class-level metadata entry in order, not
indented; the header line; the line `{`; for each field in declaration order the
comment lines of its metadata, each after one tab, and the line
`<tab><TypeName> <FieldName>;`; the line `};`. For the class `Widget` of project
`UI` the run leaves `UI/Widget.h` holding `class Widget`, `{`, `<tab>int32 count;`,
`};`. -/
theorem class_artifact_lines (M : MetadataList) (classInfo : CSchemaClassInfo) :
    classText M classInfo = unlines (classLines M classInfo)
      ∧ classLines M widget = ["class Widget", "\x7b", "\tint32 count;", "\x7d;"]
      ∧ Dump M (oneClassRegistry widget) freshWorld
        = Run.ok
          { schemas := some (Node.dir
              [("UI", Node.dir [("Widget.h", Node.file "class Widget\n\x7b\n\tint32 count;\n\x7d;\n")])]),
            declined := [],
            stringsIgnoreStream := "Widget\ncount\n" } := by
  refine ⟨?_, rfl, rfl⟩
  rw [classText_parts]
  unfold classLines
  rw [outputMetadata_lines, outputFields_lines]
  have hbrace : ∀ x : String, "\n\x7b\n" ++ x = "\n" ++ ("\x7b\n" ++ x) := fun x => by
    rw [← String.append_assoc]; rfl
  simp [unlines_append, unlines, String.append_assoc, hbrace]

/-! ## File names of artifacts -/

/-- C5, as stated: the segment of a class named `Foo::Bar` is not `Foo_Bar`,
neither as the name recorded in the discovered-artifact set nor as the base name
of the file. -/
theorem foo_bar_segment_is_not_Foo_Bar :
    sanitizedFileName "Foo::Bar" ≠ "Foo_Bar"
      ∧ stem (artifactFileName "Foo::Bar") ≠ "Foo_Bar"
      ∧ discovered noTables (oneClassRegistry fooBar) freshWorld ≠ [("P", ["Foo_Bar"])] := by
  decide

/-- C5, amended: a class named `Foo::Bar` produces the segment `Foo__Bar`, one
`_` for each of its two `:`; that is the name recorded in the discovered-artifact
set and the base name of the file `Foo__Bar.h`. -/
theorem foo_bar_segment (M : MetadataList) :
    sanitizedFileName "Foo::Bar" = "Foo__Bar"
      ∧ artifactFileName "Foo::Bar" = "Foo__Bar.h"
      ∧ stem (artifactFileName "Foo::Bar") = "Foo__Bar"
      ∧ discovered M (oneClassRegistry fooBar) freshWorld = [("P", ["Foo__Bar"])]
      ∧ Dump M (oneClassRegistry fooBar) freshWorld
        = Run.ok
          { schemas := some (Node.dir
              [("P", Node.dir [("Foo__Bar.h", Node.file "class Foo::Bar\n\x7b\n\x7d;\n")])]),
            declined := [],
            stringsIgnoreStream := "Foo::Bar\n" } :=
  ⟨by decide, by decide, by decide, rfl, rfl⟩

/-- C4, at the class `a.b` of project `P`: the artifact is written to `P/a.h`,
not to `P/a.b.h`, while the name recorded in the discovered-artifact set is
`a.b`; the stem of the file name is not the recorded name. -/
theorem dotted_name_artifact_path (M : MetadataList) :
    artifactFileName "a.b" = "a.h"
      ∧ sanitizedFileName "a.b" = "a.b"
      ∧ stem (artifactFileName "a.b") ≠ sanitizedFileName "a.b"
      ∧ dumpAllScopes M (oneClassRegistry dotted) { freshWorld with schemas := some (Node.dir []) }
        = Run.ok
          { world :=
              { schemas := some (Node.dir [("P", Node.dir [("a.h", Node.file "class a.b\n\x7b\n\x7d;\n")])]),
                declined := [],
                stringsIgnoreStream := "a.b\n" },
            foundFiles := [("P", ["a.b"])] } :=
  ⟨by decide, by decide, by decide, rfl⟩

/-! ## Runs that lose artifacts -/

/-- C2, at the class `a.b` of project `P` and no earlier output: when `Dump`
returns, the directory of the project is empty; the artifact `P/a.h` of the
class, which is in the registry, has been removed by the synchronizer. -/
theorem dotted_name_artifact_removed (M : MetadataList) :
    Dump M (oneClassRegistry dotted) freshWorld
        = Run.ok
          { schemas := some (Node.dir [("P", Node.dir [])]),
            declined := [],
            stringsIgnoreStream := "a.b\n" }
      ∧ discovered M (oneClassRegistry dotted) freshWorld = [("P", ["a.b"])] :=
  ⟨rfl, rfl⟩

/-! ## Directories and the discovered-artifact set -/

theorem lookupEntry_eq_none_iff (name : String) (d : Directory) :
    lookupEntry name d = none ↔ name ∉ d.map Prod.fst := by
  induction d with
  | nil => simp [lookupEntry]
  | cons p rest ih =>
    obtain ⟨n, node⟩ := p
    by_cases h : n = name
    · simp [lookupEntry, h]
    · have h2 : ¬ name = n := fun e => h e.symm
      simp [lookupEntry, h, h2, ih]

theorem mem_of_lookupEntry (name : String) (node : Node) (d : Directory)
    (h : lookupEntry name d = some node) : (name, node) ∈ d := by
  induction d with
  | nil => simp [lookupEntry] at h
  | cons p rest ih =>
    obtain ⟨n, x⟩ := p
    by_cases hn : n = name
    · simp [lookupEntry, hn] at h
      simp [hn, h]
    · simp [lookupEntry, hn] at h
      exact List.mem_cons_of_mem _ (ih h)

theorem lookupEntry_of_mem (name : String) (node : Node) (d : Directory)
    (hd : (d.map Prod.fst).Nodup) (h : (name, node) ∈ d) : lookupEntry name d = some node := by
  induction d with
  | nil => simp at h
  | cons p rest ih =>
    obtain ⟨n, x⟩ := p
    simp only [List.map_cons, List.nodup_cons] at hd
    rcases List.mem_cons.mp h with h | h
    · cases h
      simp [lookupEntry]
    · have hne : n ≠ name := by
        intro e
        apply hd.1
        rw [e]
        exact List.mem_map_of_mem Prod.fst h
      simp [lookupEntry, hne, ih hd.2 h]

theorem lookupEntry_append (name : String) (d e : Directory) :
    lookupEntry name (d ++ e)
      = match lookupEntry name d with
        | some node => some node
        | none => lookupEntry name e := by
  induction d with
  | nil => simp [lookupEntry]
  | cons p rest ih =>
    obtain ⟨n, x⟩ := p
    by_cases hn : n = name
    · simp [lookupEntry, hn]
    · simp [lookupEntry, hn, ih]

theorem lookupEntry_setEntry (name key : String) (node : Node) (d : Directory) :
    lookupEntry name (setEntry key node d)
      = if key = name then some node else lookupEntry name d := by
  induction d with
  | nil => simp [setEntry, lookupEntry]
  | cons p rest ih =>
    obtain ⟨n, x⟩ := p
    by_cases hk : n = key
    · by_cases hn : key = name
      · simp [setEntry, lookupEntry, hk, hn]
      · simp [setEntry, lookupEntry, hk, hn]
    · by_cases hn : n = name
      · have : ¬ key = name := fun e => hk (hn.trans e.symm)
        subst hn
        simp [setEntry, lookupEntry, hk, this]
      · simp [setEntry, lookupEntry, hk, hn, ih]

theorem mem_setEntry (key : String) (node : Node) (d : Directory) (p : String × Node)
    (h : p ∈ setEntry key node d) : p = (key, node) ∨ p ∈ d := by
  induction d with
  | nil =>
    simp [setEntry] at h
    exact Or.inl h
  | cons q rest ih =>
    obtain ⟨n, x⟩ := q
    by_cases hk : n = key
    · simp only [setEntry, hk, if_true] at h
      rcases List.mem_cons.mp h with h | h
      · exact Or.inl h
      · exact Or.inr (List.mem_cons_of_mem _ h)
    · simp only [setEntry, hk, if_false] at h
      rcases List.mem_cons.mp h with h | h
      · exact Or.inr (h ▸ List.mem_cons_self _ _)
      · rcases ih h with h | h
        · exact Or.inl h
        · exact Or.inr (List.mem_cons_of_mem _ h)

theorem names_setEntry (key : String) (node : Node) (d : Directory) :
    (setEntry key node d).map Prod.fst
      = if key ∈ d.map Prod.fst then d.map Prod.fst else d.map Prod.fst ++ [key] := by
  induction d with
  | nil => simp [setEntry]
  | cons q rest ih =>
    obtain ⟨n, x⟩ := q
    by_cases hk : n = key
    · simp [setEntry, hk]
    · have hk2 : ¬ key = n := fun e => hk e.symm
      by_cases hm : key ∈ rest.map Prod.fst
      · rw [if_pos hm] at ih
        have : key ∈ ((n, x) :: rest).map Prod.fst := List.mem_cons_of_mem _ hm
        rw [if_pos this]
        simp [setEntry, hk, ih]
      · rw [if_neg hm] at ih
        have : key ∉ ((n, x) :: rest).map Prod.fst := by
          simp only [List.map_cons, List.mem_cons, not_or]
          exact ⟨hk2, hm⟩
        rw [if_neg this]
        simp [setEntry, hk, ih]

theorem nodup_names_setEntry (key : String) (node : Node) (d : Directory)
    (hd : (d.map Prod.fst).Nodup) : ((setEntry key node d).map Prod.fst).Nodup := by
  rw [names_setEntry]
  split
  · exact hd
  · rename_i hk
    rw [List.nodup_append]
    refine ⟨hd, List.nodup_singleton _, ?_⟩
    intro a ha hb
    simp at hb
    exact hk (hb ▸ ha)

theorem findFound_insertFound (project name key : String) (m : FoundFiles) :
    findFound key (insertFound project name m)
      = if project = key then
          some (match findFound project m with
                | some filesSet => if name ∈ filesSet then filesSet else name :: filesSet
                | none => [name])
        else findFound key m := by
  induction m with
  | nil => simp [insertFound, findFound]
  | cons q rest ih =>
    obtain ⟨k, filesSet⟩ := q
    by_cases hk : k = project
    · by_cases hp : project = key
      · simp [insertFound, findFound, hk, hp]
      · simp [insertFound, findFound, hk, hp]
    · by_cases hq : k = key
      · have : ¬ project = key := fun e => hk (hq.trans e.symm)
        subst hq
        simp [insertFound, findFound, hk, this]
      · simp [insertFound, findFound, hk, hq, ih]

/-! ## Plain names -/

theorem not_mem_replace (l : List Char) (h : '.' ∉ l) : '.' ∉ replace ':' '_' l := by
  induction l with
  | nil => simp [replace]
  | cons c cs ih =>
    simp only [List.mem_cons, not_or] at h
    simp only [replace, List.mem_cons, not_or]
    refine ⟨?_, ih h.2⟩
    by_cases hc : c = ':'
    · rw [if_pos hc]; decide
    · rw [if_neg hc]; exact h.1

theorem replace_ne_nil (l : List Char) (h : l ≠ []) : replace ':' '_' l ≠ [] := by
  cases l with
  | nil => exact absurd rfl h
  | cons c cs => simp [replace]

theorem stemChars_of_no_period (l : List Char) (h : '.' ∉ l) : stemChars l = l := by
  unfold stemChars
  have h1 : '.' ∉ l.drop 1 := fun hm => h (List.mem_of_mem_drop hm)
  rw [if_neg h1]
  simp

theorem stemChars_append_h (l : List Char) (hne : l ≠ []) (h : '.' ∉ l) :
    stemChars (l ++ ['.', 'h']) = l := by
  cases l with
  | nil => exact absurd rfl hne
  | cons c cs =>
    simp only [List.mem_cons, not_or] at h
    unfold stemChars
    have h1 : ¬ ((c :: cs) ++ ['.', 'h'] = ['.'] ∨ (c :: cs) ++ ['.', 'h'] = ['.', '.']) := by
      intro hh
      rcases hh with hh | hh
      · have := congrArg List.length hh
        simp at this
      · have := congrArg List.length hh
        simp at this
    have h2 : '.' ∈ ((c :: cs) ++ ['.', 'h']).drop 1 := by simp
    rw [if_neg h1, if_pos h2]
    have h3 : ((c :: cs) ++ ['.', 'h']).reverse = 'h' :: '.' :: (c :: cs).reverse := by simp
    rw [h3]
    simp [List.dropWhile]

theorem artifactFileName_plain (name : String) (h : plainTypeName name = true) :
    artifactFileName name = sanitizedFileName name ++ ".h"
      ∧ stem (sanitizedFileName name ++ ".h") = sanitizedFileName name := by
  simp only [plainTypeName, decide_eq_true_eq] at h
  obtain ⟨hne, hdot, _⟩ := h
  have hs : stem (sanitizedFileName name) = sanitizedFileName name := by
    unfold stem sanitizedFileName
    rw [stemChars_of_no_period _ (not_mem_replace _ hdot)]
  constructor
  · unfold artifactFileName replace_extension
    rw [hs]
    rfl
  · unfold stem sanitizedFileName
    show String.mk (stemChars (replace ':' '_' name.data ++ ['.', 'h'])) = _
    rw [stemChars_append_h _ (replace_ne_nil _ hne) (not_mem_replace _ hdot)]

/-! ## Names of a scope -/

theorem scopeWellNamed_iff (typeScope : CSchemaSystemTypeScope) :
    scopeWellNamed typeScope = true
      ↔ (∀ classInfo ∈ typeScope.m_ClassBindings,
            isSegment classInfo.m_pszProjectName = true ∧ plainTypeName classInfo.m_pszName = true)
        ∧ (∀ enumInfo ∈ typeScope.m_EnumBindings,
            isSegment enumInfo.m_pszProjectName = true ∧ plainTypeName enumInfo.m_pszName = true) := by
  simp [scopeWellNamed, List.all_eq_true]

/-! ## What the synchronizer leaves -/

theorem synchronized_names_sublist (foundFiles : FoundFiles) (root : Directory) :
    ((synchronized foundFiles root).map Prod.fst).Sublist (root.map Prod.fst) := by
  induction root with
  | nil => exact List.Sublist.refl _
  | cons p rest ih =>
    obtain ⟨name, node⟩ := p
    unfold synchronized at ih ⊢
    cases node with
    | file content =>
      simp only [List.filterMap_cons, List.map_cons]
      exact ih.cons₂ _
    | dir entries =>
      cases hf : findFound name foundFiles with
      | none =>
        simp only [List.filterMap_cons, hf, List.map_cons]
        exact ih.cons _
      | some filesSet =>
        simp only [List.filterMap_cons, hf, List.map_cons]
        exact ih.cons₂ _

theorem mem_synchronized (foundFiles : FoundFiles) (root : Directory) (name : String)
    (node : Node) :
    (name, node) ∈ synchronized foundFiles root
      ↔ (∃ content, node = Node.file content ∧ (name, Node.file content) ∈ root)
        ∨ (∃ entries filesSet, (name, Node.dir entries) ∈ root
            ∧ findFound name foundFiles = some filesSet
            ∧ node = Node.dir (entries.filter (fun q => decide (stem q.1 ∈ filesSet)))) := by
  unfold synchronized
  rw [List.mem_filterMap]
  constructor
  · rintro ⟨⟨n, x⟩, hm, hx⟩
    cases x with
    | file content =>
      simp only [Option.some.injEq, Prod.mk.injEq] at hx
      obtain ⟨rfl, rfl⟩ := hx
      exact Or.inl ⟨content, rfl, hm⟩
    | dir entries =>
      cases hf : findFound n foundFiles with
      | none => simp [hf] at hx
      | some filesSet =>
        simp only [hf, Option.some.injEq, Prod.mk.injEq] at hx
        obtain ⟨rfl, rfl⟩ := hx
        exact Or.inr ⟨entries, filesSet, hm, hf, rfl⟩
  · rintro (⟨content, rfl, hm⟩ | ⟨entries, filesSet, hm, hf, rfl⟩)
    · exact ⟨_, hm, rfl⟩
    · exact ⟨_, hm, by simp [hf]⟩

/-- C1, as stated: with the class `A` of project `P` in the registry and an
output tree that holds `P/A.h`, `P/B.h`, `P/A.txt` and a regular file `README`
at the root, every operation of the run succeeds and `Dump` returns, yet the
tree it leaves is not exactly the discovered-artifact set: `README` is still at
the root and `A.txt` is still in the directory of `P`. -/
theorem Dump_leaves_more_than_discovered :
    Dump noTables registryA usedWorld
        = Run.ok { schemas := some (Node.dir usedRootAfter), declined := [],
                   stringsIgnoreStream := "A\n" }
      ∧ discovered noTables registryA usedWorld = [("P", ["A"])]
      ∧ mirrors (discovered noTables registryA usedWorld) usedRootAfter = false
      ∧ mirrors [("P", ["A"])] [("P", Node.dir [("A.h", Node.file "class A\n\x7b\n\x7d;\n")])] = true
      ∧ lookupEntry "README" usedRootAfter = some (Node.file "readme")
      ∧ projectDirectory { usedWorld with schemas := some (Node.dir usedRootAfter) } "P"
        = some [("A.h", Node.file "class A\n\x7b\n\x7d;\n"), ("A.txt", Node.file "notes")] :=
  ⟨rfl, rfl, by decide, by decide, rfl, rfl⟩

/-! ## Sanitized names -/

theorem replace_eq_map (l : List Char) :
    replace ':' '_' l = l.map (fun c => if c = ':' then '_' else c) := by
  induction l with
  | nil => rfl
  | cons c cs ih => simp [replace, ih]

theorem colon_not_mem_replace (l : List Char) : ':' ∉ replace ':' '_' l := by
  induction l with
  | nil => simp [replace]
  | cons c cs ih =>
    simp only [replace, List.mem_cons, not_or]
    refine ⟨?_, ih⟩
    by_cases hc : c = ':'
    · rw [if_pos hc]; decide
    · rw [if_neg hc]; exact fun h => hc h.symm

theorem replace_of_no_colon (l : List Char) (h : ':' ∉ l) : replace ':' '_' l = l := by
  induction l with
  | nil => rfl
  | cons c cs ih =>
    simp only [List.mem_cons, not_or] at h
    have hc : ¬ c = ':' := fun e => h.1 e.symm
    simp [replace, hc, ih h.2]

theorem colonFree_insertFound (project name : String) (foundFiles : FoundFiles)
    (h : colonFree foundFiles) :
    colonFree (insertFound project (sanitizedFileName name) foundFiles) := by
  induction foundFiles with
  | nil =>
    intro k hk n hn
    simp only [insertFound, List.mem_singleton] at hk
    subst hk
    simp only [List.mem_singleton] at hn
    subst hn
    exact colon_not_mem_replace _
  | cons q rest ih =>
    obtain ⟨key, filesSet⟩ := q
    have hrest : colonFree rest := fun k hk => h k (List.mem_cons_of_mem _ hk)
    have hhead : ∀ n ∈ filesSet, ':' ∉ n.data := h (key, filesSet) (List.mem_cons_self _ _)
    intro k hk n hn
    by_cases hkey : key = project
    · simp only [insertFound, hkey, if_true, List.mem_cons] at hk
      rcases hk with hk | hk
      · subst hk
        by_cases hin : sanitizedFileName name ∈ filesSet
        · simp only [if_pos hin] at hn
          exact hhead n hn
        · simp only [if_neg hin, List.mem_cons] at hn
          rcases hn with hn | hn
          · subst hn
            exact colon_not_mem_replace _
          · exact hhead n hn
      · exact hrest k hk n hn
    · simp only [insertFound, hkey, if_false, List.mem_cons] at hk
      rcases hk with hk | hk
      · subst hk
        exact hhead n hn
      · exact ih hrest k hk n hn

theorem DumpClasses_colonFree (M : MetadataList) (classes : List CSchemaClassInfo) :
    ∀ s : DumpState, colonFree s.foundFiles →
      colonFree (DumpClasses M classes s).state.foundFiles := by
  induction classes with
  | nil => exact fun s h => h
  | cons classInfo rest ih =>
    intro s h
    rw [DumpClasses]
    cases ensureProjectDirectory s.world classInfo.m_pszProjectName with
    | raised => exact h
    | notCreated => exact h
    | ready w => exact ih _ (colonFree_insertFound _ _ _ h)

theorem DumpEnums_colonFree (M : MetadataList) (enums : List CSchemaEnumInfo) :
    ∀ s : DumpState, colonFree s.foundFiles →
      colonFree (DumpEnums M enums s).state.foundFiles := by
  induction enums with
  | nil => exact fun s h => h
  | cons enumInfo rest ih =>
    intro s h
    rw [DumpEnums]
    cases ensureProjectDirectory s.world enumInfo.m_pszProjectName with
    | raised => exact h
    | notCreated => exact h
    | ready w => exact ih _ (colonFree_insertFound _ _ _ h)

theorem DumpTypeScope_colonFree (M : MetadataList) (typeScope : CSchemaSystemTypeScope)
    (s : DumpState) (h : colonFree s.foundFiles) :
    colonFree (DumpTypeScope M typeScope s).state.foundFiles := by
  have hc := DumpClasses_colonFree M typeScope.m_ClassBindings s h
  rw [DumpTypeScope]
  cases hrun : DumpClasses M typeScope.m_ClassBindings s with
  | threw s1 => rw [hrun] at hc; exact hc
  | ok s1 =>
    rw [hrun] at hc
    exact DumpEnums_colonFree M typeScope.m_EnumBindings s1 hc

theorem dumpTypeScopes_colonFree (M : MetadataList) (typeScopes : List CSchemaSystemTypeScope) :
    ∀ s : DumpState, colonFree s.foundFiles →
      colonFree (dumpTypeScopes M typeScopes s).state.foundFiles := by
  induction typeScopes with
  | nil => exact fun s h => h
  | cons typeScope rest ih =>
    intro s h
    have hc := DumpTypeScope_colonFree M typeScope s h
    rw [dumpTypeScopes]
    cases hrun : DumpTypeScope M typeScope s with
    | threw s1 => rw [hrun] at hc; exact hc
    | ok s1 =>
      rw [hrun] at hc
      exact ih s1 hc

theorem discovered_colonFree (M : MetadataList) (schemaSystem : CSchemaSystem) (w : World) :
    colonFree (discovered M schemaSystem w) := by
  unfold discovered
  cases ensureSchemaPath w with
  | raised => intro k hk; simp at hk
  | notCreated => intro k hk; simp at hk
  | ready w0 =>
    have hscopes := dumpTypeScopes_colonFree M schemaSystem.m_TypeScopes
      { world := w0, foundFiles := [] } (fun k hk => by simp at hk)
    have hall : colonFree (dumpAllScopes M schemaSystem w0).state.foundFiles := by
      rw [dumpAllScopes]
      cases hrun : dumpTypeScopes M schemaSystem.m_TypeScopes { world := w0, foundFiles := [] } with
      | threw s1 => rw [hrun] at hscopes; exact hscopes
      | ok s1 =>
        rw [hrun] at hscopes
        exact DumpTypeScope_colonFree M schemaSystem.GlobalTypeScope s1 hscopes
    show colonFree (match dumpAllScopes M schemaSystem w0 with
      | Run.ok s => s.foundFiles
      | Run.threw s => s.foundFiles)
    cases hrun : dumpAllScopes M schemaSystem w0 with
    | threw s1 => rw [hrun] at hall; exact hall
    | ok s1 => rw [hrun] at hall; exact hall

/-- C14: sanitization replaces every `:` with `_` and changes nothing else. The
sanitized name has the length of the name, has no `:`, has at every position the
character of the name, or `_` where the name has `:`, and is left unchanged by
sanitizing it again; and no name recorded in the discovered-artifact set of a
run has a `:`. -/
theorem sanitizedFileName_replaces_colons (M : MetadataList) (schemaSystem : CSchemaSystem)
    (w : World) (name : String) :
    sanitizedFileName name = colonsToUnderscores name
      ∧ (sanitizedFileName name).length = name.length
      ∧ ':' ∉ (sanitizedFileName name).data
      ∧ (∀ i : Nat, (sanitizedFileName name).data[i]?
          = (name.data[i]?).map (fun c => if c = ':' then '_' else c))
      ∧ sanitizedFileName (sanitizedFileName name) = sanitizedFileName name
      ∧ (discovered M schemaSystem w).all
          (fun k => k.2.all (fun n => decide (':' ∉ n.data))) = true := by
  refine ⟨?_, ?_, colon_not_mem_replace _, ?_, ?_, ?_⟩
  · unfold sanitizedFileName colonsToUnderscores
    rw [replace_eq_map]
  · show (replace ':' '_' name.data).length = name.data.length
    rw [replace_eq_map, List.length_map]
  · intro i
    unfold sanitizedFileName
    simp [replace_eq_map, List.getElem?_map]
  · unfold sanitizedFileName
    simp only
    rw [replace_of_no_colon _ (colon_not_mem_replace _)]
  · have h := discovered_colonFree M schemaSystem w
    simp only [List.all_eq_true, decide_eq_true_eq]
    intro k hk n hn
    exact h k hk n hn

/-! ## Comment lines, integer values and enum artifacts -/

/-- C15: `OutputMetadataEntry` appends one line to the output: a tab exactly
when `tabulate` is set, then `// ` and the name of the entry, then ` = ` and the
value exactly when `GetMetadataValue` returns one, then a newline; an entry
whose name is in none of the four tables gives the bare comment `// <name>`. -/
theorem OutputMetadataEntry_appends_line (M : MetadataList) (entry : SchemaMetadataEntryData_t)
    (output : String) (tabulate : Bool) :
    OutputMetadataEntry M entry output tabulate
        = output ++ commentLine M tabulate entry ++ "\n"
      ∧ (∀ value, GetMetadataValue M entry = some value →
          OutputMetadataEntry M entry output tabulate
            = output ++ (if tabulate then "\t" else "") ++ "// " ++ entry.m_pszName
              ++ " = " ++ value ++ "\n")
      ∧ (GetMetadataValue M entry = none →
          OutputMetadataEntry M entry output tabulate
            = output ++ (if tabulate then "\t" else "") ++ "// " ++ entry.m_pszName ++ "\n")
      ∧ (hash_32_fnv1a_const entry.m_pszName ∉ M.string_metadata_entries
          ∧ hash_32_fnv1a_const entry.m_pszName ∉ M.integer_metadata_entries
          ∧ hash_32_fnv1a_const entry.m_pszName ∉ M.float_metadata_entries
          ∧ hash_32_fnv1a_const entry.m_pszName ∉ M.inline_string_metadata_entries →
          OutputMetadataEntry M entry "" false = "// " ++ entry.m_pszName ++ "\n"
            ∧ OutputMetadataEntry M entry "" true = "\t// " ++ entry.m_pszName ++ "\n") := by
  refine ⟨?_, ?_, ?_, ?_⟩
  · rw [OutputMetadataEntry_append, OutputMetadataEntry_line, String.append_assoc]
  · intro value hv
    simp [OutputMetadataEntry, hv, String.append_assoc]
  · intro hv
    simp [OutputMetadataEntry, hv, String.append_assoc]
  · rintro ⟨hs, hi, hf, hn⟩
    have hv : GetMetadataValue M entry = none := by
      simp [GetMetadataValue, hs, hi, hf, hn]
    constructor
    · simp [OutputMetadataEntry, hv]
    · simp [OutputMetadataEntry, hv]

theorem littleEndian_four (b0 b1 b2 b3 : Char) (rest : List Char) :
    int32OfBytes (b0 :: b1 :: b2 :: b3 :: rest)
      = twosComplement32 (littleEndian [b0, b1, b2, b3]) := by
  have h : littleEndian [b0, b1, b2, b3]
      = b0.toNat % 256 + b1.toNat % 256 * 2 ^ 8 + b2.toNat % 256 * 2 ^ 16
        + b3.toNat % 256 * 2 ^ 24 := by
    simp only [littleEndian]
    omega
  rw [h]
  rfl

theorem littleEndian_four_lt (b0 b1 b2 b3 : Char) : littleEndian [b0, b1, b2, b3] < 2 ^ 32 := by
  simp only [littleEndian]
  omega

theorem toString_int (i : Int) :
    (0 ≤ i → to_string i = toString i.toNat) ∧ (i < 0 → to_string i = "-" ++ toString i.natAbs) := by
  cases i with
  | ofNat n => exact ⟨fun _ => rfl, fun h => absurd h (not_lt.mpr (Int.ofNat_nonneg n))⟩
  | negSucc n => exact ⟨fun h => absurd h (not_le.mpr (Int.negSucc_lt_zero n)), fun _ => rfl⟩

/-- C16: for an integer-classified entry, `GetMetadataValue` reads the first
four payload bytes as a little-endian two's-complement 32-bit integer and
returns its decimal text, with a leading `-` when it is negative and without
quotes; the payload bytes after the fourth do not affect the result. -/
theorem GetMetadataValue_integer (M : MetadataList) (entry : SchemaMetadataEntryData_t)
    (b0 b1 b2 b3 : Char) (rest : List Char)
    (hs : hash_32_fnv1a_const entry.m_pszName ∉ M.string_metadata_entries)
    (hi : hash_32_fnv1a_const entry.m_pszName ∈ M.integer_metadata_entries)
    (hbytes : entry.m_pData.bytes = b0 :: b1 :: b2 :: b3 :: rest) :
    GetMetadataValue M entry
        = some (to_string (twosComplement32 (littleEndian [b0, b1, b2, b3])))
      ∧ (∀ other : List Char,
          GetMetadataValue M
              { entry with m_pData := { entry.m_pData with bytes := b0 :: b1 :: b2 :: b3 :: other } }
            = GetMetadataValue M entry)
      ∧ -(2 ^ 31 : Int) ≤ twosComplement32 (littleEndian [b0, b1, b2, b3])
      ∧ twosComplement32 (littleEndian [b0, b1, b2, b3]) < 2 ^ 31
      ∧ (0 ≤ twosComplement32 (littleEndian [b0, b1, b2, b3]) →
          GetMetadataValue M entry
            = some (toString (twosComplement32 (littleEndian [b0, b1, b2, b3])).toNat))
      ∧ (twosComplement32 (littleEndian [b0, b1, b2, b3]) < 0 →
          GetMetadataValue M entry
            = some ("-" ++ toString (twosComplement32 (littleEndian [b0, b1, b2, b3])).natAbs)) := by
  have hval : ∀ e : SchemaMetadataEntryData_t, e.m_pszName = entry.m_pszName →
      ∀ tail, e.m_pData.bytes = b0 :: b1 :: b2 :: b3 :: tail →
      GetMetadataValue M e
        = some (to_string (twosComplement32 (littleEndian [b0, b1, b2, b3]))) := by
    intro e hname tail hb
    unfold GetMetadataValue
    rw [hname]
    simp only [if_neg hs, if_pos hi]
    rw [hb, littleEndian_four]
  have hlt := littleEndian_four_lt b0 b1 b2 b3
  refine ⟨hval entry rfl rest hbytes, ?_, ?_, ?_, ?_, ?_⟩
  · intro other
    rw [hval entry rfl rest hbytes]
    exact hval _ rfl other rfl
  · unfold twosComplement32
    split <;> omega
  · unfold twosComplement32
    split <;> omega
  · intro h
    rw [hval entry rfl rest hbytes, (toString_int _).1 h]
  · intro h
    rw [hval entry rfl rest hbytes, (toString_int _).2 h]

/-- C16, at the payload `FF FF FF FF` followed by two more bytes: the value is
`-1`. -/
theorem GetMetadataValue_integer_witness :
    GetMetadataValue integerCountTables countMinusOne = some "-1" :=
  (GetMetadataValue_integer integerCountTables countMinusOne (Char.ofNat 255) (Char.ofNat 255)
    (Char.ofNat 255) (Char.ofNat 255) ['x', 'y'] (by decide) (by decide) rfl).1.trans (by decide)

theorem outputEnumerators_lines (M : MetadataList) (l : List SchemaEnumeratorInfoData_t) :
    outputEnumerators M l "" = unlines (l.map (enumeratorLines M)).flatten := by
  induction l with
  | nil => rfl
  | cons f rest ih =>
    simp only [outputEnumerators, List.map_cons, List.flatten_cons]
    rw [outputEnumerators_append, ih, unlines_append, outputMetadata_lines]
    simp [enumeratorLines, unlines_append, unlines, String.append_assoc]

theorem enumText_parts (M : MetadataList) (enumInfo : CSchemaEnumInfo) :
    enumText M enumInfo
      = outputMetadata M false enumInfo.m_pStaticMetadata ""
        ++ enumHeader enumInfo ++ "\n\x7b\n"
        ++ outputEnumerators M enumInfo.m_pEnumerators "" ++ "\x7d;\n" := by
  have halign : alignmentTypeName enumInfo.m_nAlignment = underlyingType enumInfo.m_nAlignment := by
    unfold alignmentTypeName underlyingType
    split <;> simp_all
  unfold enumText enumHeader
  simp only []
  rw [outputEnumerators_append, halign]
  simp [String.append_assoc]

/-- C17: the artifact text of an enum is, line by line: the comment line of
each enum-level metadata entry in order, not indented; the header line
`enum <Name> : <UnderlyingType>`; the line `{`; for each enumerator in
declaration order the comment lines of its metadata, each after one tab, and the
line `<tab><Name> = <Value>,` with the value in decimal; the line `};`. -/
theorem enum_artifact_lines (M : MetadataList) (enumInfo : CSchemaEnumInfo) :
    enumText M enumInfo = unlines (enumLines M enumInfo)
      ∧ enumLines M
          { m_pszName := "Color", m_pszProjectName := "UI", m_nAlignment := 1,
            m_pStaticMetadata := [],
            m_pEnumerators :=
              [{ m_pszName := "Red", m_nValue := 0, m_pStaticMetadata := [] },
               { m_pszName := "Neg", m_nValue := -2, m_pStaticMetadata := [] }] }
        = ["enum Color : uint8_t", "\x7b", "\tRed = 0,", "\tNeg = -2,", "\x7d;"]
      ∧ enumText M
          { m_pszName := "Color", m_pszProjectName := "UI", m_nAlignment := 1,
            m_pStaticMetadata := [],
            m_pEnumerators :=
              [{ m_pszName := "Red", m_nValue := 0, m_pStaticMetadata := [] },
               { m_pszName := "Neg", m_nValue := -2, m_pStaticMetadata := [] }] }
        = "enum Color : uint8_t\n\x7b\n\tRed = 0,\n\tNeg = -2,\n\x7d;\n" := by
  refine ⟨?_, rfl, rfl⟩
  rw [enumText_parts]
  unfold enumLines
  rw [outputMetadata_lines, outputEnumerators_lines]
  have hbrace : ∀ x : String, "\n\x7b\n" ++ x = "\n" ++ ("\x7b\n" ++ x) := fun x => by
    rw [← String.append_assoc]; rfl
  simp [unlines_append, unlines, String.append_assoc, hbrace]

/-! ## The synchronizer, entry by entry -/

theorem removeOutdated_cons_kept (filesSet : List String) (name : String) (node : Node)
    (rest : Directory) (h : stem name ∈ filesSet) :
    (removeOutdated filesSet ((name, node) :: rest)).state
      = (name, node) :: (removeOutdated filesSet rest).state := by
  cases hrun : removeOutdated filesSet rest <;> simp [removeOutdated, h, hrun, Run.state]

theorem removeOutdated_cons_file (filesSet : List String) (name content : String)
    (rest : Directory) (h : stem name ∉ filesSet) :
    removeOutdated filesSet ((name, Node.file content) :: rest) = removeOutdated filesSet rest := by
  simp [removeOutdated, h]

theorem removeOutdated_cons_empty (filesSet : List String) (name : String)
    (rest : Directory) (h : stem name ∉ filesSet) :
    removeOutdated filesSet ((name, Node.dir []) :: rest) = removeOutdated filesSet rest := by
  simp [removeOutdated, h]

theorem removeOutdated_cons_full (filesSet : List String) (name : String) (x : String × Node)
    (xs : Directory) (rest : Directory) (h : stem name ∉ filesSet) :
    removeOutdated filesSet ((name, Node.dir (x :: xs)) :: rest)
      = Run.threw ((name, Node.dir (x :: xs)) :: rest) := by
  simp [removeOutdated, h]

theorem removeOutdated_keeps (filesSet : List String) (entries : Directory) :
    ∀ p ∈ entries, stem p.1 ∈ filesSet → p ∈ (removeOutdated filesSet entries).state := by
  induction entries with
  | nil => intro p hp; simp at hp
  | cons q rest ih =>
    obtain ⟨name, node⟩ := q
    intro p hp hs
    by_cases hq : stem name ∈ filesSet
    · rw [removeOutdated_cons_kept _ _ _ _ hq]
      rcases List.mem_cons.mp hp with hp | hp
      · exact hp ▸ List.mem_cons_self _ _
      · exact List.mem_cons_of_mem _ (ih p hp hs)
    · have hne : p ≠ (name, node) := by
        intro e
        rw [e] at hs
        exact hq hs
      have hrest : p ∈ rest := by
        rcases List.mem_cons.mp hp with hp | hp
        · exact absurd hp hne
        · exact hp
      cases node with
      | file content =>
        rw [removeOutdated_cons_file _ _ _ _ hq]
        exact ih p hrest hs
      | dir sub =>
        cases sub with
        | nil =>
          rw [removeOutdated_cons_empty _ _ _ hq]
          exact ih p hrest hs
        | cons x xs =>
          rw [removeOutdated_cons_full _ _ _ _ _ hq]
          exact List.mem_cons_of_mem _ hrest

theorem removeOutdated_subset (filesSet : List String) (entries : Directory) :
    ∀ p ∈ (removeOutdated filesSet entries).state, p ∈ entries := by
  induction entries with
  | nil => intro p hp; exact hp
  | cons q rest ih =>
    obtain ⟨name, node⟩ := q
    intro p hp
    by_cases hq : stem name ∈ filesSet
    · rw [removeOutdated_cons_kept _ _ _ _ hq] at hp
      rcases List.mem_cons.mp hp with hp | hp
      · exact hp ▸ List.mem_cons_self _ _
      · exact List.mem_cons_of_mem _ (ih p hp)
    · cases node with
      | file content =>
        rw [removeOutdated_cons_file _ _ _ _ hq] at hp
        exact List.mem_cons_of_mem _ (ih p hp)
      | dir sub =>
        cases sub with
        | nil =>
          rw [removeOutdated_cons_empty _ _ _ hq] at hp
          exact List.mem_cons_of_mem _ (ih p hp)
        | cons x xs =>
          rw [removeOutdated_cons_full _ _ _ _ _ hq] at hp
          exact hp

theorem removeOutdated_ok (filesSet : List String) (entries : Directory) :
    ∀ kept, removeOutdated filesSet entries = Run.ok kept →
      kept = entries.filter (fun q => decide (stem q.1 ∈ filesSet)) := by
  induction entries with
  | nil =>
    intro kept h
    simp only [removeOutdated, Run.ok.injEq] at h
    rw [← h]; rfl
  | cons q rest ih =>
    obtain ⟨name, node⟩ := q
    intro kept h
    by_cases hq : stem name ∈ filesSet
    · cases hrun : removeOutdated filesSet rest with
      | ok kept1 =>
        simp only [removeOutdated, hq, if_true, hrun, Run.ok.injEq] at h
        rw [← h, ih kept1 hrun]
        simp [List.filter, hq]
      | threw kept1 =>
        simp [removeOutdated, hq, hrun] at h
    · cases node with
      | file content =>
        rw [removeOutdated_cons_file _ _ _ _ hq] at h
        rw [ih kept h]
        simp [List.filter, hq]
      | dir sub =>
        cases sub with
        | nil =>
          rw [removeOutdated_cons_empty _ _ _ hq] at h
          rw [ih kept h]
          simp [List.filter, hq]
        | cons x xs =>
          rw [removeOutdated_cons_full _ _ _ _ _ hq] at h
          simp at h

theorem synchronize_ok (foundFiles : FoundFiles) (root : Directory) :
    ∀ kept, synchronize foundFiles root = Run.ok kept → kept = synchronized foundFiles root := by
  induction root with
  | nil =>
    intro kept h
    simp only [synchronize, Run.ok.injEq] at h
    rw [← h]; rfl
  | cons p rest ih =>
    obtain ⟨name, node⟩ := p
    intro kept h
    cases node with
    | file content =>
      cases hf : findFound name foundFiles with
      | some filesSet => simp [synchronize, hf] at h
      | none =>
        cases hrun : synchronize foundFiles rest with
        | threw others => simp [synchronize, hf, hrun] at h
        | ok others =>
          simp only [synchronize, hf, hrun, Run.ok.injEq] at h
          rw [← h, ih others hrun]
          simp [synchronized]
    | dir entries =>
      cases hf : findFound name foundFiles with
      | none =>
        simp only [synchronize, hf] at h
        rw [ih kept h]
        simp [synchronized, hf]
      | some filesSet =>
        cases hrem : removeOutdated filesSet entries with
        | threw left => simp [synchronize, hf, hrem] at h
        | ok left =>
          cases hrun : synchronize foundFiles rest with
          | threw others => simp [synchronize, hf, hrem, hrun] at h
          | ok others =>
            simp only [synchronize, hf, hrem, hrun, Run.ok.injEq] at h
            rw [← h, ih others hrun, removeOutdated_ok filesSet entries left hrem]
            simp [synchronized, hf]

theorem synchronize_state_cons (foundFiles : FoundFiles) (name : String) (node : Node)
    (rest : Directory) :
    (synchronize foundFiles ((name, node) :: rest)).state = (synchronize foundFiles rest).state
      ∨ (∃ node1, (synchronize foundFiles ((name, node) :: rest)).state
            = (name, node1) :: (synchronize foundFiles rest).state)
      ∨ (∃ node1, (synchronize foundFiles ((name, node) :: rest)).state = (name, node1) :: rest) := by
  cases node with
  | file content =>
    cases hf : findFound name foundFiles with
    | some filesSet =>
      exact Or.inr (Or.inr ⟨Node.file content, by simp [synchronize, hf, Run.state]⟩)
    | none =>
      refine Or.inr (Or.inl ⟨Node.file content, ?_⟩)
      cases hrun : synchronize foundFiles rest <;> simp [synchronize, hf, hrun, Run.state]
  | dir entries =>
    cases hf : findFound name foundFiles with
    | none => exact Or.inl (by simp [synchronize, hf])
    | some filesSet =>
      cases hrem : removeOutdated filesSet entries with
      | threw left =>
        exact Or.inr (Or.inr ⟨Node.dir left, by simp [synchronize, hf, hrem, Run.state]⟩)
      | ok left =>
        refine Or.inr (Or.inl ⟨Node.dir left, ?_⟩)
        cases hrun : synchronize foundFiles rest <;> simp [synchronize, hf, hrem, hrun, Run.state]

theorem synchronize_head_key (foundFiles : FoundFiles) (name : String) (entries : Directory)
    (rest : Directory) (filesSet : List String) (hkey : findFound name foundFiles = some filesSet) :
    (name, Node.dir (removeOutdated filesSet entries).state)
      ∈ (synchronize foundFiles ((name, Node.dir entries) :: rest)).state := by
  cases hrem : removeOutdated filesSet entries with
  | threw left => simp [synchronize, hkey, hrem, Run.state]
  | ok left =>
    cases hrun : synchronize foundFiles rest <;> simp [synchronize, hkey, hrem, hrun, Run.state]

theorem synchronize_keeps_key (foundFiles : FoundFiles) (root : Directory) (name : String)
    (entries : Directory) (filesSet : List String)
    (hdir : (name, Node.dir entries) ∈ root) (hkey : findFound name foundFiles = some filesSet) :
    ∃ left, (name, Node.dir left) ∈ (synchronize foundFiles root).state
      ∧ (∀ p ∈ entries, stem p.1 ∈ filesSet → p ∈ left)
      ∧ (∀ p ∈ left, p ∈ entries) := by
  induction root with
  | nil => simp at hdir
  | cons q rest ih =>
    obtain ⟨n, node⟩ := q
    rcases List.mem_cons.mp hdir with hhead | htail
    · simp only [Prod.mk.injEq] at hhead
      obtain ⟨rfl, rfl⟩ := hhead
      exact ⟨_, synchronize_head_key foundFiles name entries rest filesSet hkey,
        removeOutdated_keeps filesSet entries, removeOutdated_subset filesSet entries⟩
    · rcases synchronize_state_cons foundFiles n node rest with h | ⟨node1, h⟩ | ⟨node1, h⟩
      · obtain ⟨left, hmem, hk, hs⟩ := ih htail
        exact ⟨left, h ▸ hmem, hk, hs⟩
      · obtain ⟨left, hmem, hk, hs⟩ := ih htail
        exact ⟨left, h ▸ List.mem_cons_of_mem _ hmem, hk, hs⟩
      · exact ⟨entries, h ▸ List.mem_cons_of_mem _ htail, fun p hp _ => hp, fun p hp => hp⟩

/-- C11, amended: in the directory of a key of the discovered-artifact set, the
synchronizer leaves every file whose stem is recorded for the key in place, with
its contents, and adds nothing, however the synchronization ends; and when the
synchronization completes without an error, the directory is left with exactly
the entries whose stem is recorded, so that a file of the directory is deleted
if and only if its stem is not recorded. -/
theorem synchronize_project_files (foundFiles : FoundFiles) (root : Directory)
    (project : String) (entries : Directory) (filesSet : List String)
    (hdir : (project, Node.dir entries) ∈ root)
    (hkey : findFound project foundFiles = some filesSet) :
    (∃ left, (project, Node.dir left) ∈ (synchronize foundFiles root).state
        ∧ (∀ f content, (f, Node.file content) ∈ entries → stem f ∈ filesSet →
            (f, Node.file content) ∈ left)
        ∧ (∀ p ∈ left, p ∈ entries))
      ∧ (∀ kept, synchronize foundFiles root = Run.ok kept →
          (project, Node.dir (entries.filter (fun q => decide (stem q.1 ∈ filesSet)))) ∈ kept
            ∧ ∀ f content, (f, Node.file content) ∈ entries →
                ((f, Node.file content) ∉ entries.filter (fun q => decide (stem q.1 ∈ filesSet))
                  ↔ stem f ∉ filesSet)) := by
  constructor
  · obtain ⟨left, hmem, hk, hs⟩ :=
      synchronize_keeps_key foundFiles root project entries filesSet hdir hkey
    exact ⟨left, hmem, fun f content hf hstem => hk _ hf hstem, hs⟩
  · intro kept hrun
    rw [synchronize_ok foundFiles root kept hrun]
    refine ⟨(mem_synchronized _ _ _ _).mpr (Or.inr ⟨entries, filesSet, hdir, hkey, rfl⟩), ?_⟩
    intro f content hf
    simp [List.mem_filter, hf]

/-- C11, at the tree left by the scope walk of `registryA` on `usedWorld`: the
synchronization completes and leaves `P` with `A.h` and `A.txt`. -/
theorem synchronize_project_files_witness :
    synchronize [("P", ["A"])] usedRootDumped = Run.ok usedRootAfter
      ∧ ("P", Node.dir
          ([("A.h", Node.file "class A\n\x7b\n\x7d;\n"), ("B.h", Node.file "old"),
            ("A.txt", Node.file "notes")].filter (fun q => decide (stem q.1 ∈ ["A"]))))
        ∈ usedRootAfter :=
  ⟨rfl, ((synchronize_project_files [("P", ["A"])] usedRootDumped "P" _ ["A"]
    (List.mem_cons_self _ _) rfl).2 usedRootAfter rfl).1⟩

/-- C11, as stated: with `A` the only name recorded for `P`, and the directory
of `P` holding `A.h`, a directory `old` that is not empty, and `B.h`, the
synchronizer stops with an error at `old`, which `std::filesystem::remove` cannot
delete; the file `B.h`, whose stem is not recorded, is not deleted. -/
theorem synchronize_leaves_unrecorded_file :
    findFound "P" [("P", ["A"])] = some ["A"]
      ∧ stem "B.h" ∉ ["A"]
      ∧ synchronize [("P", ["A"])] rootWithFullDirectory = Run.threw rootWithFullDirectory
      ∧ lookupPath rootWithFullDirectory "P" "B.h" = some (Node.file "b") :=
  ⟨rfl, by decide, rfl, rfl⟩

/-- C12, amended: a directory of the output root whose name is a key of the
discovered-artifact set is never removed, however the synchronization ends; and
when the synchronization completes without an error, a directory of the root is
removed, with all it holds, if and only if its name is not a key. -/
theorem synchronize_root_directories (foundFiles : FoundFiles) (root : Directory)
    (name : String) (entries : Directory) (hdir : (name, Node.dir entries) ∈ root) :
    (findFound name foundFiles ≠ none →
        ∃ left, (name, Node.dir left) ∈ (synchronize foundFiles root).state)
      ∧ (∀ kept, synchronize foundFiles root = Run.ok kept →
          ((∀ left, (name, Node.dir left) ∉ kept) ↔ findFound name foundFiles = none)) := by
  constructor
  · intro hkey
    cases hf : findFound name foundFiles with
    | none => exact absurd hf hkey
    | some filesSet =>
      obtain ⟨left, hmem, _⟩ :=
        synchronize_keeps_key foundFiles root name entries filesSet hdir hf
      exact ⟨left, hmem⟩
  · intro kept hrun
    rw [synchronize_ok foundFiles root kept hrun]
    constructor
    · intro hnone
      cases hf : findFound name foundFiles with
      | none => rfl
      | some filesSet =>
        exact absurd ((mem_synchronized _ _ _ _).mpr (Or.inr ⟨entries, filesSet, hdir, hf, rfl⟩))
          (hnone _)
    · intro hf left hmem
      rcases (mem_synchronized _ _ _ _).mp hmem with ⟨content, hc, _⟩ | ⟨es, filesSet, _, hk, _⟩
      · simp at hc
      · rw [hf] at hk
        simp at hk

/-- C12, at the tree left by the scope walk of `registryA` on `usedWorld`: the
directory `Q`, which is not a key, is gone when the synchronization
completes. -/
theorem synchronize_root_directories_witness :
    synchronize [("P", ["A"])] usedRootDumped = Run.ok usedRootAfter
      ∧ ∀ left, ("Q", Node.dir left) ∉ usedRootAfter :=
  ⟨rfl, ((synchronize_root_directories [("P", ["A"])] usedRootDumped "Q" _
    (List.mem_cons_of_mem _ (List.mem_cons_self _ _))).2 usedRootAfter rfl).mpr rfl⟩

/-- C12, as stated: with `P` the only key, and a root that holds the directory
of `P`, in which the directory `old` is not empty, followed by a directory `Q`,
the synchronizer stops with an error in the directory of `P`; the directory `Q`,
whose name is not a key, is not removed. -/
theorem synchronize_leaves_unkeyed_directory :
    findFound "Q" [("P", ["A"])] = none
      ∧ synchronize [("P", ["A"])] rootWithStaleProject = Run.threw rootWithStaleProject
      ∧ lookupEntry "Q" rootWithStaleProject = some (Node.dir [("C.h", Node.file "c")]) :=
  ⟨rfl, rfl, rfl⟩

/-! ## The scope walk as a sequence of writes -/

theorem DumpClasses_eq_runItems (M : MetadataList) (classes : List CSchemaClassInfo) :
    ∀ s, DumpClasses M classes s = runItems (classes.map (classItem M)) s := by
  induction classes with
  | nil => intro s; rfl
  | cons classInfo rest ih =>
    intro s
    simp only [DumpClasses, List.map_cons, runItems, classItem]
    cases ensureProjectDirectory s.world classInfo.m_pszProjectName with
    | raised => rfl
    | notCreated => rfl
    | ready w => exact ih _

theorem DumpEnums_eq_runItems (M : MetadataList) (enums : List CSchemaEnumInfo) :
    ∀ s, DumpEnums M enums s = runItems (enums.map (enumItem M)) s := by
  induction enums with
  | nil => intro s; rfl
  | cons enumInfo rest ih =>
    intro s
    simp only [DumpEnums, List.map_cons, runItems, enumItem]
    cases ensureProjectDirectory s.world enumInfo.m_pszProjectName with
    | raised => rfl
    | notCreated => rfl
    | ready w => exact ih _

theorem ensureProjectDirectory_declined (w : World) (project : String) :
    ensureProjectDirectory w project ≠ Ensured.notCreated
      ∧ ∀ w1, ensureProjectDirectory w project = Ensured.ready w1 → w1.declined = w.declined := by
  unfold ensureProjectDirectory
  by_cases hlen : NAME_MAX < project.length
  · simp [hlen]
  · rw [if_neg hlen]
    cases hs : w.schemas with
    | none => simp
    | some node =>
      cases node with
      | file content => simp
      | dir root =>
        cases hl : lookupEntry project root with
        | none =>
          by_cases hdec : ["schemas", project] ∈ w.declined
          · simp [hl, hdec]
          · simp only [hl, hdec, if_false]
            refine ⟨by simp, ?_⟩
            intro w1 h
            simp only [Ensured.ready.injEq] at h
            rw [← h]
        | some entry =>
          cases entry with
          | file content => simp [hl]
          | dir entries =>
            simp only [hl]
            refine ⟨by simp, ?_⟩
            intro w1 h
            simp only [Ensured.ready.injEq] at h
            rw [← h]

theorem writeArtifact_declined (w : World) (project fileName text : String) :
    (writeArtifact w project fileName text).declined = w.declined := by
  unfold writeArtifact
  by_cases hlen : NAME_MAX < fileName.length
  · rw [if_pos hlen]
  · rw [if_neg hlen]
    cases w.schemas with
    | none => rfl
    | some node =>
      cases node with
      | file content => rfl
      | dir root =>
        simp only
        cases lookupEntry project root with
        | none => rfl
        | some entry =>
          cases entry with
          | file content => rfl
          | dir entries =>
            simp only
            cases lookupEntry fileName entries with
            | none => rfl
            | some sub =>
              cases sub with
              | file content => rfl
              | dir x => rfl

theorem dumped_declined (w : World) (project name text strings : String)
    (foundFiles : FoundFiles) :
    (dumped w project name text strings foundFiles).world.declined = w.declined := by
  unfold dumped
  exact writeArtifact_declined w project (artifactFileName name) text

theorem runItems_append (a b : List Item) :
    ∀ s : DumpState,
      runItems (a ++ b) s
        = match runItems a s with
          | Run.threw s1 => Run.threw s1
          | Run.ok s1 => runItems b s1 := by
  induction a with
  | nil => intro s; rfl
  | cons item rest ih =>
    intro s
    obtain ⟨hne, _⟩ := ensureProjectDirectory_declined s.world item.project
    simp only [List.cons_append, runItems]
    cases he : ensureProjectDirectory s.world item.project with
    | raised => rfl
    | notCreated => exact absurd he hne
    | ready w =>
      simp only
      apply ih

theorem DumpTypeScope_eq_runItems (M : MetadataList) (typeScope : CSchemaSystemTypeScope)
    (s : DumpState) :
    DumpTypeScope M typeScope s = runItems (scopeItems M typeScope) s := by
  unfold DumpTypeScope scopeItems
  rw [runItems_append _ _ s, DumpClasses_eq_runItems]
  cases runItems (typeScope.m_ClassBindings.map (classItem M)) s with
  | threw s1 => rfl
  | ok s1 => exact DumpEnums_eq_runItems M _ s1

theorem dumpTypeScopes_eq_runItems (M : MetadataList) (typeScopes : List CSchemaSystemTypeScope) :
    ∀ s : DumpState,
      dumpTypeScopes M typeScopes s
        = runItems (typeScopes.map (scopeItems M)).flatten s := by
  induction typeScopes with
  | nil => intro s; rfl
  | cons typeScope rest ih =>
    intro s
    simp only [dumpTypeScopes, List.map_cons, List.flatten_cons]
    rw [runItems_append _ _ s, DumpTypeScope_eq_runItems M typeScope s]
    cases hrun : runItems (scopeItems M typeScope) s with
    | threw s1 => rfl
    | ok s1 => exact ih s1

theorem dumpAllScopes_eq_runItems (M : MetadataList) (schemaSystem : CSchemaSystem) (w : World) :
    dumpAllScopes M schemaSystem w
      = runItems (registryItems M schemaSystem) { world := w, foundFiles := [] } := by
  unfold dumpAllScopes registryItems
  rw [runItems_append _ _ _, dumpTypeScopes_eq_runItems M _ _]
  cases hrun : runItems (schemaSystem.m_TypeScopes.map (scopeItems M)).flatten
      { world := w, foundFiles := [] } with
  | threw s1 => rfl
  | ok s1 => exact DumpTypeScope_eq_runItems M _ s1

/-! ## Writes on the entries of the root -/

theorem setEntry_self (name : String) (node : Node) (d : Directory)
    (h : lookupEntry name d = some node) : setEntry name node d = d := by
  induction d with
  | nil => simp [lookupEntry] at h
  | cons p rest ih =>
    obtain ⟨n, x⟩ := p
    by_cases hn : n = name
    · simp only [lookupEntry, hn, if_true, Option.some.injEq] at h
      simp [setEntry, hn, h]
    · simp only [lookupEntry, hn, if_false] at h
      simp [setEntry, hn, ih h]

theorem setEntry_append_new (name : String) (x y : Node) (d : Directory)
    (h : lookupEntry name d = none) : setEntry name x (d ++ [(name, y)]) = d ++ [(name, x)] := by
  induction d with
  | nil => simp [setEntry]
  | cons p rest ih =>
    obtain ⟨n, z⟩ := p
    by_cases hn : n = name
    · simp [lookupEntry, hn] at h
    · simp only [lookupEntry, hn, if_false] at h
      simp [setEntry, hn, ih h]

theorem modifyDir_of_none (project : String) (g : Directory → Directory) (root : Directory)
    (h : lookupEntry project root = none) :
    modifyDir project g root = root ++ [(project, Node.dir (g []))] := by
  induction root with
  | nil => rfl
  | cons p rest ih =>
    obtain ⟨n, z⟩ := p
    by_cases hn : n = project
    · simp [lookupEntry, hn] at h
    · simp only [lookupEntry, hn, if_false] at h
      simp [modifyDir, hn, ih h]

theorem modifyDir_of_dir (project : String) (g : Directory → Directory) (root : Directory)
    (entries : Directory) (h : lookupEntry project root = some (Node.dir entries)) :
    modifyDir project g root = setEntry project (Node.dir (g entries)) root := by
  induction root with
  | nil => simp [lookupEntry] at h
  | cons p rest ih =>
    obtain ⟨n, z⟩ := p
    by_cases hn : n = project
    · simp only [lookupEntry, hn, if_true, Option.some.injEq] at h
      subst h
      simp [modifyDir, setEntry, hn]
    · simp only [lookupEntry, hn, if_false] at h
      simp [modifyDir, setEntry, hn, ih h]

theorem modifyDir_of_file (project : String) (g : Directory → Directory) (root : Directory)
    (content : String) (h : lookupEntry project root = some (Node.file content)) :
    modifyDir project g root = root := by
  induction root with
  | nil => simp [lookupEntry] at h
  | cons p rest ih =>
    obtain ⟨n, z⟩ := p
    by_cases hn : n = project
    · simp only [lookupEntry, hn, if_true, Option.some.injEq] at h
      subst h
      simp [modifyDir, hn]
    · simp only [lookupEntry, hn, if_false] at h
      simp [modifyDir, hn, ih h]

theorem lookupEntry_modifyDir (project name : String) (g : Directory → Directory)
    (root : Directory) :
    lookupEntry name (modifyDir project g root)
      = if project = name then
          match lookupEntry project root with
          | none => some (Node.dir (g []))
          | some (Node.dir entries) => some (Node.dir (g entries))
          | some (Node.file content) => some (Node.file content)
        else lookupEntry name root := by
  cases hl : lookupEntry project root with
  | none =>
    rw [modifyDir_of_none _ _ _ hl, lookupEntry_append]
    by_cases hpn : project = name
    · subst hpn
      simp [hl, lookupEntry]
    · simp only [if_neg hpn]
      cases lookupEntry name root <;> simp [lookupEntry, hpn]
  | some node =>
    cases node with
    | file content =>
      rw [modifyDir_of_file _ _ _ _ hl]
      by_cases hpn : project = name
      · subst hpn
        simp [hl]
      · simp [hpn]
    | dir entries =>
      rw [modifyDir_of_dir _ _ _ _ hl, lookupEntry_setEntry]

theorem dumped_schemas (w : World) (root : Directory) (item : Item) (foundFiles : FoundFiles)
    (hs : w.schemas = some (Node.dir root))
    (henter : canEnter w.declined root item.project = true) :
    ∃ w1, ensureProjectDirectory w item.project = Ensured.ready w1
      ∧ (dumped w1 item.project item.name item.text item.strings foundFiles).world.schemas
          = some (Node.dir (writeStep item root)) := by
  unfold canEnter at henter
  simp only [Bool.and_eq_true, decide_eq_true_eq] at henter
  obtain ⟨hlen, hent⟩ := henter
  have hlen2 : ¬ NAME_MAX < item.project.length := Nat.not_lt.mpr hlen
  unfold writeStep
  cases hl : lookupEntry item.project root with
  | none =>
    rw [hl] at hent
    simp only [decide_eq_true_eq] at hent
    refine ⟨{ w with schemas := some (Node.dir (root ++ [(item.project, Node.dir [])])) }, ?_, ?_⟩
    · unfold ensureProjectDirectory
      rw [if_neg hlen2, hs]
      simp [hl, hent]
    · have hl2 : lookupEntry item.project (root ++ [(item.project, Node.dir [])])
          = some (Node.dir []) := by
        rw [lookupEntry_append, hl]
        simp [lookupEntry]
      rw [modifyDir_of_none _ _ _ hl]
      unfold dumped writeArtifact writeEntry
      by_cases hf : NAME_MAX < (artifactFileName item.name).length
      · simp only [if_pos hf]
      · simp only [if_neg hf, hl2, lookupEntry]
        rw [setEntry_append_new _ _ _ _ hl]
  | some node =>
    cases node with
    | file content => simp [hl] at hent
    | dir entries =>
      refine ⟨w, ?_, ?_⟩
      · unfold ensureProjectDirectory
        rw [if_neg hlen2, hs]
        simp [hl]
      · rw [modifyDir_of_dir _ _ _ _ hl]
        unfold dumped writeArtifact writeEntry
        by_cases hf : NAME_MAX < (artifactFileName item.name).length
        · simp only [if_pos hf]
          rw [hs, setEntry_self _ _ _ hl]
        · simp only [if_neg hf, hs, hl]
          cases hfl : lookupEntry (artifactFileName item.name) entries with
          | none => rfl
          | some sub =>
            cases sub with
            | file content => rfl
            | dir x =>
              simp only
              rw [hs, setEntry_self _ _ _ hl]

theorem ensureProjectDirectory_raised (w : World) (root : Directory) (project : String)
    (hs : w.schemas = some (Node.dir root)) (h : canEnter w.declined root project = false) :
    ensureProjectDirectory w project = Ensured.raised := by
  unfold ensureProjectDirectory
  by_cases hlen : NAME_MAX < project.length
  · rw [if_pos hlen]
  · rw [if_neg hlen, hs]
    have hlen2 : project.length ≤ NAME_MAX := Nat.not_lt.mp hlen
    unfold canEnter at h
    cases hl : lookupEntry project root with
    | none =>
      rw [hl] at h
      simp only [hlen2, decide_True, Bool.true_and, decide_eq_false_iff_not, not_not] at h
      simp [hl, h]
    | some node =>
      cases node with
      | file content => simp [hl]
      | dir entries => simp [hl, hlen2] at h

theorem canEnter_writeStep (declined : List (List String)) (item : Item) (root : Directory)
    (name : String) (h : canEnter declined root item.project = true) :
    canEnter declined (writeStep item root) name = canEnter declined root name := by
  by_cases hpn : item.project = name
  · subst hpn
    rw [h]
    unfold canEnter at h ⊢
    unfold writeStep
    simp only [Bool.and_eq_true, decide_eq_true_eq] at h
    rw [lookupEntry_modifyDir, if_pos rfl]
    cases hl : lookupEntry item.project root with
    | none => simp [h.1]
    | some node =>
      cases node with
      | file content => rw [hl] at h; simp at h
      | dir entries => simp [h.1]
  · unfold canEnter writeStep
    rw [lookupEntry_modifyDir, if_neg hpn]

theorem runItems_of_clear (items : List Item) :
    ∀ (s : DumpState) (root : Directory),
      s.world.schemas = some (Node.dir root) →
      (∀ item ∈ items, canEnter s.world.declined root item.project = true) →
      ∃ s1, runItems items s = Run.ok s1
        ∧ s1.world.declined = s.world.declined
        ∧ s1.world.schemas = some (Node.dir (writeAll items root))
        ∧ s1.foundFiles = recordAll items s.foundFiles := by
  induction items with
  | nil => exact fun s root hs _ => ⟨s, rfl, rfl, hs, rfl⟩
  | cons item rest ih =>
    intro s root hs hclear
    have hhead := hclear item (List.mem_cons_self _ _)
    obtain ⟨w1, hready, hschemas⟩ := dumped_schemas s.world root item s.foundFiles hs hhead
    have hd1 := (ensureProjectDirectory_declined s.world item.project).2 w1 hready
    have hd2 : (dumped w1 item.project item.name item.text item.strings s.foundFiles).world.declined
        = s.world.declined := by
      rw [dumped_declined]; exact hd1
    obtain ⟨s1, hrun, hd3, hs2, hf2⟩ :=
      ih (dumped w1 item.project item.name item.text item.strings s.foundFiles)
        (writeStep item root) hschemas
        (fun it hit => by
          rw [hd2, canEnter_writeStep _ _ _ _ hhead]
          exact hclear it (List.mem_cons_of_mem _ hit))
    refine ⟨s1, ?_, hd3.trans hd2, hs2, hf2⟩
    simp only [runItems, hready]
    exact hrun

theorem clear_of_runItems (items : List Item) :
    ∀ (s s1 : DumpState) (root : Directory),
      s.world.schemas = some (Node.dir root) → runItems items s = Run.ok s1 →
      ∀ item ∈ items, canEnter s.world.declined root item.project = true := by
  induction items with
  | nil => intro s s1 root _ _ item hitem; simp at hitem
  | cons item rest ih =>
    intro s s1 root hs hrun
    have hhead : canEnter s.world.declined root item.project = true := by
      cases hf : canEnter s.world.declined root item.project with
      | true => rfl
      | false =>
        simp [runItems, ensureProjectDirectory_raised s.world root item.project hs hf] at hrun
    obtain ⟨w1, hready, hschemas⟩ := dumped_schemas s.world root item s.foundFiles hs hhead
    have hd1 := (ensureProjectDirectory_declined s.world item.project).2 w1 hready
    have hd2 : (dumped w1 item.project item.name item.text item.strings s.foundFiles).world.declined
        = s.world.declined := by
      rw [dumped_declined]; exact hd1
    simp only [runItems, hready] at hrun
    have hrest := ih _ s1 (writeStep item root) hschemas hrun
    intro it hit
    rcases List.mem_cons.mp hit with hit | hit
    · rw [hit]; exact hhead
    · have := hrest it hit
      rw [hd2, canEnter_writeStep _ _ _ _ hhead] at this
      exact this

/-! ## When the synchronizer completes -/

theorem removeOutdated_of_removable (filesSet : List String) (entries : Directory)
    (h : ∀ p ∈ entries, stem p.1 ∉ filesSet → p.2.removable = true) :
    removeOutdated filesSet entries
      = Run.ok (entries.filter (fun q => decide (stem q.1 ∈ filesSet))) := by
  induction entries with
  | nil => rfl
  | cons p rest ih =>
    obtain ⟨name, node⟩ := p
    have hrest := ih (fun q hq => h q (List.mem_cons_of_mem _ hq))
    by_cases hs : stem name ∈ filesSet
    · simp [removeOutdated, hs, hrest]
    · have hrem := h _ (List.mem_cons_self _ _) hs
      cases node with
      | file content =>
        rw [removeOutdated_cons_file _ _ _ _ hs, hrest]
        simp [List.filter, hs]
      | dir sub =>
        cases sub with
        | nil =>
          rw [removeOutdated_cons_empty _ _ _ hs, hrest]
          simp [List.filter, hs]
        | cons x xs => simp [Node.removable] at hrem

theorem removable_of_removeOutdated (filesSet : List String) (entries : Directory) :
    ∀ kept, removeOutdated filesSet entries = Run.ok kept →
      ∀ p ∈ entries, stem p.1 ∉ filesSet → p.2.removable = true := by
  induction entries with
  | nil => intro kept _ p hp; simp at hp
  | cons q rest ih =>
    obtain ⟨name, node⟩ := q
    intro kept h p hp hs
    by_cases hq : stem name ∈ filesSet
    · cases hrun : removeOutdated filesSet rest with
      | threw kept1 => simp [removeOutdated, hq, hrun] at h
      | ok kept1 =>
        rcases List.mem_cons.mp hp with hp | hp
        · rw [hp] at hs
          exact absurd hq hs
        · exact ih kept1 hrun p hp hs
    · cases node with
      | file content =>
        rw [removeOutdated_cons_file _ _ _ _ hq] at h
        rcases List.mem_cons.mp hp with hp | hp
        · rw [hp]; rfl
        · exact ih kept h p hp hs
      | dir sub =>
        cases sub with
        | nil =>
          rw [removeOutdated_cons_empty _ _ _ hq] at h
          rcases List.mem_cons.mp hp with hp | hp
          · rw [hp]; rfl
          · exact ih kept h p hp hs
        | cons x xs =>
          rw [removeOutdated_cons_full _ _ _ _ _ hq] at h
          simp at h

theorem synchronize_of_syncable (foundFiles : FoundFiles) (root : Directory)
    (h : syncable foundFiles root) :
    synchronize foundFiles root = Run.ok (synchronized foundFiles root) := by
  induction root with
  | nil => rfl
  | cons p rest ih =>
    obtain ⟨name, node⟩ := p
    have hrest := ih ⟨fun n c hm => h.1 n c (List.mem_cons_of_mem _ hm),
      fun n es S hm => h.2 n es S (List.mem_cons_of_mem _ hm)⟩
    cases node with
    | file content =>
      have hnone := h.1 name content (List.mem_cons_self _ _)
      simp [synchronize, synchronized, hnone, hrest]
    | dir entries =>
      cases hf : findFound name foundFiles with
      | none => simp [synchronize, synchronized, hf, hrest]
      | some filesSet =>
        have hrem := removeOutdated_of_removable filesSet entries
          (h.2 name entries filesSet (List.mem_cons_self _ _) hf)
        simp [synchronize, synchronized, hf, hrest, hrem]

theorem syncable_of_synchronize (foundFiles : FoundFiles) (root : Directory) :
    ∀ kept, synchronize foundFiles root = Run.ok kept → syncable foundFiles root := by
  induction root with
  | nil =>
    intro kept _
    exact ⟨fun n c hm => by simp at hm, fun n es S hm => by simp at hm⟩
  | cons p rest ih =>
    obtain ⟨name, node⟩ := p
    intro kept h
    cases node with
    | file content =>
      cases hf : findFound name foundFiles with
      | some filesSet => simp [synchronize, hf] at h
      | none =>
        cases hrun : synchronize foundFiles rest with
        | threw others => simp [synchronize, hf, hrun] at h
        | ok others =>
          obtain ⟨h1, h2⟩ := ih others hrun
          refine ⟨?_, ?_⟩
          · intro n c hm
            rcases List.mem_cons.mp hm with hm | hm
            · simp only [Prod.mk.injEq] at hm
              rw [hm.1]; exact hf
            · exact h1 n c hm
          · intro n es S hm
            rcases List.mem_cons.mp hm with hm | hm
            · simp at hm
            · exact h2 n es S hm
    | dir entries =>
      cases hf : findFound name foundFiles with
      | none =>
        simp only [synchronize, hf] at h
        obtain ⟨h1, h2⟩ := ih kept h
        refine ⟨?_, ?_⟩
        · intro n c hm
          rcases List.mem_cons.mp hm with hm | hm
          · simp at hm
          · exact h1 n c hm
        · intro n es S hm hk
          rcases List.mem_cons.mp hm with hm | hm
          · simp only [Prod.mk.injEq] at hm
            rw [hm.1, hf] at hk
            simp at hk
          · exact h2 n es S hm hk
      | some filesSet =>
        cases hrem : removeOutdated filesSet entries with
        | threw left => simp [synchronize, hf, hrem] at h
        | ok left =>
          cases hrun : synchronize foundFiles rest with
          | threw others => simp [synchronize, hf, hrem, hrun] at h
          | ok others =>
            obtain ⟨h1, h2⟩ := ih others hrun
            refine ⟨?_, ?_⟩
            · intro n c hm
              rcases List.mem_cons.mp hm with hm | hm
              · simp at hm
              · exact h1 n c hm
            · intro n es S hm hk
              rcases List.mem_cons.mp hm with hm | hm
              · simp only [Prod.mk.injEq, Node.dir.injEq] at hm
                obtain ⟨rfl, rfl⟩ := hm
                rw [hf] at hk
                simp only [Option.some.injEq] at hk
                subst hk
                exact removable_of_removeOutdated _ _ left hrem
              · exact h2 n es S hm hk

/-! ## Filtering a directory by the names of its entries -/

theorem lookupEntry_filter (q : String → Bool) (name : String) (entries : Directory) :
    lookupEntry name (entries.filter (fun e => q e.1))
      = if q name = true then lookupEntry name entries else none := by
  induction entries with
  | nil => simp [lookupEntry]
  | cons p rest ih =>
    obtain ⟨n, x⟩ := p
    by_cases hn : n = name
    · subst hn
      by_cases hq : q n = true
      · simp [List.filter, hq, lookupEntry]
      · simp [List.filter, hq, ih]
    · by_cases hq : q n = true
      · simp [List.filter, hq, lookupEntry, hn, ih]
      · simp [List.filter, hq, lookupEntry, hn, ih]

theorem filter_setEntry_kept (q : String → Bool) (name : String) (x : Node) (entries : Directory)
    (h : q name = true) :
    (setEntry name x entries).filter (fun e => q e.1)
      = setEntry name x (entries.filter (fun e => q e.1)) := by
  induction entries with
  | nil => simp [setEntry, List.filter, h]
  | cons p rest ih =>
    obtain ⟨n, y⟩ := p
    by_cases hn : n = name
    · subst hn
      simp [setEntry, List.filter, h]
    · by_cases hq : q n = true
      · simp [setEntry, List.filter, hn, hq, ih]
      · simp [setEntry, List.filter, hn, hq, ih]

theorem filter_setEntry_dropped (q : String → Bool) (name : String) (x : Node)
    (entries : Directory) (h : ¬ q name = true) :
    (setEntry name x entries).filter (fun e => q e.1) = entries.filter (fun e => q e.1) := by
  induction entries with
  | nil => simp [setEntry, List.filter, h]
  | cons p rest ih =>
    obtain ⟨n, y⟩ := p
    by_cases hn : n = name
    · subst hn
      simp [setEntry, List.filter, h]
    · by_cases hq : q n = true
      · simp [setEntry, List.filter, hn, hq, ih]
      · simp [setEntry, List.filter, hn, hq, ih]

theorem writeEntry_of_long (fileName text : String) (entries : Directory)
    (h : NAME_MAX < fileName.length) : writeEntry fileName text entries = entries := by
  unfold writeEntry
  rw [if_pos h]

theorem writeEntry_of_short (fileName text : String) (entries : Directory)
    (h : ¬ NAME_MAX < fileName.length) :
    writeEntry fileName text entries
      = match lookupEntry fileName entries with
        | some (Node.dir _) => entries
        | _ => setEntry fileName (Node.file text) entries := by
  unfold writeEntry
  rw [if_neg h]

theorem filter_writeEntry_absorb (q : String → Bool) (fileName text : String)
    (entries : Directory) :
    (writeEntry fileName text (entries.filter (fun e => q e.1))).filter (fun e => q e.1)
      = (writeEntry fileName text entries).filter (fun e => q e.1) := by
  by_cases hlen : NAME_MAX < fileName.length
  · rw [writeEntry_of_long _ _ _ hlen, writeEntry_of_long _ _ _ hlen, List.filter_filter]
    simp
  · rw [writeEntry_of_short _ _ _ hlen, writeEntry_of_short _ _ _ hlen, lookupEntry_filter]
    by_cases hq : q fileName = true
    · rw [if_pos hq]
      cases hl : lookupEntry fileName entries with
      | none =>
        simp only
        rw [filter_setEntry_kept q _ _ _ hq, filter_setEntry_kept q _ _ _ hq, List.filter_filter]
        simp
      | some node =>
        cases node with
        | file content =>
          simp only
          rw [filter_setEntry_kept q _ _ _ hq, filter_setEntry_kept q _ _ _ hq, List.filter_filter]
          simp
        | dir sub =>
          simp only
          rw [List.filter_filter]
          simp
    · rw [if_neg hq]
      simp only
      rw [filter_setEntry_dropped q _ _ _ hq, List.filter_filter]
      cases hl : lookupEntry fileName entries with
      | none =>
        simp only
        rw [filter_setEntry_dropped q _ _ _ hq]
        simp
      | some node =>
        cases node with
        | file content =>
          simp only
          rw [filter_setEntry_dropped q _ _ _ hq]
          simp
        | dir sub => simp

/-! ## Writing before or after the synchronizer -/

theorem synchronized_cons_file (foundFiles : FoundFiles) (name content : String)
    (rest : Directory) :
    synchronized foundFiles ((name, Node.file content) :: rest)
      = (name, Node.file content) :: synchronized foundFiles rest := by
  simp [synchronized]

theorem synchronized_cons_key (foundFiles : FoundFiles) (name : String) (entries : Directory)
    (rest : Directory) (filesSet : List String) (h : findFound name foundFiles = some filesSet) :
    synchronized foundFiles ((name, Node.dir entries) :: rest)
      = (name, Node.dir (entries.filter (fun q => decide (stem q.1 ∈ filesSet))))
          :: synchronized foundFiles rest := by
  simp [synchronized, h]

theorem synchronized_cons_other (foundFiles : FoundFiles) (name : String) (entries : Directory)
    (rest : Directory) (h : findFound name foundFiles = none) :
    synchronized foundFiles ((name, Node.dir entries) :: rest) = synchronized foundFiles rest := by
  simp [synchronized, h]

theorem synchronized_idem (foundFiles : FoundFiles) (root : Directory) :
    synchronized foundFiles (synchronized foundFiles root) = synchronized foundFiles root := by
  induction root with
  | nil => rfl
  | cons p rest ih =>
    obtain ⟨name, node⟩ := p
    cases node with
    | file content => rw [synchronized_cons_file, synchronized_cons_file, ih]
    | dir entries =>
      cases hf : findFound name foundFiles with
      | none => rw [synchronized_cons_other _ _ _ _ hf, ih]
      | some filesSet =>
        rw [synchronized_cons_key _ _ _ _ _ hf, synchronized_cons_key _ _ _ _ _ hf, ih,
          List.filter_filter]
        simp

theorem lookupEntry_synchronized_key (foundFiles : FoundFiles) (project : String)
    (filesSet : List String) (hkey : findFound project foundFiles = some filesSet)
    (root : Directory) (entries : Directory)
    (h : lookupEntry project root = some (Node.dir entries)) :
    lookupEntry project (synchronized foundFiles root)
      = some (Node.dir (entries.filter (fun q => decide (stem q.1 ∈ filesSet)))) := by
  induction root with
  | nil => simp [lookupEntry] at h
  | cons p rest ih =>
    obtain ⟨n, node⟩ := p
    by_cases hn : n = project
    · subst hn
      simp only [lookupEntry, if_true, Option.some.injEq] at h
      subst h
      rw [synchronized_cons_key _ _ _ _ _ hkey]
      simp [lookupEntry]
    · simp only [lookupEntry, hn, if_false] at h
      cases node with
      | file content =>
        rw [synchronized_cons_file]
        simp [lookupEntry, hn, ih h]
      | dir es =>
        cases hf : findFound n foundFiles with
        | none => rw [synchronized_cons_other _ _ _ _ hf, ih h]
        | some set2 =>
          rw [synchronized_cons_key _ _ _ _ _ hf]
          simp [lookupEntry, hn, ih h]

theorem synchronized_modifyDir_absorb (foundFiles : FoundFiles) (project : String)
    (filesSet : List String) (g : Directory → Directory)
    (hkey : findFound project foundFiles = some filesSet)
    (hg : ∀ entries : Directory,
      (g (entries.filter (fun q => decide (stem q.1 ∈ filesSet)))).filter
          (fun q => decide (stem q.1 ∈ filesSet))
        = (g entries).filter (fun q => decide (stem q.1 ∈ filesSet)))
    (root : Directory) :
    synchronized foundFiles (modifyDir project g (synchronized foundFiles root))
      = synchronized foundFiles (modifyDir project g root) := by
  induction root with
  | nil => rfl
  | cons p rest ih =>
    obtain ⟨name, node⟩ := p
    by_cases hn : name = project
    · subst hn
      cases node with
      | file content =>
        rw [synchronized_cons_file]
        simp only [modifyDir, if_true]
        rw [synchronized_cons_file, synchronized_cons_file, synchronized_idem]
      | dir entries =>
        rw [synchronized_cons_key _ _ _ _ _ hkey]
        simp only [modifyDir, if_true]
        rw [synchronized_cons_key _ _ _ _ _ hkey, synchronized_cons_key _ _ _ _ _ hkey,
          synchronized_idem, hg]
    · cases node with
      | file content =>
        rw [synchronized_cons_file]
        simp only [modifyDir, hn, if_false]
        rw [synchronized_cons_file, synchronized_cons_file, ih]
      | dir entries =>
        cases hf : findFound name foundFiles with
        | none =>
          rw [synchronized_cons_other _ _ _ _ hf]
          simp only [modifyDir, hn, if_false]
          rw [synchronized_cons_other _ _ _ _ hf, ih]
        | some set2 =>
          rw [synchronized_cons_key _ _ _ _ _ hf]
          simp only [modifyDir, hn, if_false]
          rw [synchronized_cons_key _ _ _ _ _ hf, synchronized_cons_key _ _ _ _ _ hf, ih,
            List.filter_filter]
          simp

theorem synchronized_writeStep_absorb (foundFiles : FoundFiles) (item : Item)
    (filesSet : List String) (hkey : findFound item.project foundFiles = some filesSet)
    (root : Directory) :
    synchronized foundFiles (writeStep item (synchronized foundFiles root))
      = synchronized foundFiles (writeStep item root) :=
  synchronized_modifyDir_absorb foundFiles item.project filesSet _ hkey
    (fun entries => filter_writeEntry_absorb (fun f => decide (stem f ∈ filesSet)) _ _ entries) root

theorem synchronized_writeAll_absorb (foundFiles : FoundFiles) (items : List Item)
    (hkeys : ∀ item ∈ items, findFound item.project foundFiles ≠ none) :
    ∀ root : Directory,
      synchronized foundFiles (writeAll items (synchronized foundFiles root))
        = synchronized foundFiles (writeAll items root) := by
  induction items with
  | nil => intro root; exact synchronized_idem foundFiles root
  | cons item rest ih =>
    intro root
    have hrest := ih (fun it hit => hkeys it (List.mem_cons_of_mem _ hit))
    have hk := hkeys item (List.mem_cons_self _ _)
    cases hf : findFound item.project foundFiles with
    | none => exact absurd hf hk
    | some filesSet =>
      simp only [writeAll]
      rw [← hrest (writeStep item (synchronized foundFiles root)),
        synchronized_writeStep_absorb foundFiles item filesSet hf root, hrest]

theorem findFound_recordAll_mono (items : List Item) :
    ∀ (foundFiles : FoundFiles) (project : String),
      findFound project foundFiles ≠ none →
      findFound project (recordAll items foundFiles) ≠ none := by
  induction items with
  | nil => exact fun _ _ h => h
  | cons item rest ih =>
    intro foundFiles project h
    apply ih
    rw [findFound_insertFound]
    split
    · simp
    · exact h

theorem findFound_recordAll_key (items : List Item) :
    ∀ (foundFiles : FoundFiles), ∀ item ∈ items,
      findFound item.project (recordAll items foundFiles) ≠ none := by
  induction items with
  | nil => intro _ item hitem; simp at hitem
  | cons head rest ih =>
    intro foundFiles item hitem
    rcases List.mem_cons.mp hitem with hitem | hitem
    · subst hitem
      show findFound item.project
        (recordAll rest (insertFound item.project (sanitizedFileName item.name) foundFiles)) ≠ none
      apply findFound_recordAll_mono
      rw [findFound_insertFound, if_pos rfl]
      simp
    · exact ih _ item hitem

/-! ## Writing twice -/

theorem modifyDir_modifyDir (project : String) (g h : Directory → Directory) (root : Directory) :
    modifyDir project g (modifyDir project h root) = modifyDir project (fun es => g (h es)) root := by
  induction root with
  | nil => simp [modifyDir]
  | cons p rest ih =>
    obtain ⟨n, node⟩ := p
    by_cases hn : n = project
    · cases node <;> simp [modifyDir, hn]
    · simp [modifyDir, hn, ih]

theorem modifyDir_comm (p q : String) (g h : Directory → Directory) (hpq : p ≠ q)
    (root : Directory) (hmem : lookupEntry p root ≠ none) :
    modifyDir p g (modifyDir q h root) = modifyDir q h (modifyDir p g root) := by
  induction root with
  | nil => simp [lookupEntry] at hmem
  | cons e rest ih =>
    obtain ⟨n, node⟩ := e
    by_cases hnp : n = p
    · have hnq : ¬ n = q := fun e => hpq (hnp.symm.trans e)
      cases node <;> simp [modifyDir, hnp, hnq, hpq]
    · by_cases hnq : n = q
      · have hqp : ¬ q = p := fun e => hpq e.symm
        cases node <;> simp [modifyDir, hnp, hnq, hqp]
      · have hrest : lookupEntry p rest ≠ none := by
          simpa [lookupEntry, hnp] using hmem
        simp [modifyDir, hnp, hnq, ih hrest]

theorem modifyDir_congr (project : String) (g h : Directory → Directory) (root : Directory)
    (hdir : ∀ entries, lookupEntry project root = some (Node.dir entries) → g entries = h entries)
    (hnone : lookupEntry project root = none → g [] = h []) :
    modifyDir project g root = modifyDir project h root := by
  cases hl : lookupEntry project root with
  | none => rw [modifyDir_of_none _ _ _ hl, modifyDir_of_none _ _ _ hl, hnone hl]
  | some node =>
    cases node with
    | file content => rw [modifyDir_of_file _ _ _ _ hl, modifyDir_of_file _ _ _ _ hl]
    | dir entries => rw [modifyDir_of_dir _ _ _ _ hl, modifyDir_of_dir _ _ _ _ hl, hdir _ hl]

theorem setEntry_setEntry (name : String) (x y : Node) (d : Directory) :
    setEntry name x (setEntry name y d) = setEntry name x d := by
  induction d with
  | nil => simp [setEntry]
  | cons p rest ih =>
    obtain ⟨n, z⟩ := p
    by_cases hn : n = name
    · simp [setEntry, hn]
    · simp [setEntry, hn, ih]

theorem setEntry_comm (a b : String) (x y : Node) (hab : a ≠ b) (d : Directory)
    (hmem : lookupEntry a d ≠ none) :
    setEntry a x (setEntry b y d) = setEntry b y (setEntry a x d) := by
  induction d with
  | nil => simp [lookupEntry] at hmem
  | cons p rest ih =>
    obtain ⟨n, z⟩ := p
    by_cases hna : n = a
    · have hnb : ¬ n = b := fun e => hab (hna.symm.trans e)
      simp [setEntry, hna, hnb, hab]
    · by_cases hnb : n = b
      · have hba : ¬ b = a := fun e => hab e.symm
        simp [setEntry, hna, hnb, hba]
      · have hrest : lookupEntry a rest ≠ none := by
          simpa [lookupEntry, hna] using hmem
        simp [setEntry, hna, hnb, ih hrest]

theorem lookupEntry_writeEntry_ne (a b text : String) (hab : a ≠ b) (d : Directory) :
    lookupEntry a (writeEntry b text d) = lookupEntry a d := by
  by_cases hlen : NAME_MAX < b.length
  · rw [writeEntry_of_long _ _ _ hlen]
  · rw [writeEntry_of_short _ _ _ hlen]
    have hba : ¬ b = a := fun e => hab e.symm
    cases hl : lookupEntry b d with
    | none => simp [lookupEntry_setEntry, hba]
    | some node =>
      cases node with
      | file content => simp [lookupEntry_setEntry, hba]
      | dir sub => rfl

theorem lookupEntry_writeEntry_self (a text : String) (d : Directory)
    (hlen : ¬ NAME_MAX < a.length) :
    lookupEntry a (writeEntry a text d) ≠ none := by
  rw [writeEntry_of_short _ _ _ hlen]
  cases hl : lookupEntry a d with
  | none => simp [lookupEntry_setEntry]
  | some node =>
    cases node with
    | file content => simp [lookupEntry_setEntry]
    | dir sub => simp [hl]

theorem writeEntry_writeEntry (name x y : String) (d : Directory) :
    writeEntry name x (writeEntry name y d) = writeEntry name x d := by
  by_cases hlen : NAME_MAX < name.length
  · simp only [writeEntry_of_long _ _ _ hlen]
  · rw [writeEntry_of_short _ _ _ hlen, writeEntry_of_short _ _ _ hlen,
      writeEntry_of_short _ _ _ hlen]
    cases hl : lookupEntry name d with
    | none => simp [lookupEntry_setEntry, setEntry_setEntry]
    | some node =>
      cases node with
      | file content => simp [lookupEntry_setEntry, setEntry_setEntry]
      | dir sub => simp [hl]

theorem writeEntry_comm (a b x y : String) (hab : a ≠ b) (d : Directory)
    (hmem : NAME_MAX < a.length ∨ lookupEntry a d ≠ none) :
    writeEntry a x (writeEntry b y d) = writeEntry b y (writeEntry a x d) := by
  by_cases ha : NAME_MAX < a.length
  · rw [writeEntry_of_long a x _ ha, writeEntry_of_long a x _ ha]
  · by_cases hb : NAME_MAX < b.length
    · rw [writeEntry_of_long b y _ hb, writeEntry_of_long b y _ hb]
    · have hmem2 : lookupEntry a d ≠ none := by
        rcases hmem with h | h
        · exact absurd h ha
        · exact h
      have h1 := lookupEntry_writeEntry_ne a b y hab d
      have h2 := lookupEntry_writeEntry_ne b a x (fun e => hab e.symm) d
      rw [writeEntry_of_short a x (writeEntry b y d) ha, h1,
        writeEntry_of_short b y (writeEntry a x d) hb, h2,
        writeEntry_of_short a x d ha, writeEntry_of_short b y d hb]
      cases hla : lookupEntry a d with
      | none => exact absurd hla hmem2
      | some na =>
        cases hlb : lookupEntry b d with
        | none =>
          cases na with
          | file ca =>
            simp only
            exact setEntry_comm a b _ _ hab d hmem2
          | dir sa => simp only
        | some nb =>
          cases na with
          | file ca =>
            cases nb with
            | file cb =>
              simp only
              exact setEntry_comm a b _ _ hab d hmem2
            | dir sb => simp only
          | dir sa =>
            cases nb with
            | file cb => simp only
            | dir sb => simp only

theorem writeStep_same_target (a b : Item) (root : Directory)
    (hp : a.project = b.project)
    (hf : artifactFileName a.name = artifactFileName b.name) :
    writeStep b (writeStep a root) = writeStep b root := by
  unfold writeStep
  rw [hp, modifyDir_modifyDir, hf]
  congr 1
  funext es
  exact writeEntry_writeEntry _ _ _ es

theorem writeStep_comm (a b : Item) (root : Directory) (hne : sameTarget a b = false)
    (hpres : present root a) :
    writeStep a (writeStep b root) = writeStep b (writeStep a root) := by
  unfold writeStep
  unfold present at hpres
  by_cases hp : a.project = b.project
  · have hf : artifactFileName a.name ≠ artifactFileName b.name := by
      intro e
      simp [sameTarget, hp, e] at hne
    rw [← hp, modifyDir_modifyDir, modifyDir_modifyDir]
    apply modifyDir_congr
    · intro entries hl
      rw [hl] at hpres
      exact writeEntry_comm _ _ _ _ hf entries hpres
    · intro hl
      rw [hl] at hpres
      exact absurd hpres id
  · apply modifyDir_comm _ _ _ _ hp
    intro hl
    rw [hl] at hpres
    exact hpres

theorem present_writeStep_self (a : Item) (root : Directory) : present (writeStep a root) a := by
  unfold present writeStep
  rw [lookupEntry_modifyDir, if_pos rfl]
  by_cases hlen : NAME_MAX < (artifactFileName a.name).length
  · cases hl : lookupEntry a.project root with
    | none => exact Or.inl hlen
    | some node =>
      cases node with
      | file content => trivial
      | dir entries => exact Or.inl hlen
  · cases hl : lookupEntry a.project root with
    | none => exact Or.inr (lookupEntry_writeEntry_self _ _ _ hlen)
    | some node =>
      cases node with
      | file content => trivial
      | dir entries => exact Or.inr (lookupEntry_writeEntry_self _ _ _ hlen)

theorem present_writeStep (a b : Item) (root : Directory) (h : present root a) :
    present (writeStep b root) a := by
  unfold present writeStep at *
  rw [lookupEntry_modifyDir]
  by_cases hp : b.project = a.project
  · rw [if_pos hp, hp]
    cases hl : lookupEntry a.project root with
    | none => rw [hl] at h; exact absurd h id
    | some node =>
      cases node with
      | file content => trivial
      | dir entries =>
        rw [hl] at h
        simp only
        rcases h with h | h
        · exact Or.inl h
        · by_cases hf : artifactFileName a.name = artifactFileName b.name
          · by_cases hlen : NAME_MAX < (artifactFileName a.name).length
            · exact Or.inl hlen
            · right
              rw [← hf]
              exact lookupEntry_writeEntry_self _ _ _ hlen
          · right
            rw [lookupEntry_writeEntry_ne _ _ _ hf]
            exact h
  · rw [if_neg hp]
    exact h

theorem present_writeAll (a : Item) (items : List Item) :
    ∀ root : Directory, present root a → present (writeAll items root) a := by
  induction items with
  | nil => exact fun _ h => h
  | cons b rest ih => exact fun root h => ih _ (present_writeStep a b root h)

theorem writeAll_after_writeStep (a : Item) (items : List Item) :
    ∀ root : Directory, present root a →
      writeAll items (writeStep a root)
        = if items.any (sameTarget a) = true then writeAll items root
          else writeStep a (writeAll items root) := by
  induction items with
  | nil => intro root _; rfl
  | cons b rest ih =>
    intro root hpres
    simp only [writeAll, List.any_cons]
    cases hst : sameTarget a b with
    | true =>
      have hst2 := hst
      simp only [sameTarget, decide_eq_true_eq] at hst2
      rw [writeStep_same_target a b root hst2.1 hst2.2]
      simp
    | false =>
      rw [← writeStep_comm a b root hst hpres, ih _ (present_writeStep a b root hpres)]
      simp

theorem writeAll_idem (items : List Item) :
    ∀ root : Directory, writeAll items (writeAll items root) = writeAll items root := by
  induction items with
  | nil => intro root; rfl
  | cons a rest ih =>
    intro root
    simp only [writeAll]
    have hpres := present_writeStep_self a root
    have hself : writeStep a (writeStep a root) = writeStep a root :=
      writeStep_same_target a a root rfl rfl
    rw [writeAll_after_writeStep a rest _ (present_writeAll a rest _ hpres), ih]
    by_cases hany : rest.any (sameTarget a) = true
    · rw [if_pos hany]
    · rw [if_neg hany]
      have h := writeAll_after_writeStep a rest _ hpres
      rw [if_neg hany, hself] at h
      exact h.symm

/-! ## A run in terms of writes and the synchronizer -/

theorem ensureSchemaPath_of_declined (w : World) :
    ensureSchemaPath w = Ensured.raised
      ∨ ∃ w0, ensureSchemaPath w = Ensured.ready w0 ∧ w0.declined = w.declined
          ∧ w0.schemas = some (Node.dir (priorRoot w)) := by
  unfold ensureSchemaPath priorRoot
  cases hs : w.schemas with
  | none =>
    by_cases hdec : ["schemas"] ∈ w.declined
    · left
      simp [hdec]
    · right
      exact ⟨{ w with schemas := some (Node.dir []) }, by simp [hdec], rfl, rfl⟩
  | some node =>
    cases node with
    | file content => left; rfl
    | dir root => right; exact ⟨w, rfl, rfl, hs⟩

theorem Dump_ok_inv (M : MetadataList) (schemaSystem : CSchemaSystem) (w w0 w1 : World)
    (root0 : Directory) (hready : ensureSchemaPath w = Ensured.ready w0)
    (hs : w0.schemas = some (Node.dir root0))
    (hrun : Dump M schemaSystem w = Run.ok w1) :
    (∀ item ∈ registryItems M schemaSystem, canEnter w0.declined root0 item.project = true)
      ∧ syncable (recordAll (registryItems M schemaSystem) [])
          (writeAll (registryItems M schemaSystem) root0)
      ∧ w1.schemas = some (Node.dir (synchronized (recordAll (registryItems M schemaSystem) [])
          (writeAll (registryItems M schemaSystem) root0)))
      ∧ w1.declined = w0.declined
      ∧ discovered M schemaSystem w = recordAll (registryItems M schemaSystem) [] := by
  unfold Dump at hrun
  rw [hready] at hrun
  simp only at hrun
  have hdisc : discovered M schemaSystem w
      = (dumpAllScopes M schemaSystem w0).state.foundFiles := by
    unfold discovered
    rw [hready]
    simp only
    cases dumpAllScopes M schemaSystem w0 <;> rfl
  rw [hdisc]
  rw [dumpAllScopes_eq_runItems M schemaSystem w0] at hrun ⊢
  cases hitems : runItems (registryItems M schemaSystem) { world := w0, foundFiles := [] } with
  | threw s => rw [hitems] at hrun; simp at hrun
  | ok s =>
    rw [hitems] at hrun
    simp only at hrun
    have hclear := clear_of_runItems _ _ s root0 hs hitems
    obtain ⟨s1, hrun1, hd1, hs1, hf1⟩ := runItems_of_clear (registryItems M schemaSystem)
      { world := w0, foundFiles := [] } root0 hs hclear
    rw [hitems] at hrun1
    simp only [Run.ok.injEq] at hrun1
    subst hrun1
    rw [hs1, hf1] at hrun
    simp only at hrun
    cases hsync : synchronize (recordAll (registryItems M schemaSystem) [])
        (writeAll (registryItems M schemaSystem) root0) with
    | threw kept => rw [hsync] at hrun; simp at hrun
    | ok kept =>
      rw [hsync] at hrun
      simp only [Run.ok.injEq] at hrun
      refine ⟨hclear, syncable_of_synchronize _ _ kept hsync, ?_, ?_, hf1⟩
      · rw [← hrun, synchronize_ok _ _ kept hsync]
      · rw [← hrun]
        exact hd1

theorem Dump_ok_intro (M : MetadataList) (schemaSystem : CSchemaSystem) (w w0 : World)
    (root0 : Directory) (hready : ensureSchemaPath w = Ensured.ready w0)
    (hs : w0.schemas = some (Node.dir root0))
    (hclear : ∀ item ∈ registryItems M schemaSystem,
      canEnter w0.declined root0 item.project = true)
    (hsync : syncable (recordAll (registryItems M schemaSystem) [])
      (writeAll (registryItems M schemaSystem) root0)) :
    ∃ w1, Dump M schemaSystem w = Run.ok w1
      ∧ w1.schemas = some (Node.dir (synchronized (recordAll (registryItems M schemaSystem) [])
          (writeAll (registryItems M schemaSystem) root0)))
      ∧ w1.declined = w0.declined := by
  obtain ⟨s1, hrun1, hd1, hs1, hf1⟩ := runItems_of_clear (registryItems M schemaSystem)
    { world := w0, foundFiles := [] } root0 hs hclear
  refine ⟨{ s1.world with schemas := some (Node.dir (synchronized
    (recordAll (registryItems M schemaSystem) []) (writeAll (registryItems M schemaSystem) root0))) },
    ?_, rfl, hd1⟩
  unfold Dump
  rw [hready]
  simp only
  rw [dumpAllScopes_eq_runItems M schemaSystem w0, hrun1]
  simp only
  rw [hs1, hf1]
  simp only
  rw [synchronize_of_syncable _ _ hsync]

/-! ## Entries after a write -/

theorem mem_file_modifyDir (project : String) (g : Directory → Directory) (root : Directory)
    (name content : String) (h : (name, Node.file content) ∈ modifyDir project g root) :
    (name, Node.file content) ∈ root := by
  induction root with
  | nil => simp [modifyDir] at h
  | cons p rest ih =>
    obtain ⟨n, node⟩ := p
    by_cases hn : n = project
    · cases node with
      | file c => simpa [modifyDir, hn] using h
      | dir es =>
        simp only [modifyDir, hn, if_true, List.mem_cons, Prod.mk.injEq] at h
        rcases h with h | h
        · simp at h
        · exact List.mem_cons_of_mem _ h
    · simp only [modifyDir, hn, if_false, List.mem_cons] at h
      rcases h with h | h
      · exact h ▸ List.mem_cons_self _ _
      · exact List.mem_cons_of_mem _ (ih h)

theorem mem_dir_modifyDir (project : String) (g : Directory → Directory) (root : Directory)
    (name : String) (entries : Directory)
    (h : (name, Node.dir entries) ∈ modifyDir project g root) :
    (name, Node.dir entries) ∈ root
      ∨ (name = project ∧ ∃ old, entries = g old ∧ ((project, Node.dir old) ∈ root ∨ old = [])) := by
  induction root with
  | nil =>
    simp only [modifyDir, List.mem_singleton, Prod.mk.injEq, Node.dir.injEq] at h
    exact Or.inr ⟨h.1, [], h.2, Or.inr rfl⟩
  | cons p rest ih =>
    obtain ⟨n, node⟩ := p
    by_cases hn : n = project
    · cases node with
      | file c =>
        simp only [modifyDir, hn, if_true] at h
        left
        rw [hn]
        exact h
      | dir es =>
        simp only [modifyDir, hn, if_true, List.mem_cons, Prod.mk.injEq, Node.dir.injEq] at h
        rcases h with h | h
        · exact Or.inr ⟨h.1, es, h.2, Or.inl (hn ▸ List.mem_cons_self _ _)⟩
        · exact Or.inl (List.mem_cons_of_mem _ h)
    · simp only [modifyDir, hn, if_false, List.mem_cons] at h
      rcases h with h | h
      · exact Or.inl (h ▸ List.mem_cons_self _ _)
      · rcases ih h with h | ⟨h1, old, h2, h3⟩
        · exact Or.inl (List.mem_cons_of_mem _ h)
        · refine Or.inr ⟨h1, old, h2, ?_⟩
          rcases h3 with h3 | h3
          · exact Or.inl (List.mem_cons_of_mem _ h3)
          · exact Or.inr h3

theorem mem_writeEntry (fileName text : String) (entries : Directory) (p : String × Node)
    (h : p ∈ writeEntry fileName text entries) :
    p = (fileName, Node.file text) ∨ p ∈ entries := by
  by_cases hlen : NAME_MAX < fileName.length
  · rw [writeEntry_of_long _ _ _ hlen] at h
    exact Or.inr h
  · rw [writeEntry_of_short _ _ _ hlen] at h
    cases hl : lookupEntry fileName entries with
    | none =>
      rw [hl] at h
      exact mem_setEntry _ _ _ _ h
    | some node =>
      rw [hl] at h
      cases node with
      | file content => exact mem_setEntry _ _ _ _ h
      | dir sub => exact Or.inr h

theorem mem_file_writeAll (items : List Item) :
    ∀ (root : Directory) (name content : String),
      (name, Node.file content) ∈ writeAll items root → (name, Node.file content) ∈ root := by
  induction items with
  | nil => exact fun _ _ _ h => h
  | cons item rest ih =>
    intro root name content h
    exact mem_file_modifyDir _ _ _ _ _ (ih _ name content h)

/-! ## The second run -/

theorem strayFilesOnly_synchronized (foundFiles : FoundFiles) (root : Directory) :
    strayFilesOnly foundFiles (synchronized foundFiles root) := by
  intro name entries filesSet hm hf p hp hs
  rcases (mem_synchronized _ _ _ _).mp hm with ⟨content, hc, _⟩ | ⟨old, set2, _, hk, he⟩
  · simp at hc
  · rw [hf] at hk
    simp only [Option.some.injEq] at hk
    subst hk
    simp only [Node.dir.injEq] at he
    rw [he, List.mem_filter] at hp
    simp only [decide_eq_true_eq] at hp
    exact absurd hp.2 hs

theorem strayFilesOnly_writeStep (foundFiles : FoundFiles) (item : Item) (root : Directory)
    (h : strayFilesOnly foundFiles root) : strayFilesOnly foundFiles (writeStep item root) := by
  intro name entries filesSet hm hf p hp hs
  rcases mem_dir_modifyDir _ _ _ _ _ hm with hm | ⟨hname, old, he, hold⟩
  · exact h name entries filesSet hm hf p hp hs
  · rw [he] at hp
    rcases mem_writeEntry _ _ _ _ hp with hp | hp
    · rw [hp]; rfl
    · rcases hold with hold | hold
      · exact h name old filesSet (hname ▸ hold) hf p hp hs
      · rw [hold] at hp
        simp at hp

theorem strayFilesOnly_writeAll (foundFiles : FoundFiles) (items : List Item) :
    ∀ root : Directory, strayFilesOnly foundFiles root →
      strayFilesOnly foundFiles (writeAll items root) := by
  induction items with
  | nil => exact fun _ h => h
  | cons item rest ih => exact fun root h => ih _ (strayFilesOnly_writeStep _ item root h)

theorem removable_of_isFile (node : Node) (h : node.isFile = true) : node.removable = true := by
  cases node with
  | file content => rfl
  | dir sub => simp [Node.isFile] at h

theorem dir_writeStep_self (declined : List (List String)) (item : Item) (root : Directory)
    (h : canEnter declined root item.project = true) :
    ∃ entries, lookupEntry item.project (writeStep item root) = some (Node.dir entries) := by
  unfold writeStep
  rw [lookupEntry_modifyDir, if_pos rfl]
  unfold canEnter at h
  cases hl : lookupEntry item.project root with
  | none => exact ⟨_, rfl⟩
  | some node =>
    cases node with
    | file content => simp [hl] at h
    | dir entries => exact ⟨_, rfl⟩

theorem dir_writeStep (item : Item) (root : Directory) (project : String)
    (h : ∃ entries, lookupEntry project root = some (Node.dir entries)) :
    ∃ entries, lookupEntry project (writeStep item root) = some (Node.dir entries) := by
  obtain ⟨entries, he⟩ := h
  unfold writeStep
  rw [lookupEntry_modifyDir]
  by_cases hp : item.project = project
  · subst hp
    rw [if_pos rfl, he]
    exact ⟨_, rfl⟩
  · rw [if_neg hp]
    exact ⟨entries, he⟩

theorem dir_writeAll (items : List Item) (project : String) :
    ∀ root : Directory, (∃ entries, lookupEntry project root = some (Node.dir entries)) →
      ∃ entries, lookupEntry project (writeAll items root) = some (Node.dir entries) := by
  induction items with
  | nil => exact fun _ h => h
  | cons item rest ih => exact fun root h => ih _ (dir_writeStep item root project h)

theorem dir_writeAll_mem (declined : List (List String)) (items : List Item) :
    ∀ root : Directory, (∀ item ∈ items, canEnter declined root item.project = true) →
      ∀ item ∈ items,
        ∃ entries, lookupEntry item.project (writeAll items root) = some (Node.dir entries) := by
  induction items with
  | nil => intro _ _ item hitem; simp at hitem
  | cons head rest ih =>
    intro root hclear item hitem
    have hhead := hclear head (List.mem_cons_self _ _)
    rcases List.mem_cons.mp hitem with hitem | hitem
    · rw [hitem]
      exact dir_writeAll rest _ _ (dir_writeStep_self declined head root hhead)
    · apply ih (writeStep head root) _ item hitem
      intro it hit
      rw [canEnter_writeStep _ _ _ _ hhead]
      exact hclear it (List.mem_cons_of_mem _ hit)

/-- C13: for a registry whose names are segment names, when a run of `Dump`
ends without an error, a second run on the environment it leaves, with the same
registry in the same enumeration order, ends without an error too and leaves
the same output tree: the same entries with the same contents. -/
theorem Dump_idempotent (M : MetadataList) (schemaSystem : CSchemaSystem) (w w1 : World)
    (_hnames : segmentNames schemaSystem = true)
    (hrun : Dump M schemaSystem w = Run.ok w1) :
    ∃ w2 root, Dump M schemaSystem w1 = Run.ok w2
      ∧ w1.schemas = some (Node.dir root) ∧ w2.schemas = some (Node.dir root) := by
  rcases ensureSchemaPath_of_declined w with hraised | ⟨w0, hready, _, hs0⟩
  · unfold Dump at hrun
    rw [hraised] at hrun
    simp at hrun
  · obtain ⟨hclear0, hsync, hs1, hd1, _⟩ :=
      Dump_ok_inv M schemaSystem w w0 w1 (priorRoot w) hready hs0 hrun
    have hkeys := findFound_recordAll_key (registryItems M schemaSystem) []
    have hready1 : ensureSchemaPath w1 = Ensured.ready w1 := by
      unfold ensureSchemaPath
      rw [hs1]
    have hclear1 : ∀ item ∈ registryItems M schemaSystem,
        canEnter w1.declined (synchronized (recordAll (registryItems M schemaSystem) [])
          (writeAll (registryItems M schemaSystem) (priorRoot w))) item.project = true := by
      intro item hitem
      have hlen := hclear0 item hitem
      unfold canEnter at hlen ⊢
      simp only [Bool.and_eq_true, decide_eq_true_eq] at hlen
      obtain ⟨entries, he⟩ := dir_writeAll_mem w0.declined _ _ hclear0 item hitem
      cases hf : findFound item.project (recordAll (registryItems M schemaSystem) []) with
      | none => exact absurd hf (hkeys item hitem)
      | some filesSet =>
        rw [lookupEntry_synchronized_key _ _ _ hf _ _ he]
        simp [hlen.1]
    have hsync1 : syncable (recordAll (registryItems M schemaSystem) [])
        (writeAll (registryItems M schemaSystem)
          (synchronized (recordAll (registryItems M schemaSystem) [])
            (writeAll (registryItems M schemaSystem) (priorRoot w)))) := by
      constructor
      · intro name content hm
        have hm1 := mem_file_writeAll _ _ _ _ hm
        rcases (mem_synchronized _ _ _ _).mp hm1 with ⟨c, hc, hmem⟩ | ⟨_, _, _, _, he⟩
        · simp only [Node.file.injEq] at hc
          subst hc
          exact hsync.1 _ _ hmem
        · simp at he
      · intro name entries filesSet hm hf p hp hs
        exact removable_of_isFile _ (strayFilesOnly_writeAll _ _ _
          (strayFilesOnly_synchronized _ _) name entries filesSet hm hf p hp hs)
    obtain ⟨w2, hrun2, hs2, _⟩ := Dump_ok_intro M schemaSystem w1 w1 _ hready1 hs1 hclear1 hsync1
    refine ⟨w2, _, hrun2, hs1, ?_⟩
    rw [hs2, synchronized_writeAll_absorb _ _ hkeys, writeAll_idem]

/-- C13, at `registryA` on `usedWorld`: the names are segment names, the first
run ends without an error, and so does the second, on the same tree. -/
theorem Dump_idempotent_witness :
    segmentNames registryA = true
      ∧ Dump noTables registryA usedWorld
        = Run.ok { schemas := some (Node.dir usedRootAfter), declined := [],
                   stringsIgnoreStream := "A\n" }
      ∧ ∃ w2 root,
          Dump noTables registryA
              { schemas := some (Node.dir usedRootAfter), declined := [],
                stringsIgnoreStream := "A\n" }
            = Run.ok w2
          ∧ some (Node.dir usedRootAfter) = some (Node.dir root)
          ∧ w2.schemas = some (Node.dir root) :=
  ⟨by decide, rfl, Dump_idempotent noTables registryA usedWorld _ (by decide) rfl⟩

/-! ## Paths below the root after a write -/

theorem lookupPath_writeStep_other (item : Item) (root : Directory) (project fileName : String)
    (h : ¬ (item.project = project ∧ artifactFileName item.name = fileName)) :
    lookupPath (writeStep item root) project fileName = lookupPath root project fileName := by
  unfold lookupPath writeStep
  rw [lookupEntry_modifyDir]
  by_cases hp : item.project = project
  · have hf : fileName ≠ artifactFileName item.name := fun e => h ⟨hp, e.symm⟩
    subst hp
    rw [if_pos rfl]
    cases hl : lookupEntry item.project root with
    | none =>
      simp only
      rw [lookupEntry_writeEntry_ne _ _ _ hf]
      rfl
    | some node =>
      cases node with
      | file content => rfl
      | dir entries =>
        simp only
        rw [lookupEntry_writeEntry_ne _ _ _ hf]
  · rw [if_neg hp]

theorem lookupEntry_writeEntry_file (fileName text : String) (entries : Directory)
    (hlen : ¬ NAME_MAX < fileName.length)
    (h : ∀ sub, lookupEntry fileName entries ≠ some (Node.dir sub)) :
    lookupEntry fileName (writeEntry fileName text entries) = some (Node.file text) := by
  rw [writeEntry_of_short _ _ _ hlen]
  cases hl : lookupEntry fileName entries with
  | none => simp [lookupEntry_setEntry]
  | some node =>
    cases node with
    | file content => simp [lookupEntry_setEntry]
    | dir sub => exact absurd hl (h sub)

theorem lookupPath_writeStep_self (declined : List (List String)) (item : Item) (root : Directory)
    (henter : canEnter declined root item.project = true)
    (hlen : ¬ NAME_MAX < (artifactFileName item.name).length)
    (hopen : ∀ sub, lookupPath root item.project (artifactFileName item.name)
      ≠ some (Node.dir sub)) :
    lookupPath (writeStep item root) item.project (artifactFileName item.name)
      = some (Node.file item.text) := by
  unfold lookupPath at hopen ⊢
  unfold writeStep
  rw [lookupEntry_modifyDir, if_pos rfl]
  cases hl : lookupEntry item.project root with
  | none =>
    simp only
    exact lookupEntry_writeEntry_file _ _ _ hlen (fun sub => by simp [lookupEntry])
  | some node =>
    cases node with
    | file content => simp [canEnter, hl] at henter
    | dir entries =>
      rw [hl] at hopen
      simp only
      exact lookupEntry_writeEntry_file _ _ _ hlen hopen

theorem lookupPath_writeStep_dir (item : Item) (root : Directory) (project fileName : String)
    (h : ∀ sub, lookupPath root project fileName ≠ some (Node.dir sub)) :
    ∀ sub, lookupPath (writeStep item root) project fileName ≠ some (Node.dir sub) := by
  by_cases hsame : item.project = project ∧ artifactFileName item.name = fileName
  · obtain ⟨hp, hf⟩ := hsame
    subst hp
    subst hf
    intro sub
    unfold lookupPath at h ⊢
    unfold writeStep
    rw [lookupEntry_modifyDir, if_pos rfl]
    by_cases hlen : NAME_MAX < (artifactFileName item.name).length
    · cases hl : lookupEntry item.project root with
      | none =>
        simp only
        rw [writeEntry_of_long _ _ _ hlen]
        simp [lookupEntry]
      | some node =>
        cases node with
        | file content => simp
        | dir entries =>
          rw [hl] at h
          simp only
          rw [writeEntry_of_long _ _ _ hlen]
          exact h sub
    · cases hl : lookupEntry item.project root with
      | none =>
        simp only
        rw [lookupEntry_writeEntry_file _ _ _ hlen (fun sub => by simp [lookupEntry])]
        simp
      | some node =>
        cases node with
        | file content => simp
        | dir entries =>
          rw [hl] at h
          simp only
          rw [lookupEntry_writeEntry_file _ _ _ hlen h]
          simp
  · rw [lookupPath_writeStep_other item root project fileName hsame]
    exact h

theorem quoted_eq_inDoubleQuotes (s : String) : quoted s = inDoubleQuotes s := by
  unfold quoted inDoubleQuotes doubleQuote
  apply String.ext
  simp [String.data_append]

theorem firstBytes_eq_take (n : Nat) : ∀ p : List Char, firstBytes n p = p.take n := by
  induction n with
  | zero => intro p; simp [firstBytes]
  | succ n ih =>
    intro p
    cases p with
    | nil => simp [firstBytes]
    | cons b rest => simp [firstBytes, ih]

theorem beforeTerminator_eq_takeWhile (p : List Char) :
    beforeTerminator p = p.takeWhile (fun c => c ≠ NUL) := by
  induction p with
  | nil => rfl
  | cons b rest ih =>
    by_cases hb : b = NUL
    · simp [beforeTerminator, List.takeWhile, hb]
    · simp [beforeTerminator, List.takeWhile, hb, ih]

theorem int32OfBytes_eq_littleEndian (p : List Char) :
    int32OfBytes p = twosComplement32 (littleEndian (firstBytes 4 p)) := by
  have hnul : NUL.toNat % 256 = 0 := by decide
  match p with
  | [] =>
    simp only [int32OfBytes, firstBytes, littleEndian, List.getD_nil, hnul]
    rfl
  | [b0] =>
    simp only [int32OfBytes, firstBytes, littleEndian, List.getD_cons_zero, List.getD_cons_succ,
      List.getD_nil, hnul, twosComplement32]
    simp
  | [b0, b1] =>
    simp only [int32OfBytes, firstBytes, littleEndian, List.getD_cons_zero, List.getD_cons_succ,
      List.getD_nil, hnul, twosComplement32]
    have h : b0.toNat % 256 + b1.toNat % 256 * 2 ^ 8 + 0 * 2 ^ 16 + 0 * 2 ^ 24
        = b0.toNat % 256 + 256 * (b1.toNat % 256 + 256 * 0) := by omega
    rw [h]
  | [b0, b1, b2] =>
    simp only [int32OfBytes, firstBytes, littleEndian, List.getD_cons_zero, List.getD_cons_succ,
      List.getD_nil, hnul, twosComplement32]
    have h : b0.toNat % 256 + b1.toNat % 256 * 2 ^ 8 + b2.toNat % 256 * 2 ^ 16 + 0 * 2 ^ 24
        = b0.toNat % 256 + 256 * (b1.toNat % 256 + 256 * (b2.toNat % 256 + 256 * 0)) := by omega
    rw [h]
  | b0 :: b1 :: b2 :: b3 :: rest =>
    rw [littleEndian_four]
    rfl

/-- C6: `GetMetadataValue` classifies an entry by the FNV-1a hash of its name
against the tables in the order string, integer, float, inline string: its
result is the value formatted by the rule of the first table that contains the
hash, and it is empty exactly when the hash is in none of the four tables. With
the sample tables: the string `hello` gives `"hello"`; the integer bytes
`2A 00 00 00` give `42` and `FE FF FF FF` give `-2`, whatever follows them; the
float bytes `00 00 C0 3F` give the rendering of `1.5`; the inline string `AB`,
terminator, `garba` gives `"AB"` and `ABCDEFGH` gives `"ABCDEFGH"`; a name that
is in the string table and in the integer table is formatted as a string; a name
in no table has no value. -/
theorem GetMetadataValue_classifies (M : MetadataList) (entry : SchemaMetadataEntryData_t) :
    GetMetadataValue M entry
        = (classify M (hash_32_fnv1a_const entry.m_pszName)).map (formatAs M entry.m_pData)
      ∧ (GetMetadataValue M entry = none ↔
          hash_32_fnv1a_const entry.m_pszName ∉ M.string_metadata_entries
          ∧ hash_32_fnv1a_const entry.m_pszName ∉ M.integer_metadata_entries
          ∧ hash_32_fnv1a_const entry.m_pszName ∉ M.float_metadata_entries
          ∧ hash_32_fnv1a_const entry.m_pszName ∉ M.inline_string_metadata_entries)
      ∧ GetMetadataValue sampleTables (sampleEntry "title" ['x', 'y'] "hello") = some "\"hello\""
      ∧ GetMetadataValue sampleTables
          (sampleEntry "count" [Char.ofNat 42, Char.ofNat 0, Char.ofNat 0, Char.ofNat 0, 'x'] "p")
          = some "42"
      ∧ GetMetadataValue sampleTables
          (sampleEntry "count" [Char.ofNat 254, Char.ofNat 255, Char.ofNat 255, Char.ofNat 255] "p")
          = some "-2"
      ∧ GetMetadataValue sampleTables
          (sampleEntry "scale" [Char.ofNat 0, Char.ofNat 0, Char.ofNat 192, Char.ofNat 63, 'z'] "p")
          = some "1.500000"
      ∧ GetMetadataValue sampleTables
          (sampleEntry "tag" ['A', 'B', NUL, 'g', 'a', 'r', 'b', 'a'] "p") = some "\"AB\""
      ∧ GetMetadataValue sampleTables
          (sampleEntry "tag" ['A', 'B', 'C', 'D', 'E', 'F', 'G', 'H', 'I'] "p")
          = some "\"ABCDEFGH\""
      ∧ GetMetadataValue sampleTables
          (sampleEntry "both" [Char.ofNat 42, Char.ofNat 0, Char.ofNat 0, Char.ofNat 0] "text")
          = some "\"text\""
      ∧ GetMetadataValue sampleTables (sampleEntry "other" ['A', NUL] "p") = none := by
  refine ⟨?_, ?_, by decide, by decide, by decide, by decide, by decide, by decide, by decide,
    by decide⟩
  · unfold GetMetadataValue classify tablesInOrder
    by_cases hs : hash_32_fnv1a_const entry.m_pszName ∈ M.string_metadata_entries
    · simp [hs, formatAs, List.find?, quoted_eq_inDoubleQuotes]
    · by_cases hi : hash_32_fnv1a_const entry.m_pszName ∈ M.integer_metadata_entries
      · simp [hs, hi, formatAs, List.find?, int32OfBytes_eq_littleEndian, to_string]
      · by_cases hf : hash_32_fnv1a_const entry.m_pszName ∈ M.float_metadata_entries
        · simp [hs, hi, hf, formatAs, List.find?, firstBytes_eq_take]
        · by_cases hn : hash_32_fnv1a_const entry.m_pszName ∈ M.inline_string_metadata_entries
          · simp [hs, hi, hf, hn, formatAs, List.find?, inlineStringLoop_spec,
              quoted_eq_inDoubleQuotes, firstBytes_eq_take, beforeTerminator_eq_takeWhile]
          · simp [hs, hi, hf, hn, List.find?]
  · unfold GetMetadataValue
    by_cases hs : hash_32_fnv1a_const entry.m_pszName ∈ M.string_metadata_entries
    · simp [hs]
    · by_cases hi : hash_32_fnv1a_const entry.m_pszName ∈ M.integer_metadata_entries
      · simp [hs, hi]
      · by_cases hf : hash_32_fnv1a_const entry.m_pszName ∈ M.float_metadata_entries
        · simp [hs, hi, hf]
        · by_cases hn : hash_32_fnv1a_const entry.m_pszName ∈ M.inline_string_metadata_entries
          · simp [hs, hi, hf, hn]
          · simp [hs, hi, hf, hn]

/-! ## Types that share an artifact -/

/-- C18, at two registries and no earlier output. Where no name has a period,
the run does what the claim says: of the classes `A::B`, `A__B` and the enum
`A__B` of project `P`, one name is recorded and `P/A__B.h` holds the text of the
enum, processed last. With the class `A` and the enum `A` of project `P`
followed by the class `A.x` of the same project: the pair is recorded once, but
`P/A.h` ends with the text of the class `A.x`, not with the text of the enum
`A`, the last of the pair. With the class `a.b` and the enum `a.b`: the pair is
recorded once, and when `Dump` returns there is no artifact at all. -/
theorem colliding_types_dotted_name (M : MetadataList) :
    Dump M collidingRegistry freshWorld
        = Run.ok
          { schemas := some (Node.dir
              [("P", Node.dir [("A__B.h", Node.file "enum A__B : uint16_t\n\x7b\n\x7d;\n")])]),
            declined := [],
            stringsIgnoreStream := "A::B\nA__B\nA__B\n" }
      ∧ discovered M collidingRegistry freshWorld = [("P", ["A__B"])]
      ∧ Dump M shadowedRegistry freshWorld
        = Run.ok
          { schemas := some (Node.dir
              [("P", Node.dir [("A.h", Node.file "class A.x\n\x7b\n\x7d;\n")])]),
            declined := [],
            stringsIgnoreStream := "A\nA\nA.x\n" }
      ∧ discovered M shadowedRegistry freshWorld = [("P", ["A.x", "A"])]
      ∧ enumText M (plainEnum "A" "P" 4) = "enum A : uint32_t\n\x7b\n\x7d;\n"
      ∧ Dump M dottedPairRegistry freshWorld
        = Run.ok
          { schemas := some (Node.dir [("P", Node.dir [])]),
            declined := [],
            stringsIgnoreStream := "a.b\na.b\n" }
      ∧ discovered M dottedPairRegistry freshWorld = [("P", ["a.b"])] :=
  ⟨rfl, rfl, rfl, rfl, rfl, rfl, rfl⟩

/-! ## A project directory that cannot be created -/

theorem nodup_names_modifyDir (project : String) (g : Directory → Directory) (root : Directory)
    (h : (root.map Prod.fst).Nodup) : ((modifyDir project g root).map Prod.fst).Nodup := by
  cases hl : lookupEntry project root with
  | none =>
    rw [modifyDir_of_none _ _ _ hl, List.map_append, List.nodup_append]
    refine ⟨h, List.nodup_singleton _, ?_⟩
    intro a ha hb
    simp only [List.map_cons, List.map_nil, List.mem_singleton] at hb
    rw [hb] at ha
    exact (lookupEntry_eq_none_iff _ _).mp hl ha
  | some node =>
    cases node with
    | file content => rw [modifyDir_of_file _ _ _ _ hl]; exact h
    | dir entries => rw [modifyDir_of_dir _ _ _ _ hl]; exact nodup_names_setEntry _ _ _ h

theorem nodup_names_writeAll (items : List Item) :
    ∀ root : Directory, (root.map Prod.fst).Nodup →
      ((writeAll items root).map Prod.fst).Nodup := by
  induction items with
  | nil => exact fun _ h => h
  | cons item rest ih => exact fun root h => ih _ (nodup_names_modifyDir _ _ root h)

theorem nodup_names_writeEntry (fileName text : String) (entries : Directory)
    (h : (entries.map Prod.fst).Nodup) :
    ((writeEntry fileName text entries).map Prod.fst).Nodup := by
  by_cases hlen : NAME_MAX < fileName.length
  · rw [writeEntry_of_long _ _ _ hlen]; exact h
  · rw [writeEntry_of_short _ _ _ hlen]
    cases hl : lookupEntry fileName entries with
    | none => exact nodup_names_setEntry _ _ _ h
    | some node =>
      cases node with
      | file content => exact nodup_names_setEntry _ _ _ h
      | dir sub => exact h

theorem forall_dir_writeStep (Q : String → Directory → Prop) (item : Item) (root : Directory)
    (h : ∀ name entries, (name, Node.dir entries) ∈ root → Q name entries)
    (hempty : Q item.project [])
    (hstep : ∀ entries, Q item.project entries →
      Q item.project (writeEntry (artifactFileName item.name) item.text entries)) :
    ∀ name entries, (name, Node.dir entries) ∈ writeStep item root → Q name entries := by
  intro name entries hm
  rcases mem_dir_modifyDir _ _ _ _ _ hm with hm | ⟨hname, old, he, hold⟩
  · exact h name entries hm
  · rw [hname, he]
    rcases hold with hold | hold
    · exact hstep old (h _ _ hold)
    · rw [hold]; exact hstep [] hempty

theorem forall_dir_writeAll (Q : String → Directory → Prop) (items : List Item)
    (hempty : ∀ item ∈ items, Q item.project [])
    (hstep : ∀ item ∈ items, ∀ entries, Q item.project entries →
      Q item.project (writeEntry (artifactFileName item.name) item.text entries)) :
    ∀ root : Directory, (∀ name entries, (name, Node.dir entries) ∈ root → Q name entries) →
      ∀ name entries, (name, Node.dir entries) ∈ writeAll items root → Q name entries := by
  induction items with
  | nil => exact fun _ h => h
  | cons item rest ih =>
    intro root h
    exact ih (fun it hit => hempty it (List.mem_cons_of_mem _ hit))
      (fun it hit => hstep it (List.mem_cons_of_mem _ hit)) _
      (forall_dir_writeStep Q item root h (hempty item (List.mem_cons_self _ _))
        (hstep item (List.mem_cons_self _ _)))

theorem mem_file_modifyDir_of_mem (project : String) (g : Directory → Directory)
    (root : Directory) (name content : String) (h : (name, Node.file content) ∈ root) :
    (name, Node.file content) ∈ modifyDir project g root := by
  induction root with
  | nil => simp at h
  | cons p rest ih =>
    obtain ⟨n, node⟩ := p
    by_cases hn : n = project
    · cases node with
      | file c => simpa [modifyDir, hn] using h
      | dir es =>
        simp only [modifyDir, hn, if_true, List.mem_cons, Prod.mk.injEq]
        rcases List.mem_cons.mp h with h | h
        · simp at h
        · exact Or.inr h
    · simp only [modifyDir, hn, if_false, List.mem_cons]
      rcases List.mem_cons.mp h with h | h
      · exact Or.inl h
      · exact Or.inr (ih h)

theorem mem_file_writeAll_of_mem (items : List Item) (name content : String) :
    ∀ root : Directory, (name, Node.file content) ∈ root →
      (name, Node.file content) ∈ writeAll items root := by
  induction items with
  | nil => exact fun _ h => h
  | cons item rest ih => exact fun root h => ih _ (mem_file_modifyDir_of_mem _ _ root _ _ h)

theorem file_writeStep (item : Item) (root : Directory) (project fileName : String)
    (h : ∃ text, lookupPath root project fileName = some (Node.file text)) :
    ∃ text, lookupPath (writeStep item root) project fileName = some (Node.file text) := by
  obtain ⟨text, ht⟩ := h
  by_cases hsame : item.project = project ∧ artifactFileName item.name = fileName
  · obtain ⟨hp, hf⟩ := hsame
    subst hp
    subst hf
    unfold lookupPath at ht ⊢
    unfold writeStep
    rw [lookupEntry_modifyDir, if_pos rfl]
    cases hl : lookupEntry item.project root with
    | none => simp [hl] at ht
    | some node =>
      cases node with
      | file content => simp [hl] at ht
      | dir entries =>
        rw [hl] at ht
        simp only at ht ⊢
        by_cases hlen : NAME_MAX < (artifactFileName item.name).length
        · rw [writeEntry_of_long _ _ _ hlen]
          exact ⟨text, ht⟩
        · exact ⟨item.text, lookupEntry_writeEntry_file _ _ _ hlen (fun sub => by simp [ht])⟩
  · rw [lookupPath_writeStep_other item root project fileName hsame]
    exact ⟨text, ht⟩

theorem file_writeAll (items : List Item) (project fileName : String) :
    ∀ root : Directory, (∃ text, lookupPath root project fileName = some (Node.file text)) →
      ∃ text, lookupPath (writeAll items root) project fileName = some (Node.file text) := by
  induction items with
  | nil => exact fun _ h => h
  | cons item rest ih => exact fun root h => ih _ (file_writeStep item root project fileName h)

theorem opens_iff (root : Directory) (item : Item) :
    opens root item = true
      ↔ ¬ NAME_MAX < (artifactFileName item.name).length
        ∧ ∀ sub, lookupPath root item.project (artifactFileName item.name)
            ≠ some (Node.dir sub) := by
  unfold opens
  simp only [Bool.and_eq_true, decide_eq_true_eq, Nat.not_lt]
  constructor
  · rintro ⟨h1, h2⟩
    refine ⟨h1, ?_⟩
    intro sub hs
    rw [hs] at h2
    simp at h2
  · rintro ⟨h1, h2⟩
    refine ⟨h1, ?_⟩
    cases hl : lookupPath root item.project (artifactFileName item.name) with
    | none => rfl
    | some node =>
      cases node with
      | file content => rfl
      | dir sub => exact absurd hl (h2 sub)

theorem opens_writeStep (item other : Item) (root : Directory) (h : opens root item = true) :
    opens (writeStep other root) item = true := by
  rw [opens_iff] at h ⊢
  exact ⟨h.1, lookupPath_writeStep_dir other root _ _ h.2⟩

theorem file_writeAll_mem (declined : List (List String)) (items : List Item) :
    ∀ root : Directory, (∀ item ∈ items, canEnter declined root item.project = true) →
      (∀ item ∈ items, opens root item = true) →
      ∀ item ∈ items, ∃ text,
        lookupPath (writeAll items root) item.project (artifactFileName item.name)
          = some (Node.file text) := by
  induction items with
  | nil => intro _ _ _ item hitem; simp at hitem
  | cons head rest ih =>
    intro root hclear hopen item hitem
    have hhead := hclear head (List.mem_cons_self _ _)
    rcases List.mem_cons.mp hitem with hitem | hitem
    · rw [hitem]
      have ho := (opens_iff root head).mp (hopen head (List.mem_cons_self _ _))
      exact file_writeAll rest _ _ _
        ⟨head.text, lookupPath_writeStep_self declined head root hhead ho.1 ho.2⟩
    · apply ih (writeStep head root) _ _ item hitem
      · intro it hit
        rw [canEnter_writeStep _ _ _ _ hhead]
        exact hclear it (List.mem_cons_of_mem _ hit)
      · intro it hit
        exact opens_writeStep it head root (hopen it (List.mem_cons_of_mem _ hit))

theorem key_of_recordAll (items : List Item) (project : String) :
    ∀ foundFiles : FoundFiles, findFound project (recordAll items foundFiles) ≠ none →
      findFound project foundFiles ≠ none ∨ ∃ item ∈ items, item.project = project := by
  induction items with
  | nil => exact fun _ h => Or.inl h
  | cons head rest ih =>
    intro foundFiles h
    rcases ih _ h with h1 | ⟨item, hitem, hp⟩
    · rw [findFound_insertFound] at h1
      by_cases hp : head.project = project
      · exact Or.inr ⟨head, List.mem_cons_self _ _, hp⟩
      · rw [if_neg hp] at h1
        exact Or.inl h1
    · exact Or.inr ⟨item, List.mem_cons_of_mem _ hitem, hp⟩

theorem name_of_recordAll (items : List Item) (project n : String) :
    ∀ (foundFiles : FoundFiles) (filesSet : List String),
      findFound project (recordAll items foundFiles) = some filesSet → n ∈ filesSet →
      (∃ earlier, findFound project foundFiles = some earlier ∧ n ∈ earlier)
        ∨ ∃ item ∈ items, item.project = project ∧ sanitizedFileName item.name = n := by
  induction items with
  | nil => exact fun foundFiles filesSet h hn => Or.inl ⟨filesSet, h, hn⟩
  | cons head rest ih =>
    intro foundFiles filesSet h hn
    rcases ih _ filesSet h hn with ⟨earlier, he, hin⟩ | ⟨item, hitem, hp⟩
    · rw [findFound_insertFound] at he
      by_cases hp : head.project = project
      · rw [if_pos hp] at he
        simp only [Option.some.injEq] at he
        cases hf : findFound head.project foundFiles with
        | none =>
          rw [hf] at he
          simp only at he
          rw [← he, List.mem_singleton] at hin
          exact Or.inr ⟨head, List.mem_cons_self _ _, hp, hin.symm⟩
        | some old =>
          rw [hf] at he
          simp only at he
          by_cases hold : sanitizedFileName head.name ∈ old
          · rw [if_pos hold] at he
            rw [← he] at hin
            exact Or.inl ⟨old, by rw [← hp]; exact hf, hin⟩
          · rw [if_neg hold] at he
            rw [← he] at hin
            rcases List.mem_cons.mp hin with hin | hin
            · exact Or.inr ⟨head, List.mem_cons_self _ _, hp, hin.symm⟩
            · exact Or.inl ⟨old, by rw [← hp]; exact hf, hin⟩
      · rw [if_neg hp] at he
        exact Or.inl ⟨earlier, he, hin⟩
    · exact Or.inr ⟨item, List.mem_cons_of_mem _ hitem, hp⟩

theorem mem_setEntry_of_ne (key : String) (node : Node) (d : Directory) (p : String × Node)
    (h : p ∈ d) (hne : p.1 ≠ key) : p ∈ setEntry key node d := by
  induction d with
  | nil => simp at h
  | cons q rest ih =>
    obtain ⟨n, x⟩ := q
    by_cases hk : n = key
    · simp only [setEntry, hk, if_true]
      rcases List.mem_cons.mp h with h | h
      · rw [h, hk] at hne
        exact absurd rfl hne
      · exact List.mem_cons_of_mem _ h
    · simp only [setEntry, hk, if_false]
      rcases List.mem_cons.mp h with h | h
      · rw [h]; exact List.mem_cons_self _ _
      · exact List.mem_cons_of_mem _ (ih h)

theorem mem_or_file_writeEntry (fileName text : String) (entries : Directory)
    (p : String × Node) (h : p ∈ entries) :
    p ∈ writeEntry fileName text entries
      ∨ (p.1 = fileName
          ∧ lookupEntry fileName (writeEntry fileName text entries) = some (Node.file text)) := by
  by_cases hlen : NAME_MAX < fileName.length
  · rw [writeEntry_of_long _ _ _ hlen]; exact Or.inl h
  · by_cases hdir : ∃ sub, lookupEntry fileName entries = some (Node.dir sub)
    · obtain ⟨sub, hs⟩ := hdir
      rw [writeEntry_of_short _ _ _ hlen, hs]
      exact Or.inl h
    · have hnd : ∀ sub, lookupEntry fileName entries ≠ some (Node.dir sub) :=
        fun sub hs => hdir ⟨sub, hs⟩
      by_cases hp : p.1 = fileName
      · exact Or.inr ⟨hp, lookupEntry_writeEntry_file _ _ _ hlen hnd⟩
      · left
        rw [writeEntry_of_short _ _ _ hlen]
        cases hl : lookupEntry fileName entries with
        | none => exact mem_setEntry_of_ne _ _ _ _ h hp
        | some node =>
          cases node with
          | file content => exact mem_setEntry_of_ne _ _ _ _ h hp
          | dir sub => exact absurd hl (hnd sub)

theorem kept_writeEntry (written : String → Prop) (old entries : Directory)
    (fileName text : String) (hw : written fileName)
    (h : ∀ f node, (f, node) ∈ old →
      (f, node) ∈ entries
        ∨ (written f ∧ ∃ content, lookupEntry f entries = some (Node.file content))) :
    ∀ f node, (f, node) ∈ old →
      (f, node) ∈ writeEntry fileName text entries
        ∨ (written f ∧ ∃ content, lookupEntry f (writeEntry fileName text entries)
            = some (Node.file content)) := by
  intro f node hm
  rcases h f node hm with h1 | ⟨hwf, content, hc⟩
  · rcases mem_or_file_writeEntry fileName text entries (f, node) h1 with h2 | ⟨hf, hl⟩
    · exact Or.inl h2
    · right
      simp only at hf
      rw [hf]
      exact ⟨hw, text, hl⟩
  · right
    refine ⟨hwf, ?_⟩
    by_cases hf : f = fileName
    · subst hf
      by_cases hlen : NAME_MAX < f.length
      · rw [writeEntry_of_long _ _ _ hlen]
        exact ⟨content, hc⟩
      · exact ⟨text, lookupEntry_writeEntry_file _ _ _ hlen (fun sub => by simp [hc])⟩
    · rw [lookupEntry_writeEntry_ne _ _ _ hf]
      exact ⟨content, hc⟩

theorem kept_writeStep (written : String → Prop) (root0 : Directory) (item : Item)
    (root : Directory) (hw : written (artifactFileName item.name))
    (h : ∀ project old, lookupEntry project root0 = some (Node.dir old) →
      ∃ entries, lookupEntry project root = some (Node.dir entries)
        ∧ ∀ f node, (f, node) ∈ old →
            (f, node) ∈ entries
              ∨ (written f ∧ ∃ content, lookupEntry f entries = some (Node.file content))) :
    ∀ project old, lookupEntry project root0 = some (Node.dir old) →
      ∃ entries, lookupEntry project (writeStep item root) = some (Node.dir entries)
        ∧ ∀ f node, (f, node) ∈ old →
            (f, node) ∈ entries
              ∨ (written f ∧ ∃ content, lookupEntry f entries = some (Node.file content)) := by
  intro project old ho
  obtain ⟨entries, he, hk⟩ := h project old ho
  unfold writeStep
  rw [lookupEntry_modifyDir]
  by_cases hp : item.project = project
  · subst hp
    rw [if_pos rfl, he]
    exact ⟨_, rfl, kept_writeEntry written old entries _ _ hw hk⟩
  · rw [if_neg hp]
    exact ⟨entries, he, hk⟩

theorem kept_writeAll (written : String → Prop) (root0 : Directory) (items : List Item)
    (hw : ∀ item ∈ items, written (artifactFileName item.name)) :
    ∀ root : Directory,
      (∀ project old, lookupEntry project root0 = some (Node.dir old) →
        ∃ entries, lookupEntry project root = some (Node.dir entries)
          ∧ ∀ f node, (f, node) ∈ old →
              (f, node) ∈ entries
                ∨ (written f
                    ∧ ∃ content, lookupEntry f entries = some (Node.file content))) →
      ∀ project old, lookupEntry project root0 = some (Node.dir old) →
        ∃ entries, lookupEntry project (writeAll items root) = some (Node.dir entries)
          ∧ ∀ f node, (f, node) ∈ old →
              (f, node) ∈ entries
                ∨ (written f
                    ∧ ∃ content, lookupEntry f entries = some (Node.file content)) := by
  induction items with
  | nil => exact fun _ h => h
  | cons item rest ih =>
    exact fun root h =>
      ih (fun it hit => hw it (List.mem_cons_of_mem _ hit)) _
        (kept_writeStep written root0 item root (hw item (List.mem_cons_self _ _)) h)

theorem registryItems_plain (M : MetadataList) (schemaSystem : CSchemaSystem)
    (h : wellNamed schemaSystem = true) :
    ∀ item ∈ registryItems M schemaSystem, plainTypeName item.name = true := by
  intro item hitem
  simp only [wellNamed, Bool.and_eq_true, List.all_eq_true] at h
  have hscope : ∀ scope, scopeWellNamed scope = true → item ∈ scopeItems M scope →
      plainTypeName item.name = true := by
    intro scope hs hi
    rw [scopeWellNamed_iff] at hs
    simp only [scopeItems, List.mem_append, List.mem_map] at hi
    rcases hi with ⟨c, hc, rfl⟩ | ⟨e, he, rfl⟩
    · exact (hs.1 c hc).2
    · exact (hs.2 e he).2
  simp only [registryItems, List.mem_append, List.mem_flatten, List.mem_map] at hitem
  rcases hitem with ⟨l, ⟨scope, hsc, rfl⟩, hi⟩ | hi
  · exact hscope scope (h.1 scope hsc) hi
  · exact hscope _ h.2 hi

theorem deletionsSucceed_iff (foundFiles : FoundFiles) (root : Directory)
    (h : deletionsSucceed foundFiles root = true) :
    ∀ name entries filesSet, (name, Node.dir entries) ∈ root →
      findFound name foundFiles = some filesSet →
      ∀ p ∈ entries, stem p.1 ∉ filesSet → p.2.removable = true := by
  intro name entries filesSet hm hf p hp hs
  simp only [deletionsSucceed, List.all_eq_true] at h
  have h1 := h (name, Node.dir entries) hm
  simp only [hf, List.all_eq_true, Bool.or_eq_true, decide_eq_true_eq] at h1
  rcases h1 p hp with h2 | h2
  · exact absurd h2 hs
  · exact h2

theorem distinctNames_iff (root : Directory) (h : distinctNames root = true) :
    (root.map Prod.fst).Nodup
      ∧ ∀ name entries, (name, Node.dir entries) ∈ root → (entries.map Prod.fst).Nodup := by
  simp only [distinctNames, Bool.and_eq_true, decide_eq_true_eq, List.all_eq_true] at h
  refine ⟨h.1, ?_⟩
  intro name entries hm
  have h1 := h.2 (name, Node.dir entries) hm
  simpa using h1

theorem syncable_writeAll (declined : List (List String)) (items : List Item)
    (root0 : Directory) (hnodup : (root0.map Prod.fst).Nodup)
    (hclear : ∀ item ∈ items, canEnter declined root0 item.project = true)
    (hdel : ∀ name entries filesSet, (name, Node.dir entries) ∈ root0 →
      findFound name (recordAll items []) = some filesSet →
      ∀ p ∈ entries, stem p.1 ∉ filesSet → p.2.removable = true) :
    syncable (recordAll items []) (writeAll items root0) := by
  constructor
  · intro name content hm
    have hm0 := mem_file_writeAll _ _ _ _ hm
    have hl := lookupEntry_of_mem _ _ _ hnodup hm0
    cases hf : findFound name (recordAll items []) with
    | none => rfl
    | some filesSet =>
      have hkey : findFound name (recordAll items []) ≠ none := by rw [hf]; simp
      rcases key_of_recordAll items name [] hkey with h0 | ⟨item, hitem, hp⟩
      · simp [findFound] at h0
      · have hc := hclear item hitem
        rw [hp] at hc
        simp [canEnter, hl] at hc
  · exact forall_dir_writeAll
      (fun name entries => ∀ filesSet, findFound name (recordAll items []) = some filesSet →
        ∀ p ∈ entries, stem p.1 ∉ filesSet → p.2.removable = true)
      items
      (fun _ _ _ _ p hp => by simp at hp)
      (fun item _ entries h filesSet hf p hp hs => by
        rcases mem_writeEntry _ _ _ _ hp with hp | hp
        · rw [hp]; rfl
        · exact h filesSet hf p hp hs)
      root0
      (fun name entries hm filesSet hf => hdel name entries filesSet hm hf)
      |> fun h name entries filesSet hm hf => h name entries hm filesSet hf

/-- C1, amended: for a registry whose project names are single path segments
and whose type names are not empty and have no period and no path separator,
and an output root whose entries have distinct names, when every directory
creation, file open and deletion of the run succeeds, `Dump` returns and leaves
a root with distinct names in which every directory is a key of the
discovered-artifact set and every regular file was there before the run, and in
which every regular file that was at the root before the run still is. The
directory of each key has distinct names and holds the file `<name>.h` of every
name recorded for the key; every entry in it has a stem that is a recorded name,
and is a file named `<stem>.h` or was there before the run; and every entry that
was there before the run and whose stem is a recorded name is still there, or
it is named `<stem>.h` and a file of that name is there. -/
theorem Dump_reconciles (M : MetadataList) (schemaSystem : CSchemaSystem) (w : World)
    (hnamed : wellNamed schemaSystem = true)
    (hdistinct : distinctNames (priorRoot w) = true)
    (hsucceed : operationsSucceed M schemaSystem w = true) :
    ∃ w1 root, Dump M schemaSystem w = Run.ok w1
      ∧ w1.schemas = some (Node.dir root)
      ∧ (root.map Prod.fst).Nodup
      ∧ (∀ name node, (name, node) ∈ root →
          (∃ entries, node = Node.dir entries
              ∧ findFound name (discovered M schemaSystem w) ≠ none)
            ∨ (∃ content, node = Node.file content ∧ (name, node) ∈ priorRoot w))
      ∧ (∀ name content, (name, Node.file content) ∈ priorRoot w →
          (name, Node.file content) ∈ root)
      ∧ (∀ project filesSet, findFound project (discovered M schemaSystem w) = some filesSet →
          ∃ entries, lookupEntry project root = some (Node.dir entries)
            ∧ (entries.map Prod.fst).Nodup
            ∧ (∀ n ∈ filesSet, ∃ text, lookupEntry (n ++ ".h") entries = some (Node.file text))
            ∧ (∀ f node, (f, node) ∈ entries →
                stem f ∈ filesSet
                  ∧ ((∃ text, node = Node.file text ∧ f = stem f ++ ".h")
                      ∨ ∃ old, lookupEntry project (priorRoot w) = some (Node.dir old)
                          ∧ (f, node) ∈ old))
            ∧ (∀ old, lookupEntry project (priorRoot w) = some (Node.dir old) →
                ∀ f node, (f, node) ∈ old → stem f ∈ filesSet →
                  (f, node) ∈ entries
                    ∨ (f = stem f ++ ".h"
                        ∧ ∃ text, lookupEntry f entries = some (Node.file text)))) := by
  have hplain := registryItems_plain M schemaSystem hnamed
  obtain ⟨hnodup0, hdirs0⟩ := distinctNames_iff _ hdistinct
  simp only [operationsSucceed, Bool.and_eq_true, List.all_eq_true] at hsucceed
  obtain ⟨⟨hroot, hitems⟩, hdel0⟩ := hsucceed
  have hdel := deletionsSucceed_iff _ _ hdel0
  rcases ensureSchemaPath_of_declined w with hraised | ⟨w0, hready, hd0, hs0⟩
  · rw [hraised] at hroot
    simp at hroot
  · have hclear : ∀ item ∈ registryItems M schemaSystem,
        canEnter w0.declined (priorRoot w) item.project = true :=
      fun item hitem => by rw [hd0]; exact (hitems item hitem).1
    have hopen : ∀ item ∈ registryItems M schemaSystem, opens (priorRoot w) item = true :=
      fun item hitem => (hitems item hitem).2
    have hsync := syncable_writeAll w0.declined _ (priorRoot w) hnodup0 hclear hdel
    obtain ⟨w1, hrun, hs1, _⟩ :=
      Dump_ok_intro M schemaSystem w w0 (priorRoot w) hready hs0 hclear hsync
    obtain ⟨_, _, _, _, hdisc⟩ :=
      Dump_ok_inv M schemaSystem w w0 w1 (priorRoot w) hready hs0 hrun
    rw [hdisc]
    have hnodupX := nodup_names_writeAll (registryItems M schemaSystem) (priorRoot w) hnodup0
    have hnodup := hnodupX.sublist
      (synchronized_names_sublist (recordAll (registryItems M schemaSystem) []) _)
    refine ⟨w1, _, hrun, hs1, hnodup, ?_, ?_, ?_⟩
    · intro name node hm
      rcases (mem_synchronized _ _ _ _).mp hm with ⟨content, rfl, hr⟩ | ⟨entries, S, _, hf, rfl⟩
      · exact Or.inr ⟨content, rfl, mem_file_writeAll _ _ _ _ hr⟩
      · exact Or.inl ⟨_, rfl, by rw [hf]; simp⟩
    · intro name content hm
      exact (mem_synchronized _ _ _ _).mpr
        (Or.inl ⟨content, rfl, mem_file_writeAll_of_mem _ _ _ _ hm⟩)
    · intro project filesSet hf
      have hkey : findFound project (recordAll (registryItems M schemaSystem) []) ≠ none := by
        rw [hf]; simp
      rcases key_of_recordAll _ project [] hkey with h0 | ⟨item0, hitem0, hp0⟩
      · simp [findFound] at h0
      · obtain ⟨es, he⟩ := dir_writeAll_mem w0.declined _ _ hclear item0 hitem0
        rw [hp0] at he
        have hmemX := mem_of_lookupEntry _ _ _ he
        have hfinal := lookupEntry_synchronized_key _ _ _ hf _ _ he
        have hnd := forall_dir_writeAll (fun _ entries => (entries.map Prod.fst).Nodup)
          (registryItems M schemaSystem) (fun _ _ => List.nodup_nil)
          (fun item _ entries h => nodup_names_writeEntry _ _ _ h) (priorRoot w) hdirs0
          project es hmemX
        have horigin := forall_dir_writeAll
          (fun name entries => ∀ f node, (f, node) ∈ entries →
            (∃ text, node = Node.file text ∧ f = stem f ++ ".h")
              ∨ ∃ old, lookupEntry name (priorRoot w) = some (Node.dir old) ∧ (f, node) ∈ old)
          (registryItems M schemaSystem)
          (fun _ _ f node hm => by simp at hm)
          (fun item hitem entries h f node hm => by
            rcases mem_writeEntry _ _ _ _ hm with hm | hm
            · simp only [Prod.mk.injEq] at hm
              obtain ⟨hf1, hn1⟩ := hm
              left
              refine ⟨item.text, hn1, ?_⟩
              obtain ⟨ha, hst⟩ := artifactFileName_plain item.name (hplain item hitem)
              rw [hf1, ha, hst]
            · exact h f node hm)
          (priorRoot w)
          (fun name entries hm f node hfm =>
            Or.inr ⟨entries, lookupEntry_of_mem _ _ _ hnodup0 hm, hfm⟩)
          project es hmemX
        have hkept := kept_writeAll (fun f => f = stem f ++ ".h") (priorRoot w)
          (registryItems M schemaSystem)
          (fun item hitem => by
            obtain ⟨ha, hst⟩ := artifactFileName_plain item.name (hplain item hitem)
            show artifactFileName item.name = stem (artifactFileName item.name) ++ ".h"
            rw [ha, hst])
          (priorRoot w)
          (fun project old ho => ⟨old, ho, fun f node hm => Or.inl hm⟩)
        have hlook : ∀ f, stem f ∈ filesSet →
            lookupEntry f (es.filter (fun q => decide (stem q.1 ∈ filesSet)))
              = lookupEntry f es := by
          intro f hst
          have h := lookupEntry_filter (fun f => decide (stem f ∈ filesSet)) f es
          simp only [decide_eq_true_eq, if_pos hst] at h
          exact h
        refine ⟨es.filter (fun q => decide (stem q.1 ∈ filesSet)), hfinal,
          hnd.sublist ((List.filter_sublist _).map _), ?_, ?_, ?_⟩
        · intro n hn
          rcases name_of_recordAll _ project n [] filesSet hf hn with
            ⟨earlier, h0, _⟩ | ⟨item, hitem, hp, hsan⟩
          · simp [findFound] at h0
          · obtain ⟨text, ht⟩ :=
              file_writeAll_mem w0.declined _ (priorRoot w) hclear hopen item hitem
            obtain ⟨ha, hst⟩ := artifactFileName_plain item.name (hplain item hitem)
            rw [hp, ha, hsan] at ht
            rw [hsan] at hst
            unfold lookupPath at ht
            rw [he] at ht
            simp only at ht
            refine ⟨text, ?_⟩
            rw [hlook _ (by rw [hst]; exact hn)]
            exact ht
        · intro f node hfm
          rw [List.mem_filter] at hfm
          obtain ⟨hin, hst⟩ := hfm
          simp only [decide_eq_true_eq] at hst
          exact ⟨hst, horigin f node hin⟩
        · intro old ho f node hm hst
          obtain ⟨es2, he2, hk⟩ := hkept project old ho
          rw [he] at he2
          simp only [Option.some.injEq, Node.dir.injEq] at he2
          subst he2
          rcases hk f node hm with h1 | ⟨hw, content, hc⟩
          · left
            rw [List.mem_filter]
            exact ⟨h1, by simpa using hst⟩
          · right
            refine ⟨hw, content, ?_⟩
            rw [hlook f hst]
            exact hc

/-- C1, amended, at `registryA` on `nestedWorld`: the names are as required and
every operation succeeds; the run leaves `P` with the new `A.h`, with `A.txt`
and with the directory `A` and what it holds, removes `B.h` and the empty
directory `tmp`, and leaves `README` at the root. -/
theorem Dump_reconciles_witness :
    wellNamed registryA = true
      ∧ distinctNames (priorRoot nestedWorld) = true
      ∧ operationsSucceed noTables registryA nestedWorld = true
      ∧ Dump noTables registryA nestedWorld
        = Run.ok
          { schemas := some (Node.dir
              [("P", Node.dir [("A.h", Node.file "class A\n\x7b\n\x7d;\n"),
                               ("A.txt", Node.file "notes"),
                               ("A", Node.dir [("deep.h", Node.file "deep")])]),
               ("README", Node.file "readme")]),
            declined := [],
            stringsIgnoreStream := "A\n" }
      ∧ ∃ w1 root, Dump noTables registryA nestedWorld = Run.ok w1
        ∧ w1.schemas = some (Node.dir root)
        ∧ (root.map Prod.fst).Nodup
        ∧ (∀ name node, (name, node) ∈ root →
            (∃ entries, node = Node.dir entries
                ∧ findFound name (discovered noTables registryA nestedWorld) ≠ none)
              ∨ (∃ content, node = Node.file content ∧ (name, node) ∈ priorRoot nestedWorld))
        ∧ (∀ name content, (name, Node.file content) ∈ priorRoot nestedWorld →
            (name, Node.file content) ∈ root)
        ∧ (∀ project filesSet,
            findFound project (discovered noTables registryA nestedWorld) = some filesSet →
            ∃ entries, lookupEntry project root = some (Node.dir entries)
              ∧ (entries.map Prod.fst).Nodup
              ∧ (∀ n ∈ filesSet, ∃ text, lookupEntry (n ++ ".h") entries = some (Node.file text))
              ∧ (∀ f node, (f, node) ∈ entries →
                  stem f ∈ filesSet
                    ∧ ((∃ text, node = Node.file text ∧ f = stem f ++ ".h")
                        ∨ ∃ old, lookupEntry project (priorRoot nestedWorld) = some (Node.dir old)
                            ∧ (f, node) ∈ old))
              ∧ (∀ old, lookupEntry project (priorRoot nestedWorld) = some (Node.dir old) →
                  ∀ f node, (f, node) ∈ old → stem f ∈ filesSet →
                    (f, node) ∈ entries
                      ∨ (f = stem f ++ ".h"
                          ∧ ∃ text, lookupEntry f entries = some (Node.file text)))) :=
  ⟨by decide, by decide, by decide, rfl,
    Dump_reconciles noTables registryA nestedWorld (by decide) (by decide) (by decide)⟩

end Dumpers.Schemas
